import Mathlib

/-!
Verification development for the minimum-cost maximum-flow (MCMF) engine of
this repository.  The baseline engine (struct `mcmf` in
`saved_graph_solution_0.cpp`) is embedded shallowly below: pure functions over
`Array` values, with fuel for the loops of the label-correcting shortest-path
search (`spfa`), the predecessor walk, and the solver loop (`solve`), all
returning `Option` so that a run that the C++ source would not complete (out
of fuel, out-of-bounds access, nonterminating predecessor cycle) is `none`.
The unit-bottleneck variant (`MIN_COST_MAX_FLOW` in
`saved_graph_solution_1.cpp`) and the cost-scaling / blocking-flow variant
(`saved_graph_solution_6.cpp`) are embedded in their own namespaces.
-/

namespace Sol0

/-- Edge record of `saved_graph_solution_0.cpp`: target node `v`, index `rev`
of the paired reverse edge inside the adjacency list of `v`, capacity, cost
and current flow.  `edge(v, rev, cap, cost)` initializes `flow = 0`. -/
structure Edge where
  v : Nat
  rev : Nat
  cap : Int
  cost : Int
  flow : Int
deriving DecidableEq, Repr, Inhabited

/-- Adjacency-list graph `vector<vector<edge>> g`. -/
abbrev Graph := Array (Array Edge)

/-- Sentinel `const long long inf = 1e18 + 5`. -/
def inf : Int := 1000000000000000005

/-- Read the edge stored at adjacency position `i` of node `u` (a junk default
edge outside bounds; the C++ source has undefined behaviour there and every
verified run stays in bounds). -/
def edgeAt (g : Graph) (u i : Nat) : Edge :=
  (g.getD u #[]).getD i default

/-- Residual capacity `e.cap - e.flow` of the edge at position `(u, i)`. -/
def residualAt (g : Graph) (u i : Nat) : Int :=
  (edgeAt g u i).cap - (edgeAt g u i).flow

/-- The member function `mcmf::add_edge(u, v, cap, cost, directed)` for the
`directed = true` case: append the forward edge to `g[u]` and its
zero-capacity reverse companion to `g[v]`, each recording the other's
adjacency index (the sizes are read before either push, as in the source). -/
def addEdgeDirected (g : Graph) (u v : Nat) (cap cost : Int) : Graph :=
  let eU : Edge := ⟨v, (g.getD v #[]).size, cap, cost, 0⟩
  let eV : Edge := ⟨u, (g.getD u #[]).size, 0, -cost, 0⟩
  let g1 := g.setD u ((g.getD u #[]).push eU)
  g1.setD v ((g1.getD v #[]).push eV)

/-- The member function `mcmf::add_edge(u, v, cap, cost, directed)`.  When
`directed = false` the source recurses once with `directed = true`, adding the
symmetric pair `(v, u, cap, cost)` as well. -/
def add_edge (g : Graph) (u v : Nat) (cap cost : Int) (directed : Bool := true) : Graph :=
  if directed then addEdgeDirected g u v cap cost
  else addEdgeDirected (addEdgeDirected g u v cap cost) v u cap cost

/-- Build a graph on `nodes` nodes (the `mcmf(src, sink, nodes)` constructor
creates `g(nodes)` empty adjacency lists) from a list of
`add_edge(u, v, cap, cost, directed)` calls. -/
def buildGraph (nodes : Nat) (calls : List (Nat × Nat × Int × Int × Bool)) : Graph :=
  calls.foldl (fun g c => add_edge g c.1 c.2.1 c.2.2.1 c.2.2.2.1 c.2.2.2.2)
    (Array.mkArray nodes #[])

/-- Scratch state of `mcmf::spfa`: the distance vector `dis`, the predecessor
node `par` (`-1` marks the source), the predecessor edge index `idx`, the
in-queue flags `inq`, and the FIFO worklist `q` (front at the head). -/
structure SpfaSt where
  dis : Array Int
  par : Array Int
  idx : Array Nat
  inq : Array Bool
  q : List Nat
deriving DecidableEq, Repr

/-- Relaxation of the single edge `g[u][i]` from the body of the inner loop of
`mcmf::spfa`: skip the edge when `e.cap <= e.flow`; otherwise if
`dis[u] + e.cost < dis[e.v]`, record the new distance and the predecessor pair
and enqueue `e.v` unless it is already in the queue. -/
def relaxStep (g : Graph) (u : Nat) (st : SpfaSt) (i : Nat) : SpfaSt :=
  let e := edgeAt g u i
  if e.cap ≤ e.flow then st
  else if st.dis.getD u 0 + e.cost < st.dis.getD e.v 0 then
    let st1 : SpfaSt :=
      { st with
        dis := st.dis.setD e.v (st.dis.getD u 0 + e.cost)
        par := st.par.setD e.v (Int.ofNat u)
        idx := st.idx.setD e.v i }
    if st1.inq.getD e.v false then st1
    else { st1 with inq := st1.inq.setD e.v true, q := st1.q ++ [e.v] }
  else st

/-- Relax every outgoing edge of `u` in adjacency order (the inner `for` loop
of `mcmf::spfa`). -/
def relaxEdges (g : Graph) (u : Nat) (st : SpfaSt) : SpfaSt :=
  (List.range (g.getD u #[]).size).foldl (relaxStep g u) st

/-- The `while (!q.empty())` loop of `mcmf::spfa`, with fuel: pop the front
node, clear its in-queue flag, and relax its outgoing edges. -/
def spfaLoop (g : Graph) : Nat → SpfaSt → Option SpfaSt
  | 0, _ => none
  | fuel + 1, st =>
    match st.q with
    | [] => some st
    | u :: rest =>
        spfaLoop g fuel (relaxEdges g u { st with q := rest, inq := st.inq.setD u false })

/-- Initialization of `mcmf::spfa`: every distance `inf` and every in-queue
flag false, then `dis[src] = 0`, `par[src] = -1`, `inq[src] = true` and the
queue holds `src`.  The persistent `par`/`idx` members are taken as inputs. -/
def spfaInit (nodes src : Nat) (par0 : Array Int) (idx0 : Array Nat) : SpfaSt :=
  { dis := (Array.mkArray nodes inf).setD src 0
    par := par0.setD src (-1)
    idx := idx0
    inq := (Array.mkArray nodes false).setD src true
    q := [src] }

/-- The member function `mcmf::spfa` (its final state; the C++ return value is
`spfaReached`). -/
def spfa (g : Graph) (nodes src : Nat) (par0 : Array Int) (idx0 : Array Nat)
    (fuel : Nat) : Option SpfaSt :=
  spfaLoop g fuel (spfaInit nodes src par0 idx0)

/-- Return value of `mcmf::spfa`: `dis[sink] != inf`. -/
def spfaReached (st : SpfaSt) (sink : Nat) : Bool :=
  st.dis.getD sink 0 != inf

/-- The predecessor traversal
`for (int u = par[sink], v = idx[sink]; u != -1; v = idx[u], u = par[u])`
common to both loops of `mcmf::solve`, returning the visited positions
`(u, v)` in traversal order (sink side first).  `none` models a traversal the
C++ source would not complete: a negative non-`-1` index or an out-of-bounds
access (undefined behaviour) or a predecessor cycle (nontermination). -/
def walkChain (par : Array Int) (idx : Array Nat) (g : Graph) :
    Nat → Int → Nat → Option (List (Nat × Nat))
  | 0, _, _ => none
  | fuel + 1, u, v =>
    if u = -1 then some []
    else if 0 ≤ u ∧ u.toNat < g.size ∧ v < (g.getD u.toNat #[]).size then
      (walkChain par idx g fuel (par.getD u.toNat 0) (idx.getD u.toNat 0)).map
        (fun L => (u.toNat, v) :: L)
    else none

/-- First traversal of `mcmf::solve`: `bottleneck = min(bottleneck,
e.cap - e.flow)` over the predecessor path, starting from `inf`. -/
def bottleneckOf (g : Graph) (chain : List (Nat × Nat)) : Int :=
  chain.foldl (fun b p => min b (residualAt g p.1 p.2)) inf

/-- Store edge `e` at adjacency position `(u, i)` (no-op outside bounds). -/
def setEdgeAt (g : Graph) (u i : Nat) (e : Edge) : Graph :=
  g.setD u ((g.getD u #[]).setD i e)

/-- Push `b` units through the edge at `(u, i)`: `e.flow += b` and
`g[e.v][e.rev].flow -= b` (the companion indices are read from the edge before
the first update, as in the source). -/
def pushEdge (g : Graph) (u i : Nat) (b : Int) : Graph :=
  let e := edgeAt g u i
  let g1 := setEdgeAt g u i { e with flow := e.flow + b }
  let e2 := edgeAt g1 e.v e.rev
  setEdgeAt g1 e.v e.rev { e2 with flow := e2.flow - b }

/-- Second traversal of `mcmf::solve`: push the bottleneck through every edge
of the predecessor path. -/
def pushChain (g : Graph) (chain : List (Nat × Nat)) (b : Int) : Graph :=
  chain.foldl (fun h p => pushEdge h p.1 p.2 b) g

/-- Persistent state of an `mcmf` object between `spfa` calls: the graph and
the `par`/`idx` member vectors. -/
structure MState where
  g : Graph
  par : Array Int
  idx : Array Nat
deriving DecidableEq, Repr

/-- Fresh `mcmf(src, sink, nodes)` member state: empty flows come with the
graph, `par(nodes)` and `idx(nodes)` are zero-initialized vectors. -/
def mstate0 (g : Graph) (nodes : Nat) : MState :=
  ⟨g, Array.mkArray nodes 0, Array.mkArray nodes 0⟩

/-- The `while (spfa())` loop of `mcmf::solve`, with fuel.  Each iteration
runs `spfa`; on success it walks the predecessor path, computes the
bottleneck, pushes it, and accumulates `mincost += bottleneck * dis[sink]`
and `maxflow += bottleneck`.  The trace records `(dis[sink], bottleneck,
graph after the augmentation)` for every augmentation. -/
def solveLoop (nodes src sink spfaFuel : Nat) :
    Nat → MState → Int → Int → List (Int × Int × Graph) →
    Option (Int × Int × MState × List (Int × Int × Graph))
  | 0, _, _, _, _ => none
  | fuel + 1, M, mincost, maxflow, tr =>
    match spfa M.g nodes src M.par M.idx spfaFuel with
    | none => none
    | some st =>
      if spfaReached st sink then
        match walkChain st.par st.idx M.g (nodes + 1)
            (st.par.getD sink 0) (st.idx.getD sink 0) with
        | none => none
        | some chain =>
          let b := bottleneckOf M.g chain
          let g2 := pushChain M.g chain b
          let d := st.dis.getD sink 0
          solveLoop nodes src sink spfaFuel fuel ⟨g2, st.par, st.idx⟩
            (mincost + b * d) (maxflow + b) (tr ++ [(d, b, g2)])
      else some (mincost, maxflow, ⟨M.g, st.par, st.idx⟩, tr)

/-- The member function `mcmf::solve` starting from `mincost = maxflow = 0`,
together with the final member state and the augmentation trace. -/
def solveFull (nodes src sink spfaFuel fuel : Nat) (M : MState) :
    Option (Int × Int × MState × List (Int × Int × Graph)) :=
  solveLoop nodes src sink spfaFuel fuel M 0 0 []

/-- Return value `make_pair(mincost, maxflow)` of `mcmf::solve`. -/
def solve (nodes src sink spfaFuel fuel : Nat) (M : MState) : Option (Int × Int) :=
  (solveFull nodes src sink spfaFuel fuel M).map (fun r => (r.1, r.2.1))

end Sol0

/-! ### Array access helper lemmas -/

namespace Sol0

theorem getD_of_lt {α : Type} (a : Array α) (i : Nat) (d : α) (h : i < a.size) :
    a.getD i d = a[i] := by
  simp [Array.getD, h]

theorem getD_of_ge {α : Type} (a : Array α) (i : Nat) (d : α) (h : ¬ i < a.size) :
    a.getD i d = d := by
  simp [Array.getD, h]

theorem setD_of_ge {α : Type} (a : Array α) (i : Nat) (x : α) (h : ¬ i < a.size) :
    a.setD i x = a := by
  simp [Array.setD, h]

theorem getD_setD_self {α : Type} (a : Array α) (i : Nat) (x d : α) (h : i < a.size) :
    (a.setD i x).getD i d = x := by
  rw [getD_of_lt _ _ _ (by simpa [Array.size_setD] using h)]
  exact Array.getElem_setD a i x (by simpa [Array.size_setD] using h)

theorem getD_setD_ne {α : Type} (a : Array α) {i j : Nat} (x d : α) (h : j ≠ i) :
    (a.setD i x).getD j d = a.getD j d := by
  by_cases hi : i < a.size
  · by_cases hj : j < a.size
    · rw [getD_of_lt _ _ _ (by simpa [Array.size_setD] using hj), getD_of_lt _ _ _ hj]
      simp [Array.setD, hi]
      exact Array.get_set_ne a ⟨i, hi⟩ x hj (fun hh => h hh.symm)
    · rw [getD_of_ge _ _ _ (by simpa [Array.size_setD] using hj), getD_of_ge _ _ _ hj]
  · rw [setD_of_ge _ _ _ hi]

theorem getD_setD {α : Type} (a : Array α) (i j : Nat) (x d : α) :
    (a.setD i x).getD j d = if j = i ∧ i < a.size then x else a.getD j d := by
  by_cases hji : j = i
  · by_cases hi : i < a.size
    · simp [hji, hi, getD_setD_self]
    · simp [hji, hi, setD_of_ge _ _ _ hi]
  · simp [hji, getD_setD_ne _ _ _ hji]

theorem getD_push_lt {α : Type} (a : Array α) (x d : α) (i : Nat) (h : i < a.size) :
    (a.push x).getD i d = a.getD i d := by
  rw [getD_of_lt _ _ _ (by simp [Array.size_push]; omega), getD_of_lt _ _ _ h]
  exact Array.getElem_push_lt a x i h

theorem getD_push_size {α : Type} (a : Array α) (x d : α) :
    (a.push x).getD a.size d = x := by
  rw [getD_of_lt _ _ _ (by simp [Array.size_push])]
  exact Array.getElem_push_eq a x

theorem getD_mkArray_lt {α : Type} (n : Nat) (v d : α) (i : Nat) (h : i < n) :
    (Array.mkArray n v).getD i d = v := by
  rw [getD_of_lt _ _ _ (by simp [Array.size_mkArray, h])]
  exact Array.getElem_mkArray n v (by simp [Array.size_mkArray, h])

theorem size_setD {α : Type} (a : Array α) (i : Nat) (x : α) :
    (a.setD i x).size = a.size := Array.size_setD a i x

end Sol0

/-! ### Structural well-formedness of the residual graph -/

namespace Sol0

/-- Position `(u, i)` denotes a real edge of the graph. -/
def ValidLoc (g : Graph) (u i : Nat) : Prop :=
  u < g.size ∧ i < (g.getD u #[]).size

instance (g : Graph) (u i : Nat) : Decidable (ValidLoc g u i) := by
  unfold ValidLoc; infer_instance

/-- Position of the reverse companion recorded inside the edge at `(u, i)`. -/
def partnerLoc (g : Graph) (u i : Nat) : Nat × Nat :=
  ((edgeAt g u i).v, (edgeAt g u i).rev)

/-- Mutual pairing produced by `add_edge`: every edge's recorded companion
position is a real edge pointing back at it with the original indices. -/
def WF (g : Graph) : Prop :=
  ∀ u, u < g.size → ∀ i, i < (g.getD u #[]).size →
    ValidLoc g (partnerLoc g u i).1 (partnerLoc g u i).2 ∧
    partnerLoc g (partnerLoc g u i).1 (partnerLoc g u i).2 = (u, i)

instance (g : Graph) : Decidable (WF g) := by
  unfold WF; infer_instance

/-- Flow bounds for every pair: `flow ≤ cap` everywhere, and the flows of an
edge and its companion cancel. -/
def FlowInv (g : Graph) : Prop :=
  ∀ u, u < g.size → ∀ i, i < (g.getD u #[]).size →
    (edgeAt g u i).flow ≤ (edgeAt g u i).cap ∧
    (edgeAt g u i).flow +
      (edgeAt g (partnerLoc g u i).1 (partnerLoc g u i).2).flow = 0

instance (g : Graph) : Decidable (FlowInv g) := by
  unfold FlowInv; infer_instance

/-- Capacity classification produced by `add_edge`: capacities are
non-negative and at least one side of every pair has capacity `0`. -/
def CapInv (g : Graph) : Prop :=
  ∀ u, u < g.size → ∀ i, i < (g.getD u #[]).size →
    0 ≤ (edgeAt g u i).cap ∧
    ((edgeAt g u i).cap = 0 ∨
      (edgeAt g (partnerLoc g u i).1 (partnerLoc g u i).2).cap = 0)

instance (g : Graph) : Decidable (CapInv g) := by
  unfold CapInv; infer_instance

/-- Cost antisymmetry produced by `add_edge`: the companion carries `-cost`. -/
def CostInv (g : Graph) : Prop :=
  ∀ u, u < g.size → ∀ i, i < (g.getD u #[]).size →
    (edgeAt g u i).cost +
      (edgeAt g (partnerLoc g u i).1 (partnerLoc g u i).2).cost = 0

instance (g : Graph) : Decidable (CostInv g) := by
  unfold CostInv; infer_instance

/-- Two graphs share the whole structure except possibly the flow fields. -/
def sameShape (g g2 : Graph) : Prop :=
  g2.size = g.size ∧
  (∀ u, (g2.getD u #[]).size = (g.getD u #[]).size) ∧
  ∀ u, u < g.size → ∀ i, i < (g.getD u #[]).size →
    (edgeAt g2 u i).v = (edgeAt g u i).v ∧
    (edgeAt g2 u i).rev = (edgeAt g u i).rev ∧
    (edgeAt g2 u i).cap = (edgeAt g u i).cap ∧
    (edgeAt g2 u i).cost = (edgeAt g u i).cost

theorem sameShape_refl (g : Graph) : sameShape g g :=
  ⟨rfl, fun _ => rfl, fun _ _ _ _ => ⟨rfl, rfl, rfl, rfl⟩⟩

theorem sameShape_trans {g1 g2 g3 : Graph} (h12 : sameShape g1 g2)
    (h23 : sameShape g2 g3) : sameShape g1 g3 := by
  obtain ⟨hs12, hd12, he12⟩ := h12
  obtain ⟨hs23, hd23, he23⟩ := h23
  refine ⟨hs23.trans hs12, fun u => (hd23 u).trans (hd12 u), fun u hu i hi => ?_⟩
  obtain ⟨h1, h2, h3, h4⟩ := he12 u hu i hi
  obtain ⟨h5, h6, h7, h8⟩ := he23 u (hs12 ▸ hu) i ((hd12 u) ▸ hi)
  exact ⟨h5.trans h1, h6.trans h2, h7.trans h3, h8.trans h4⟩

theorem ValidLoc_of_sameShape {g g2 : Graph} (h : sameShape g g2) {u i : Nat}
    (hv : ValidLoc g u i) : ValidLoc g2 u i :=
  ⟨h.1 ▸ hv.1, (h.2.1 u) ▸ hv.2⟩

theorem edgeAt_of_not_valid {g : Graph} {u i : Nat} (h : ¬ ValidLoc g u i) :
    edgeAt g u i = default := by
  unfold ValidLoc at h
  push_neg at h
  by_cases hu : u < g.size
  · exact getD_of_ge _ _ _ (by have h2 := h hu; omega)
  · unfold edgeAt
    rw [getD_of_ge _ _ _ hu]
    rfl

theorem edgeV_of_sameShape {g g2 : Graph} (h : sameShape g g2) (u i : Nat) :
    (edgeAt g2 u i).v = (edgeAt g u i).v := by
  by_cases hv : ValidLoc g u i
  · exact (h.2.2 u hv.1 i hv.2).1
  · rw [edgeAt_of_not_valid hv,
      edgeAt_of_not_valid (fun hv2 => hv ⟨h.1 ▸ hv2.1, (h.2.1 u) ▸ hv2.2⟩)]

theorem edgeRev_of_sameShape {g g2 : Graph} (h : sameShape g g2) (u i : Nat) :
    (edgeAt g2 u i).rev = (edgeAt g u i).rev := by
  by_cases hv : ValidLoc g u i
  · exact (h.2.2 u hv.1 i hv.2).2.1
  · rw [edgeAt_of_not_valid hv,
      edgeAt_of_not_valid (fun hv2 => hv ⟨h.1 ▸ hv2.1, (h.2.1 u) ▸ hv2.2⟩)]

theorem edgeCap_of_sameShape {g g2 : Graph} (h : sameShape g g2) (u i : Nat) :
    (edgeAt g2 u i).cap = (edgeAt g u i).cap := by
  by_cases hv : ValidLoc g u i
  · exact (h.2.2 u hv.1 i hv.2).2.2.1
  · rw [edgeAt_of_not_valid hv,
      edgeAt_of_not_valid (fun hv2 => hv ⟨h.1 ▸ hv2.1, (h.2.1 u) ▸ hv2.2⟩)]

theorem edgeCost_of_sameShape {g g2 : Graph} (h : sameShape g g2) (u i : Nat) :
    (edgeAt g2 u i).cost = (edgeAt g u i).cost := by
  by_cases hv : ValidLoc g u i
  · exact (h.2.2 u hv.1 i hv.2).2.2.2
  · rw [edgeAt_of_not_valid hv,
      edgeAt_of_not_valid (fun hv2 => hv ⟨h.1 ▸ hv2.1, (h.2.1 u) ▸ hv2.2⟩)]

theorem partnerLoc_of_sameShape {g g2 : Graph} (h : sameShape g g2) (u i : Nat) :
    partnerLoc g2 u i = partnerLoc g u i := by
  unfold partnerLoc
  rw [edgeV_of_sameShape h, edgeRev_of_sameShape h]

theorem WF_of_sameShape {g g2 : Graph} (h : sameShape g g2) (hwf : WF g) :
    WF g2 := by
  intro u hu i hi
  have hu' : u < g.size := h.1 ▸ hu
  have hi' : i < (g.getD u #[]).size := (h.2.1 u) ▸ hi
  obtain ⟨hpv, hpp⟩ := hwf u hu' i hi'
  rw [partnerLoc_of_sameShape h]
  exact ⟨ValidLoc_of_sameShape h hpv, by rw [partnerLoc_of_sameShape h, hpp]⟩

theorem CapInv_of_sameShape {g g2 : Graph} (h : sameShape g g2) (hc : CapInv g) :
    CapInv g2 := by
  intro u hu i hi
  have hu' : u < g.size := h.1 ▸ hu
  have hi' : i < (g.getD u #[]).size := (h.2.1 u) ▸ hi
  obtain ⟨hc1, hc2⟩ := hc u hu' i hi'
  rw [partnerLoc_of_sameShape h, edgeCap_of_sameShape h,
    edgeCap_of_sameShape h]
  exact ⟨hc1, hc2⟩

theorem CostInv_of_sameShape {g g2 : Graph} (h : sameShape g g2) (hc : CostInv g) :
    CostInv g2 := by
  intro u hu i hi
  have hu' : u < g.size := h.1 ▸ hu
  have hi' : i < (g.getD u #[]).size := (h.2.1 u) ▸ hi
  have hc1 := hc u hu' i hi'
  rw [partnerLoc_of_sameShape h, edgeCost_of_sameShape h,
    edgeCost_of_sameShape h]
  exact hc1

end Sol0

/-! ### Effect of a single push and of a chain of pushes -/

namespace Sol0

theorem size_setEdgeAt (g : Graph) (u i : Nat) (e : Edge) :
    (setEdgeAt g u i e).size = g.size := by
  unfold setEdgeAt
  exact size_setD _ _ _

theorem deg_setEdgeAt (g : Graph) (u i : Nat) (e : Edge) (x : Nat) :
    ((setEdgeAt g u i e).getD x #[]).size = (g.getD x #[]).size := by
  unfold setEdgeAt
  rw [getD_setD]
  by_cases hx : x = u ∧ u < g.size
  · simp [hx, size_setD]
  · simp [hx]

theorem edgeAt_setEdgeAt (g : Graph) (u i : Nat) (e : Edge) (x j : Nat) :
    edgeAt (setEdgeAt g u i e) x j =
      if x = u ∧ j = i ∧ ValidLoc g u i then e else edgeAt g x j := by
  unfold setEdgeAt edgeAt ValidLoc
  rw [getD_setD]
  by_cases hu : u < g.size
  · by_cases hxu : x = u
    · subst hxu
      rw [if_pos (And.intro rfl hu), getD_setD]
      by_cases hji : j = i
      · subst hji
        by_cases hi : j < (g.getD x #[]).size
        · rw [if_pos (And.intro rfl hi), if_pos (And.intro rfl (And.intro rfl (And.intro hu hi)))]
        · rw [if_neg (fun hc => hi hc.2), if_neg (fun hc => hi hc.2.2.2)]
      · rw [if_neg (fun hc => hji hc.1), if_neg (fun hc => hji hc.2.1)]
    · rw [if_neg (fun hc => hxu hc.1), if_neg (fun hc => hxu hc.1)]
  · rw [if_neg (fun hc => hu hc.2), if_neg (fun hc => hu hc.2.2.1)]

theorem validLoc_setEdgeAt (g : Graph) (u i : Nat) (e : Edge) (x j : Nat) :
    ValidLoc (setEdgeAt g u i e) x j ↔ ValidLoc g x j := by
  unfold ValidLoc
  rw [size_setEdgeAt, deg_setEdgeAt]

theorem sameShape_setFlow (g : Graph) (u i : Nat) (f : Int) :
    sameShape g (setEdgeAt g u i { edgeAt g u i with flow := f }) := by
  refine ⟨size_setEdgeAt g u i _, fun x => deg_setEdgeAt g u i _ x, fun x hx j hj => ?_⟩
  rw [edgeAt_setEdgeAt]
  by_cases hc : x = u ∧ j = i ∧ ValidLoc g u i
  · rw [if_pos hc]
    obtain ⟨h1, h2, _⟩ := hc
    subst h1; subst h2
    exact ⟨rfl, rfl, rfl, rfl⟩
  · rw [if_neg hc]
    exact ⟨rfl, rfl, rfl, rfl⟩

theorem sameShape_pushEdge (g : Graph) (u i : Nat) (b : Int) :
    sameShape g (pushEdge g u i b) := by
  have h1 : sameShape g
      (setEdgeAt g u i { edgeAt g u i with flow := (edgeAt g u i).flow + b }) :=
    sameShape_setFlow g u i _
  exact sameShape_trans h1
    (sameShape_setFlow
      (setEdgeAt g u i { edgeAt g u i with flow := (edgeAt g u i).flow + b })
      (edgeAt g u i).v (edgeAt g u i).rev _)

theorem flow_pushEdge (g : Graph) (u i : Nat) (b : Int)
    (hv : ValidLoc g u i)
    (hpv : ValidLoc g (partnerLoc g u i).1 (partnerLoc g u i).2) (x j : Nat) :
    (edgeAt (pushEdge g u i b) x j).flow =
      (edgeAt g x j).flow + (if (x, j) = (u, i) then b else 0) -
        (if (x, j) = partnerLoc g u i then b else 0) := by
  have hpv' : ValidLoc g (edgeAt g u i).v (edgeAt g u i).rev := hpv
  have hresult : edgeAt (pushEdge g u i b) x j =
      (if x = (edgeAt g u i).v ∧ j = (edgeAt g u i).rev ∧
          ValidLoc (setEdgeAt g u i { edgeAt g u i with flow := (edgeAt g u i).flow + b })
            (edgeAt g u i).v (edgeAt g u i).rev then
        { edgeAt (setEdgeAt g u i { edgeAt g u i with flow := (edgeAt g u i).flow + b })
            (edgeAt g u i).v (edgeAt g u i).rev with
          flow := (edgeAt (setEdgeAt g u i { edgeAt g u i with flow := (edgeAt g u i).flow + b })
            (edgeAt g u i).v (edgeAt g u i).rev).flow - b }
      else edgeAt (setEdgeAt g u i { edgeAt g u i with flow := (edgeAt g u i).flow + b }) x j) :=
    edgeAt_setEdgeAt _ _ _ _ x j
  have hg1at : ∀ y k, edgeAt
      (setEdgeAt g u i { edgeAt g u i with flow := (edgeAt g u i).flow + b }) y k =
      if y = u ∧ k = i ∧ ValidLoc g u i then { edgeAt g u i with flow := (edgeAt g u i).flow + b }
      else edgeAt g y k := fun y k => edgeAt_setEdgeAt g u i _ y k
  have hval1 : ValidLoc (setEdgeAt g u i { edgeAt g u i with flow := (edgeAt g u i).flow + b })
      (edgeAt g u i).v (edgeAt g u i).rev := (validLoc_setEdgeAt g u i _ _ _).mpr hpv'
  rw [hresult]
  unfold partnerLoc
  by_cases hxp : x = (edgeAt g u i).v ∧ j = (edgeAt g u i).rev
  · obtain ⟨hx1, hj1⟩ := hxp
    rw [if_pos ⟨hx1, hj1, hval1⟩, hg1at]
    have hpar : (x, j) = ((edgeAt g u i).v, (edgeAt g u i).rev) := by
      rw [hx1, hj1]
    rw [if_pos hpar]
    by_cases hself : (edgeAt g u i).v = u ∧ (edgeAt g u i).rev = i
    · have hxy : (x, j) = (u, i) := by
        rw [hx1, hj1, hself.1, hself.2]
      rw [if_pos ⟨hself.1, hself.2, hv⟩, if_pos hxy]
      have hxu : x = u := by rw [hx1, hself.1]
      have hji : j = i := by rw [hj1, hself.2]
      subst hxu; subst hji
      simp only []
    · have hxy : ¬ ((x, j) = (u, i)) := by
        intro hcon
        have h1 : x = u := congrArg Prod.fst hcon
        have h2 : j = i := congrArg Prod.snd hcon
        exact hself ⟨hx1 ▸ h1, hj1 ▸ h2⟩
      rw [if_neg (fun hc => hself ⟨hc.1, hc.2.1⟩), if_neg hxy]
      have hxu : x = (edgeAt g u i).v := hx1
      have hji : j = (edgeAt g u i).rev := hj1
      subst hxu; subst hji
      simp only []
      ring
  · have hxp2 : ¬ ((x, j) = ((edgeAt g u i).v, (edgeAt g u i).rev)) := by
      intro hcon
      exact hxp ⟨congrArg Prod.fst hcon, congrArg Prod.snd hcon⟩
    rw [if_neg (fun hc => hxp ⟨hc.1, hc.2.1⟩), hg1at, if_neg hxp2]
    by_cases hxu : x = u ∧ j = i
    · rw [if_pos ⟨hxu.1, hxu.2, hv⟩, if_pos (by rw [hxu.1, hxu.2])]
      obtain ⟨h1, h2⟩ := hxu
      subst h1; subst h2
      simp only []
      ring
    · have hxy : ¬ ((x, j) = (u, i)) := by
        intro hcon
        exact hxu ⟨congrArg Prod.fst hcon, congrArg Prod.snd hcon⟩
      rw [if_neg (fun hc => hxu ⟨hc.1, hc.2.1⟩), if_neg hxy]
      ring

end Sol0

/-! ### Chains of pushes: counting formula and flow-invariant preservation -/

namespace Sol0

theorem partner_involution {g : Graph} (hwf : WF g) {u i : Nat}
    (hv : ValidLoc g u i) :
    partnerLoc g (partnerLoc g u i).1 (partnerLoc g u i).2 = (u, i) :=
  (hwf u hv.1 i hv.2).2

theorem partner_valid {g : Graph} (hwf : WF g) {u i : Nat}
    (hv : ValidLoc g u i) :
    ValidLoc g (partnerLoc g u i).1 (partnerLoc g u i).2 :=
  (hwf u hv.1 i hv.2).1

theorem partner_eq_iff {g : Graph} (hwf : WF g) {u i x j : Nat}
    (hv : ValidLoc g u i) (hx : ValidLoc g x j) :
    (x, j) = partnerLoc g u i ↔ partnerLoc g x j = (u, i) := by
  constructor
  · intro h
    have h1 : x = (partnerLoc g u i).1 := congrArg Prod.fst h
    have h2 : j = (partnerLoc g u i).2 := congrArg Prod.snd h
    rw [h1, h2, partner_involution hwf hv]
  · intro h
    have h1 : u = (partnerLoc g x j).1 := (congrArg Prod.fst h).symm
    have h2 : i = (partnerLoc g x j).2 := (congrArg Prod.snd h).symm
    rw [h1, h2, partner_involution hwf hx]

/-- Number of occurrences of a position in a chain. -/
def cnt (p : Nat × Nat) : List (Nat × Nat) → Nat
  | [] => 0
  | q :: L => cnt p L + (if p = q then 1 else 0)

theorem cnt_cons (p q : Nat × Nat) (L : List (Nat × Nat)) :
    cnt p (q :: L) = cnt p L + (if p = q then 1 else 0) := rfl

theorem cnt_eq_zero {p : Nat × Nat} : ∀ {L : List (Nat × Nat)}, p ∉ L → cnt p L = 0 := by
  intro L
  induction L with
  | nil => intro _; rfl
  | cons q L ih =>
    intro h
    rw [cnt_cons, ih (fun hm => h (List.mem_cons_of_mem q hm)),
      if_neg (fun he => h (by rw [he]; exact List.mem_cons_self q L))]

theorem cnt_eq_one {p : Nat × Nat} : ∀ {L : List (Nat × Nat)}, L.Nodup → p ∈ L →
    cnt p L = 1 := by
  intro L
  induction L with
  | nil => intro _ h; cases h
  | cons q L ih =>
    intro hnd hm
    rw [cnt_cons]
    by_cases hpq : p = q
    · rw [if_pos hpq, cnt_eq_zero (hpq ▸ (List.nodup_cons.mp hnd).1)]
    · rcases List.mem_cons.mp hm with he | ht
      · exact absurd he hpq
      · rw [if_neg hpq, ih (List.nodup_cons.mp hnd).2 ht]

theorem pushChain_cons (g : Graph) (p : Nat × Nat) (L : List (Nat × Nat)) (b : Int) :
    pushChain g (p :: L) b = pushChain (pushEdge g p.1 p.2 b) L b := rfl

theorem sameShape_pushChain (chain : List (Nat × Nat)) :
    ∀ g : Graph, ∀ b : Int, sameShape g (pushChain g chain b) := by
  induction chain with
  | nil => exact fun g b => sameShape_refl g
  | cons p L ih =>
    intro g b
    rw [pushChain_cons]
    exact sameShape_trans (sameShape_pushEdge g p.1 p.2 b) (ih _ b)

theorem flow_pushChain (b : Int) (chain : List (Nat × Nat)) :
    ∀ g : Graph, WF g → (∀ p ∈ chain, ValidLoc g p.1 p.2) →
    ∀ x j, ValidLoc g x j →
    (edgeAt (pushChain g chain b) x j).flow =
      (edgeAt g x j).flow + b * (cnt (x, j) chain : Int) -
        b * (cnt (partnerLoc g x j) chain : Int) := by
  induction chain with
  | nil =>
    intro g _ _ x j _
    simp [pushChain, cnt]
  | cons p L ih =>
    intro g hwf hvalid x j hx
    have hpv : ValidLoc g p.1 p.2 := hvalid p (List.mem_cons_self p L)
    have hppv : ValidLoc g (partnerLoc g p.1 p.2).1 (partnerLoc g p.1 p.2).2 :=
      partner_valid hwf hpv
    have hsh : sameShape g (pushEdge g p.1 p.2 b) := sameShape_pushEdge g p.1 p.2 b
    rw [pushChain_cons]
    have hLvalid : ∀ q ∈ L, ValidLoc (pushEdge g p.1 p.2 b) q.1 q.2 := fun q hq =>
      ValidLoc_of_sameShape hsh (hvalid q (List.mem_cons_of_mem p hq))
    have hx2 : ValidLoc (pushEdge g p.1 p.2 b) x j := ValidLoc_of_sameShape hsh hx
    rw [ih (pushEdge g p.1 p.2 b) (WF_of_sameShape hsh hwf) hLvalid x j hx2]
    rw [flow_pushEdge g p.1 p.2 b hpv hppv x j]
    rw [partnerLoc_of_sameShape hsh]
    have hcondiff : ((x, j) = partnerLoc g p.1 p.2) ↔ (partnerLoc g x j = p) := by
      rw [partner_eq_iff hwf hpv hx]
    rw [cnt_cons, cnt_cons]
    have heta : ((x, j) = (p.1, p.2)) = ((x, j) = p) := rfl
    simp only [heta, hcondiff]
    by_cases h1 : (x, j) = p
    · by_cases h2 : partnerLoc g x j = p
      · rw [if_pos h1, if_pos h2, if_pos h1, if_pos h2]
        push_cast
        try ring
      · rw [if_pos h1, if_neg h2, if_pos h1, if_neg h2]
        push_cast
        try ring
    · by_cases h2 : partnerLoc g x j = p
      · rw [if_neg h1, if_pos h2, if_neg h1, if_pos h2]
        push_cast
        try ring
      · rw [if_neg h1, if_neg h2, if_neg h1, if_neg h2]
        push_cast
        try ring

theorem bottleneck_le_init (g : Graph) (chain : List (Nat × Nat)) :
    ∀ a : Int, chain.foldl (fun b p => min b (residualAt g p.1 p.2)) a ≤ a := by
  induction chain with
  | nil => intro a; simp
  | cons p L ih =>
    intro a
    calc L.foldl (fun b p => min b (residualAt g p.1 p.2)) (min a (residualAt g p.1 p.2)) ≤
        min a (residualAt g p.1 p.2) := ih _
      _ ≤ a := min_le_left _ _

theorem bottleneck_le_mem (g : Graph) (chain : List (Nat × Nat)) :
    ∀ a : Int, ∀ p ∈ chain,
      chain.foldl (fun b q => min b (residualAt g q.1 q.2)) a ≤ residualAt g p.1 p.2 := by
  induction chain with
  | nil => intro a p hp; cases hp
  | cons q L ih =>
    intro a p hp
    rcases List.mem_cons.mp hp with hh | ht
    · subst hh
      calc L.foldl (fun b r => min b (residualAt g r.1 r.2)) (min a (residualAt g p.1 p.2)) ≤
          min a (residualAt g p.1 p.2) := bottleneck_le_init g L _
        _ ≤ residualAt g p.1 p.2 := min_le_right _ _
    · exact ih _ p ht

theorem bottleneckOf_le {g : Graph} {chain : List (Nat × Nat)} {p : Nat × Nat}
    (hp : p ∈ chain) : bottleneckOf g chain ≤ residualAt g p.1 p.2 :=
  bottleneck_le_mem g chain inf p hp

theorem bottleneck_nonneg_aux (g : Graph) (chain : List (Nat × Nat))
    (hres : ∀ p ∈ chain, 0 ≤ residualAt g p.1 p.2) :
    ∀ a : Int, 0 ≤ a → 0 ≤ chain.foldl (fun b p => min b (residualAt g p.1 p.2)) a := by
  induction chain with
  | nil => intro a ha; simpa using ha
  | cons p L ih =>
    intro a ha
    have hp : 0 ≤ residualAt g p.1 p.2 := hres p (List.mem_cons_self p L)
    exact ih (fun q hq => hres q (List.mem_cons_of_mem p hq)) _ (le_min ha hp)

theorem bottleneckOf_nonneg {g : Graph} {chain : List (Nat × Nat)}
    (hres : ∀ p ∈ chain, 0 ≤ residualAt g p.1 p.2) : 0 ≤ bottleneckOf g chain :=
  bottleneck_nonneg_aux g chain hres inf (by norm_num [inf])

theorem residual_nonneg_of_FlowInv {g : Graph} (hfi : FlowInv g) {u i : Nat}
    (hv : ValidLoc g u i) : 0 ≤ residualAt g u i := by
  have h := (hfi u hv.1 i hv.2).1
  unfold residualAt
  omega

theorem FlowInv_pushChain {g : Graph} {chain : List (Nat × Nat)} {b : Int}
    (hwf : WF g) (hfi : FlowInv g)
    (hvalid : ∀ p ∈ chain, ValidLoc g p.1 p.2)
    (hnodup : chain.Nodup)
    (hnopart : ∀ p ∈ chain, partnerLoc g p.1 p.2 ∉ chain)
    (hb0 : 0 ≤ b)
    (hble : ∀ p ∈ chain, b ≤ residualAt g p.1 p.2) :
    FlowInv (pushChain g chain b) := by
  intro u hu i hi
  have hsh : sameShape g (pushChain g chain b) := sameShape_pushChain chain g b
  have hv : ValidLoc g u i := ⟨hsh.1 ▸ hu, (hsh.2.1 u) ▸ hi⟩
  have hpv : ValidLoc g (partnerLoc g u i).1 (partnerLoc g u i).2 :=
    partner_valid hwf hv
  have hflow := flow_pushChain b chain g hwf hvalid u i hv
  have hpflow := flow_pushChain b chain g hwf hvalid
    (partnerLoc g u i).1 (partnerLoc g u i).2 hpv
  have hpp : partnerLoc g (partnerLoc g u i).1 (partnerLoc g u i).2 = (u, i) :=
    partner_involution hwf hv
  have hploc : partnerLoc (pushChain g chain b) u i = partnerLoc g u i :=
    partnerLoc_of_sameShape hsh u i
  constructor
  · rw [hflow, edgeCap_of_sameShape hsh u i]
    by_cases hmem : (u, i) ∈ chain
    · have hcnt : cnt (u, i) chain = 1 := cnt_eq_one hnodup hmem
      have hpcnt : cnt (partnerLoc g u i) chain = 0 :=
        cnt_eq_zero (hnopart (u, i) hmem)
      rw [hcnt, hpcnt]
      have hr : b ≤ residualAt g u i := hble (u, i) hmem
      unfold residualAt at hr
      simp only [Nat.cast_one, Nat.cast_zero]
      omega
    · have hcnt : cnt (u, i) chain = 0 := cnt_eq_zero hmem
      rw [hcnt]
      have hle : (edgeAt g u i).flow ≤ (edgeAt g u i).cap := (hfi u hv.1 i hv.2).1
      have hpcnt : (0 : Int) ≤ (cnt (partnerLoc g u i) chain : Int) := by positivity
      simp only [Nat.cast_zero]
      nlinarith
  · rw [hploc, hflow]
    have hpflow2 : (edgeAt (pushChain g chain b) (partnerLoc g u i).1
        (partnerLoc g u i).2).flow =
        (edgeAt g (partnerLoc g u i).1 (partnerLoc g u i).2).flow +
          b * (cnt (partnerLoc g u i) chain : Int) - b * (cnt (u, i) chain : Int) := by
      rw [hpflow, hpp]
    rw [hpflow2]
    have hanti : (edgeAt g u i).flow +
        (edgeAt g (partnerLoc g u i).1 (partnerLoc g u i).2).flow = 0 :=
      (hfi u hv.1 i hv.2).2
    linarith

end Sol0

/-! ### Residual walks and the invariants of the label-correcting search -/

namespace Sol0

/-- Walk from `a` to `c` along residual edges (positions with residual
capacity strictly positive), listed tail first. -/
def IsWalk (g : Graph) : Nat → Nat → List (Nat × Nat) → Prop
  | a, c, [] => a = c
  | a, c, p :: L => p.1 = a ∧ ValidLoc g p.1 p.2 ∧ 0 < residualAt g p.1 p.2 ∧
      IsWalk g (edgeAt g p.1 p.2).v c L

/-- Total cost of the edges of a walk. -/
def walkCost (g : Graph) (L : List (Nat × Nat)) : Int :=
  (L.map (fun p => (edgeAt g p.1 p.2).cost)).sum

/-- Nodes visited by a walk starting at `a`. -/
def walkNodes (g : Graph) (a : Nat) (L : List (Nat × Nat)) : List Nat :=
  a :: L.map (fun p => (edgeAt g p.1 p.2).v)

/-- Walk with pairwise distinct nodes: a simple residual path. -/
def IsPath (g : Graph) (a c : Nat) (L : List (Nat × Nat)) : Prop :=
  IsWalk g a c L ∧ (walkNodes g a L).Nodup

theorem isWalk_append_edge (g : Graph) :
    ∀ (L : List (Nat × Nat)) (a u : Nat) (p : Nat × Nat),
    IsWalk g a u L → p.1 = u → ValidLoc g p.1 p.2 → 0 < residualAt g p.1 p.2 →
    IsWalk g a (edgeAt g p.1 p.2).v (L ++ [p]) := by
  intro L
  induction L with
  | nil =>
    intro a u p hw hp hv hr
    have ha : a = u := hw
    exact ⟨by rw [hp, ha], hv, hr, rfl⟩
  | cons q L ih =>
    intro a u p hw hp hv hr
    obtain ⟨h1, h2, h3, h4⟩ := hw
    exact ⟨h1, h2, h3, ih _ _ p h4 hp hv hr⟩

theorem walkCost_append (g : Graph) (L M : List (Nat × Nat)) :
    walkCost g (L ++ M) = walkCost g L + walkCost g M := by
  unfold walkCost
  rw [List.map_append, List.sum_append]

theorem walkNodes_append (g : Graph) (a : Nat) (L M : List (Nat × Nat)) :
    walkNodes g a (L ++ M) =
      walkNodes g a L ++ M.map (fun p => (edgeAt g p.1 p.2).v) := by
  unfold walkNodes
  rw [List.map_append]
  rfl

/-- Core state invariant of the `spfa` queue loop (everything except the
fixpoint property of fully-processed nodes). -/
structure SpfaCore (g : Graph) (nodes src : Nat) (st : SpfaSt) : Prop where
  sizeDis : st.dis.size = nodes
  sizePar : st.par.size = nodes
  sizeIdx : st.idx.size = nodes
  sizeInq : st.inq.size = nodes
  disLe : ∀ x, st.dis.getD x 0 ≤ inf
  disSrc : st.dis.getD src 0 ≤ 0
  qnodup : st.q.Nodup
  qlt : ∀ u ∈ st.q, u < nodes
  qinq : ∀ u, u < nodes → (st.inq.getD u false = true ↔ u ∈ st.q)
  qfin : ∀ u ∈ st.q, st.dis.getD u 0 < inf
  good : ∀ x, x < nodes → st.dis.getD x 0 < inf →
    (st.par.getD x 0 = -1 → x = src) ∧
    (st.par.getD x 0 ≠ -1 →
      ∃ u : Nat, ∃ i : Nat, st.par.getD x 0 = Int.ofNat u ∧ st.idx.getD x 0 = i ∧
        u < nodes ∧ i < (g.getD u #[]).size ∧
        (edgeAt g u i).v = x ∧
        (edgeAt g u i).flow < (edgeAt g u i).cap ∧
        st.dis.getD u 0 < inf ∧
        st.dis.getD u 0 + (edgeAt g u i).cost ≤ st.dis.getD x 0)
  real : ∀ x, x < nodes → st.dis.getD x 0 < inf →
    ∃ L, IsWalk g src x L ∧ walkCost g L = st.dis.getD x 0 ∧
      ∀ y ∈ walkNodes g src L, y < nodes ∧ st.dis.getD y 0 < inf

/-- Fixpoint property: every node outside the worklist has all its residual
outgoing edges relaxed, except possibly the nodes of `E`. -/
def FixExcept (g : Graph) (nodes : Nat) (st : SpfaSt) (E : Nat → Prop) : Prop :=
  ∀ u, u < nodes → ¬ E u → st.dis.getD u 0 < inf →
    st.inq.getD u false = false →
    ∀ i, i < (g.getD u #[]).size →
      (edgeAt g u i).flow < (edgeAt g u i).cap →
      st.dis.getD (edgeAt g u i).v 0 ≤ st.dis.getD u 0 + (edgeAt g u i).cost

/-- Full fixpoint property. -/
def FixAll (g : Graph) (nodes : Nat) (st : SpfaSt) : Prop :=
  FixExcept g nodes st (fun _ => False)

theorem relaxStep_skip (g : Graph) (u : Nat) (st : SpfaSt) (i : Nat)
    (h : (edgeAt g u i).cap ≤ (edgeAt g u i).flow) :
    relaxStep g u st i = st := by
  unfold relaxStep
  rw [if_pos h]

theorem relaxStep_noimp (g : Graph) (u : Nat) (st : SpfaSt) (i : Nat)
    (h1 : ¬ (edgeAt g u i).cap ≤ (edgeAt g u i).flow)
    (h2 : ¬ st.dis.getD u 0 + (edgeAt g u i).cost <
      st.dis.getD (edgeAt g u i).v 0) :
    relaxStep g u st i = st := by
  unfold relaxStep
  rw [if_neg h1, if_neg h2]

theorem relaxStep_imp_inq (g : Graph) (u : Nat) (st : SpfaSt) (i : Nat)
    (h1 : ¬ (edgeAt g u i).cap ≤ (edgeAt g u i).flow)
    (h2 : st.dis.getD u 0 + (edgeAt g u i).cost < st.dis.getD (edgeAt g u i).v 0)
    (h3 : st.inq.getD (edgeAt g u i).v false = true) :
    relaxStep g u st i =
      { st with
        dis := st.dis.setD (edgeAt g u i).v (st.dis.getD u 0 + (edgeAt g u i).cost)
        par := st.par.setD (edgeAt g u i).v (Int.ofNat u)
        idx := st.idx.setD (edgeAt g u i).v i } := by
  unfold relaxStep
  rw [if_neg h1, if_pos h2, if_pos h3]

theorem relaxStep_imp_notinq (g : Graph) (u : Nat) (st : SpfaSt) (i : Nat)
    (h1 : ¬ (edgeAt g u i).cap ≤ (edgeAt g u i).flow)
    (h2 : st.dis.getD u 0 + (edgeAt g u i).cost < st.dis.getD (edgeAt g u i).v 0)
    (h3 : ¬ st.inq.getD (edgeAt g u i).v false = true) :
    relaxStep g u st i =
      { st with
        dis := st.dis.setD (edgeAt g u i).v (st.dis.getD u 0 + (edgeAt g u i).cost)
        par := st.par.setD (edgeAt g u i).v (Int.ofNat u)
        idx := st.idx.setD (edgeAt g u i).v i
        inq := st.inq.setD (edgeAt g u i).v true
        q := st.q ++ [(edgeAt g u i).v] } := by
  unfold relaxStep
  rw [if_neg h1, if_pos h2, if_neg h3]

end Sol0

/-! ### Preservation of the invariants by one relaxation -/

namespace Sol0

theorem target_lt {g : Graph} {nodes : Nat} (hg : g.size = nodes) (hwf : WF g)
    {u i : Nat} (hu : u < nodes) (hi : i < (g.getD u #[]).size) :
    (edgeAt g u i).v < nodes := by
  have h := (hwf u (hg ▸ hu) i hi).1.1
  exact hg ▸ h

theorem relaxStep_cases (g : Graph) (u0 : Nat) (st : SpfaSt) (i : Nat) :
    relaxStep g u0 st i = st ∨
    (st.dis.getD u0 0 + (edgeAt g u0 i).cost < st.dis.getD (edgeAt g u0 i).v 0 ∧
     (edgeAt g u0 i).flow < (edgeAt g u0 i).cap ∧
     ((st.inq.getD (edgeAt g u0 i).v false = true ∧
        relaxStep g u0 st i =
          { st with
            dis := st.dis.setD (edgeAt g u0 i).v
              (st.dis.getD u0 0 + (edgeAt g u0 i).cost)
            par := st.par.setD (edgeAt g u0 i).v (Int.ofNat u0)
            idx := st.idx.setD (edgeAt g u0 i).v i }) ∨
      (st.inq.getD (edgeAt g u0 i).v false = false ∧
        relaxStep g u0 st i =
          { st with
            dis := st.dis.setD (edgeAt g u0 i).v
              (st.dis.getD u0 0 + (edgeAt g u0 i).cost)
            par := st.par.setD (edgeAt g u0 i).v (Int.ofNat u0)
            idx := st.idx.setD (edgeAt g u0 i).v i
            inq := st.inq.setD (edgeAt g u0 i).v true
            q := st.q ++ [(edgeAt g u0 i).v] }))) := by
  by_cases h1 : (edgeAt g u0 i).cap ≤ (edgeAt g u0 i).flow
  · exact Or.inl (relaxStep_skip g u0 st i h1)
  by_cases h2 : st.dis.getD u0 0 + (edgeAt g u0 i).cost <
      st.dis.getD (edgeAt g u0 i).v 0
  · right
    refine ⟨h2, by omega, ?_⟩
    by_cases h3 : st.inq.getD (edgeAt g u0 i).v false = true
    · exact Or.inl ⟨h3, relaxStep_imp_inq g u0 st i h1 h2 h3⟩
    · exact Or.inr ⟨by simpa using h3, relaxStep_imp_notinq g u0 st i h1 h2 h3⟩
  · exact Or.inl (relaxStep_noimp g u0 st i h1 h2)

theorem relaxStep_dis_write (g : Graph) (u0 : Nat) (st : SpfaSt) (i : Nat)
    {st2 : SpfaSt}
    (h : st2 = { st with
      dis := st.dis.setD (edgeAt g u0 i).v (st.dis.getD u0 0 + (edgeAt g u0 i).cost)
      par := st.par.setD (edgeAt g u0 i).v (Int.ofNat u0)
      idx := st.idx.setD (edgeAt g u0 i).v i } ∨
      st2 = { st with
      dis := st.dis.setD (edgeAt g u0 i).v (st.dis.getD u0 0 + (edgeAt g u0 i).cost)
      par := st.par.setD (edgeAt g u0 i).v (Int.ofNat u0)
      idx := st.idx.setD (edgeAt g u0 i).v i
      inq := st.inq.setD (edgeAt g u0 i).v true
      q := st.q ++ [(edgeAt g u0 i).v] }) :
    ∀ x, st2.dis.getD x 0 =
      if x = (edgeAt g u0 i).v ∧ (edgeAt g u0 i).v < st.dis.size then
        st.dis.getD u0 0 + (edgeAt g u0 i).cost
      else st.dis.getD x 0 := by
  intro x
  rcases h with h | h <;> rw [h] <;> exact getD_setD st.dis _ x _ 0

end Sol0

namespace Sol0

theorem relaxStep_pres {g : Graph} {nodes src : Nat} (hg : g.size = nodes)
    (hwf : WF g) {st : SpfaSt} {u0 : Nat} (hu0 : u0 < nodes) {i : Nat}
    (hi : i < (g.getD u0 #[]).size)
    (hcore : SpfaCore g nodes src st) (hufin : st.dis.getD u0 0 < inf) :
    SpfaCore g nodes src (relaxStep g u0 st i) ∧
    (∀ x, (relaxStep g u0 st i).dis.getD x 0 ≤ st.dis.getD x 0) ∧
    (∀ w, st.inq.getD w false = true →
      (relaxStep g u0 st i).inq.getD w false = true) := by
  rcases relaxStep_cases g u0 st i with heq | ⟨himp, hres, hbr⟩
  · rw [heq]
    exact ⟨hcore, fun x => le_refl _, fun w h => h⟩
  have hvlt : (edgeAt g u0 i).v < nodes := target_lt hg hwf hu0 hi
  have hvdis : (edgeAt g u0 i).v < st.dis.size := by rw [hcore.sizeDis]; exact hvlt
  have hvpar : (edgeAt g u0 i).v < st.par.size := by rw [hcore.sizePar]; exact hvlt
  have hvidx : (edgeAt g u0 i).v < st.idx.size := by rw [hcore.sizeIdx]; exact hvlt
  have hvinq : (edgeAt g u0 i).v < st.inq.size := by rw [hcore.sizeInq]; exact hvlt
  have hnewinf : st.dis.getD u0 0 + (edgeAt g u0 i).cost < inf :=
    lt_of_lt_of_le himp (hcore.disLe _)
  have hdisF : (relaxStep g u0 st i).dis =
      st.dis.setD (edgeAt g u0 i).v (st.dis.getD u0 0 + (edgeAt g u0 i).cost) := by
    rcases hbr with ⟨_, h⟩ | ⟨_, h⟩ <;> rw [h]
  have hparF : (relaxStep g u0 st i).par =
      st.par.setD (edgeAt g u0 i).v (Int.ofNat u0) := by
    rcases hbr with ⟨_, h⟩ | ⟨_, h⟩ <;> rw [h]
  have hidxF : (relaxStep g u0 st i).idx =
      st.idx.setD (edgeAt g u0 i).v i := by
    rcases hbr with ⟨_, h⟩ | ⟨_, h⟩ <;> rw [h]
  have hqcases : ((relaxStep g u0 st i).inq = st.inq ∧
      (relaxStep g u0 st i).q = st.q ∧
      st.inq.getD (edgeAt g u0 i).v false = true) ∨
      ((relaxStep g u0 st i).inq = st.inq.setD (edgeAt g u0 i).v true ∧
      (relaxStep g u0 st i).q = st.q ++ [(edgeAt g u0 i).v] ∧
      st.inq.getD (edgeAt g u0 i).v false = false) := by
    rcases hbr with ⟨h3, h⟩ | ⟨h3, h⟩
    · exact Or.inl ⟨by rw [h], by rw [h], h3⟩
    · exact Or.inr ⟨by rw [h], by rw [h], h3⟩
  have hdis2 : ∀ x, (relaxStep g u0 st i).dis.getD x 0 =
      if x = (edgeAt g u0 i).v then st.dis.getD u0 0 + (edgeAt g u0 i).cost
      else st.dis.getD x 0 := by
    intro x
    rw [hdisF, getD_setD]
    by_cases hx : x = (edgeAt g u0 i).v
    · rw [if_pos ⟨hx, hvdis⟩, if_pos hx]
    · rw [if_neg (fun hc => hx hc.1), if_neg hx]
  have hmono : ∀ x, (relaxStep g u0 st i).dis.getD x 0 ≤ st.dis.getD x 0 := by
    intro x
    rw [hdis2 x]
    by_cases hx : x = (edgeAt g u0 i).v
    · rw [if_pos hx, hx]
      exact le_of_lt himp
    · rw [if_neg hx]
  have hdisfin : ∀ x, st.dis.getD x 0 < inf →
      (relaxStep g u0 st i).dis.getD x 0 < inf := by
    intro x hx
    exact lt_of_le_of_lt (hmono x) hx
  have hdisnew : ∀ x, x = (edgeAt g u0 i).v →
      (relaxStep g u0 st i).dis.getD x 0 < inf := by
    intro x hx
    rw [hdis2 x, if_pos hx]
    exact hnewinf
  have hinqmono : ∀ w, st.inq.getD w false = true →
      (relaxStep g u0 st i).inq.getD w false = true := by
    intro w hw
    rcases hqcases with ⟨hieq, _, _⟩ | ⟨hieq, _, _⟩
    · rw [hieq]; exact hw
    · rw [hieq]
      by_cases hwv : w = (edgeAt g u0 i).v
      · rw [hwv, getD_setD_self _ _ _ _ hvinq]
      · rw [getD_setD_ne _ _ _ hwv]; exact hw
  refine ⟨?_, hmono, hinqmono⟩
  have hvnotq : st.inq.getD (edgeAt g u0 i).v false = false →
      (edgeAt g u0 i).v ∉ st.q := by
    intro hf hmem
    have := (hcore.qinq _ hvlt).mpr hmem
    rw [hf] at this
    exact Bool.false_ne_true this
  constructor
  case sizeDis => rw [hdisF, size_setD, hcore.sizeDis]
  case sizePar => rw [hparF, size_setD, hcore.sizePar]
  case sizeIdx => rw [hidxF, size_setD, hcore.sizeIdx]
  case sizeInq =>
    rcases hqcases with ⟨hieq, _, _⟩ | ⟨hieq, _, _⟩
    · rw [hieq, hcore.sizeInq]
    · rw [hieq, size_setD, hcore.sizeInq]
  case disLe =>
    intro x
    rw [hdis2 x]
    by_cases hx : x = (edgeAt g u0 i).v
    · rw [if_pos hx]; exact le_of_lt hnewinf
    · rw [if_neg hx]; exact hcore.disLe x
  case disSrc => exact le_trans (hmono src) hcore.disSrc
  case qnodup =>
    rcases hqcases with ⟨_, hqeq, _⟩ | ⟨_, hqeq, hvfalse⟩
    · rw [hqeq]; exact hcore.qnodup
    · rw [hqeq]
      refine List.nodup_append.mpr ⟨hcore.qnodup, List.nodup_singleton _, ?_⟩
      intro a ha hb
      rw [List.mem_singleton] at hb
      exact hvnotq hvfalse (hb ▸ ha)
  case qlt =>
    intro w hw
    rcases hqcases with ⟨_, hqeq, _⟩ | ⟨_, hqeq, _⟩
    · rw [hqeq] at hw; exact hcore.qlt w hw
    · rw [hqeq] at hw
      rcases List.mem_append.mp hw with h | h
      · exact hcore.qlt w h
      · rw [List.mem_singleton] at h; rw [h]; exact hvlt
  case qinq =>
    intro w hw
    rcases hqcases with ⟨hieq, hqeq, _⟩ | ⟨hieq, hqeq, _⟩
    · rw [hieq, hqeq]; exact hcore.qinq w hw
    · rw [hieq, hqeq]
      by_cases hwv : w = (edgeAt g u0 i).v
      · rw [hwv, getD_setD_self _ _ _ _ hvinq]
        simp
      · rw [getD_setD_ne _ _ _ hwv]
        rw [List.mem_append, List.mem_singleton]
        constructor
        · intro h; exact Or.inl ((hcore.qinq w hw).mp h)
        · intro h
          rcases h with h | h
          · exact (hcore.qinq w hw).mpr h
          · exact absurd h hwv
  case qfin =>
    intro w hw
    rcases hqcases with ⟨_, hqeq, _⟩ | ⟨_, hqeq, _⟩
    · rw [hqeq] at hw
      exact hdisfin w (hcore.qfin w hw)
    · rw [hqeq] at hw
      rcases List.mem_append.mp hw with h | h
      · exact hdisfin w (hcore.qfin w h)
      · rw [List.mem_singleton] at h
        exact hdisnew w h
  case good =>
    intro x hx hxfin
    by_cases hxv : x = (edgeAt g u0 i).v
    · have hparx : (relaxStep g u0 st i).par.getD x 0 = Int.ofNat u0 := by
        rw [hparF, hxv, getD_setD_self _ _ _ _ hvpar]
      have hidxx : (relaxStep g u0 st i).idx.getD x 0 = i := by
        rw [hidxF, hxv, getD_setD_self _ _ _ _ hvidx]
      constructor
      · intro hcon
        rw [hparx] at hcon
        have h0 : (0 : Int) ≤ Int.ofNat u0 := Int.ofNat_nonneg u0
        rw [hcon] at h0
        norm_num at h0
      · intro _
        refine ⟨u0, i, hparx, hidxx, hu0, hi, hxv.symm, hres, ?_, ?_⟩
        · by_cases hu0v : u0 = (edgeAt g u0 i).v
          · exact hdisnew u0 hu0v
          · rw [hdis2 u0, if_neg hu0v]; exact hufin
        · have h1 : (relaxStep g u0 st i).dis.getD u0 0 ≤ st.dis.getD u0 0 :=
            hmono u0
          have h2 : (relaxStep g u0 st i).dis.getD x 0 =
              st.dis.getD u0 0 + (edgeAt g u0 i).cost := by
            rw [hdis2 x, if_pos hxv]
          omega
    · have hdx : (relaxStep g u0 st i).dis.getD x 0 = st.dis.getD x 0 := by
        rw [hdis2 x, if_neg hxv]
      have hxfin0 : st.dis.getD x 0 < inf := by rw [← hdx]; exact hxfin
      obtain ⟨hgood1, hgood2⟩ := hcore.good x hx hxfin0
      have hparx : (relaxStep g u0 st i).par.getD x 0 = st.par.getD x 0 := by
        rw [hparF, getD_setD_ne _ _ _ hxv]
      have hidxx : (relaxStep g u0 st i).idx.getD x 0 = st.idx.getD x 0 := by
        rw [hidxF, getD_setD_ne _ _ _ hxv]
      constructor
      · intro hcon
        rw [hparx] at hcon
        exact hgood1 hcon
      · intro hcon
        rw [hparx] at hcon
        obtain ⟨u1, i1, he1, he2, he3, he4, he5, he6, he7, he8⟩ := hgood2 hcon
        refine ⟨u1, i1, by rw [hparx]; exact he1, by rw [hidxx]; exact he2,
          he3, he4, he5, he6, hdisfin u1 he7, ?_⟩
        have h1 : (relaxStep g u0 st i).dis.getD u1 0 ≤ st.dis.getD u1 0 :=
          hmono u1
        rw [hdx]
        omega
  case real =>
    intro x hx hxfin
    by_cases hxv : x = (edgeAt g u0 i).v
    · obtain ⟨L, hLw, hLc, hLn⟩ := hcore.real u0 hu0 hufin
      have hvalid : ValidLoc g u0 i := ⟨hg ▸ hu0, hi⟩
      have hres2 : 0 < residualAt g u0 i := by unfold residualAt; omega
      refine ⟨L ++ [(u0, i)], ?_, ?_, ?_⟩
      · have := isWalk_append_edge g L src u0 (u0, i) hLw rfl hvalid hres2
        rw [hxv]
        exact this
      · rw [walkCost_append, hLc]
        have hone : walkCost g [(u0, i)] = (edgeAt g u0 i).cost := by
          unfold walkCost
          simp
        rw [hone, hdis2 x, if_pos hxv]
      · intro y hy
        rw [walkNodes_append] at hy
        rcases List.mem_append.mp hy with h | h
        · obtain ⟨hy1, hy2⟩ := hLn y h
          exact ⟨hy1, hdisfin y hy2⟩
        · simp only [List.map_cons, List.map_nil, List.mem_singleton] at h
          rw [h]
          exact ⟨hvlt, hdisnew _ rfl⟩
    · have hdx : (relaxStep g u0 st i).dis.getD x 0 = st.dis.getD x 0 := by
        rw [hdis2 x, if_neg hxv]
      have hxfin0 : st.dis.getD x 0 < inf := by rw [← hdx]; exact hxfin
      obtain ⟨L, hLw, hLc, hLn⟩ := hcore.real x hx hxfin0
      refine ⟨L, hLw, by rw [hdx]; exact hLc, ?_⟩
      intro y hy
      obtain ⟨hy1, hy2⟩ := hLn y hy
      exact ⟨hy1, hdisfin y hy2⟩

end Sol0

namespace Sol0

/-- Edge `j` of node `u0` needs no further relaxation in state `st`. -/
def relaxDone (g : Graph) (u0 : Nat) (st : SpfaSt) (j : Nat) : Prop :=
  (edgeAt g u0 j).flow < (edgeAt g u0 j).cap →
    st.dis.getD (edgeAt g u0 j).v 0 ≤ st.dis.getD u0 0 + (edgeAt g u0 j).cost

theorem relaxStep_inq_mono2 (g : Graph) (u0 : Nat) (st : SpfaSt) (i : Nat) :
    ∀ w, st.inq.getD w false = true →
      (relaxStep g u0 st i).inq.getD w false = true := by
  intro w hw
  rcases relaxStep_cases g u0 st i with heq | ⟨_, _, hbr⟩
  · rw [heq]; exact hw
  rcases hbr with ⟨_, heq⟩ | ⟨_, heq⟩
  · rw [heq]; exact hw
  · rw [heq]
    show (st.inq.setD (edgeAt g u0 i).v true).getD w false = true
    rw [getD_setD]
    by_cases hc : w = (edgeAt g u0 i).v ∧ (edgeAt g u0 i).v < st.inq.size
    · rw [if_pos hc]
    · rw [if_neg hc]; exact hw

theorem relaxStep_fixX {g : Graph} {nodes src : Nat} (hg : g.size = nodes)
    (hwf : WF g) {st : SpfaSt} {u0 : Nat} (hu0 : u0 < nodes) {i : Nat}
    (hi : i < (g.getD u0 #[]).size) (hcore : SpfaCore g nodes src st)
    (hfix : FixExcept g nodes st (fun w => w = u0)) :
    FixExcept g nodes (relaxStep g u0 st i) (fun w => w = u0) := by
  intro w hw hnE hwfin hwinq k hk hkres
  rcases relaxStep_cases g u0 st i with heq | ⟨himp, hres, hbr⟩
  · rw [heq] at hwfin hwinq ⊢
    exact hfix w hw hnE hwfin hwinq k hk hkres
  have hvlt : (edgeAt g u0 i).v < nodes := target_lt hg hwf hu0 hi
  have hvdis : (edgeAt g u0 i).v < st.dis.size := by rw [hcore.sizeDis]; exact hvlt
  have hvinq : (edgeAt g u0 i).v < st.inq.size := by rw [hcore.sizeInq]; exact hvlt
  have hdisF : (relaxStep g u0 st i).dis =
      st.dis.setD (edgeAt g u0 i).v (st.dis.getD u0 0 + (edgeAt g u0 i).cost) := by
    rcases hbr with ⟨_, h⟩ | ⟨_, h⟩ <;> rw [h]
  have hdis2 : ∀ x, (relaxStep g u0 st i).dis.getD x 0 =
      if x = (edgeAt g u0 i).v then st.dis.getD u0 0 + (edgeAt g u0 i).cost
      else st.dis.getD x 0 := by
    intro x
    rw [hdisF, getD_setD]
    by_cases hx : x = (edgeAt g u0 i).v
    · rw [if_pos ⟨hx, hvdis⟩, if_pos hx]
    · rw [if_neg (fun hc => hx hc.1), if_neg hx]
  have hmono : ∀ x, (relaxStep g u0 st i).dis.getD x 0 ≤ st.dis.getD x 0 := by
    intro x
    rw [hdis2 x]
    by_cases hx : x = (edgeAt g u0 i).v
    · rw [if_pos hx, hx]; exact le_of_lt himp
    · rw [if_neg hx]
  by_cases hwv : w = (edgeAt g u0 i).v
  · exfalso
    rcases hbr with ⟨h3, heq⟩ | ⟨h3, heq⟩
    · rw [heq] at hwinq
      have hw2 : st.inq.getD w false = false := hwinq
      rw [hwv, h3] at hw2
      exact Bool.noConfusion hw2
    · rw [heq] at hwinq
      have hw2 : (st.inq.setD (edgeAt g u0 i).v true).getD w false = false := hwinq
      rw [getD_setD, if_pos ⟨hwv, hvinq⟩] at hw2
      exact Bool.noConfusion hw2
  · have hwinq0 : st.inq.getD w false = false := by
      rcases hbr with ⟨_, heq⟩ | ⟨_, heq⟩
      · rw [heq] at hwinq; exact hwinq
      · rw [heq] at hwinq
        have hw2 : (st.inq.setD (edgeAt g u0 i).v true).getD w false = false := hwinq
        rwa [getD_setD_ne _ _ _ hwv] at hw2
    have hwfin0 : st.dis.getD w 0 < inf := by
      rw [hdis2 w, if_neg hwv] at hwfin
      exact hwfin
    have hold := hfix w hw hnE hwfin0 hwinq0 k hk hkres
    have h1 : (relaxStep g u0 st i).dis.getD (edgeAt g w k).v 0 ≤
        st.dis.getD (edgeAt g w k).v 0 := hmono _
    have h2 : (relaxStep g u0 st i).dis.getD w 0 = st.dis.getD w 0 := by
      rw [hdis2 w, if_neg hwv]
    omega

theorem relaxStep_done_self {g : Graph} {nodes src : Nat} (hg : g.size = nodes)
    (hwf : WF g) {st : SpfaSt} {u0 : Nat} (hu0 : u0 < nodes) {i : Nat}
    (hi : i < (g.getD u0 #[]).size) (hcore : SpfaCore g nodes src st) :
    relaxDone g u0 (relaxStep g u0 st i) i ∨
      (relaxStep g u0 st i).inq.getD u0 false = true := by
  by_cases h1 : (edgeAt g u0 i).cap ≤ (edgeAt g u0 i).flow
  · left
    rw [relaxStep_skip g u0 st i h1]
    intro hcon
    omega
  by_cases h2 : st.dis.getD u0 0 + (edgeAt g u0 i).cost <
      st.dis.getD (edgeAt g u0 i).v 0
  · have hvlt : (edgeAt g u0 i).v < nodes := target_lt hg hwf hu0 hi
    have hvdis : (edgeAt g u0 i).v < st.dis.size := by
      rw [hcore.sizeDis]; exact hvlt
    have hvinq : (edgeAt g u0 i).v < st.inq.size := by
      rw [hcore.sizeInq]; exact hvlt
    by_cases hu0v : u0 = (edgeAt g u0 i).v
    · right
      by_cases h3 : st.inq.getD (edgeAt g u0 i).v false = true
      · rw [relaxStep_imp_inq g u0 st i h1 h2 h3]
        show st.inq.getD u0 false = true
        rw [hu0v]; exact h3
      · rw [relaxStep_imp_notinq g u0 st i h1 h2 h3]
        show (st.inq.setD (edgeAt g u0 i).v true).getD u0 false = true
        rw [getD_setD, if_pos ⟨hu0v, hvinq⟩]
    · left
      have hdisF : (relaxStep g u0 st i).dis =
          st.dis.setD (edgeAt g u0 i).v
            (st.dis.getD u0 0 + (edgeAt g u0 i).cost) := by
        by_cases h3 : st.inq.getD (edgeAt g u0 i).v false = true
        · rw [relaxStep_imp_inq g u0 st i h1 h2 h3]
        · rw [relaxStep_imp_notinq g u0 st i h1 h2 h3]
      intro _
      rw [hdisF, getD_setD, getD_setD]
      rw [if_pos ⟨rfl, hvdis⟩, if_neg (fun hc => hu0v hc.1)]
  · left
    rw [relaxStep_noimp g u0 st i h1 h2]
    intro _
    omega

theorem relaxStep_done_mono {g : Graph} {nodes src : Nat} (hg : g.size = nodes)
    (hwf : WF g) {st : SpfaSt} {u0 : Nat} (hu0 : u0 < nodes) {i : Nat}
    (hi : i < (g.getD u0 #[]).size) (hcore : SpfaCore g nodes src st) (j : Nat)
    (hj : relaxDone g u0 st j ∨ st.inq.getD u0 false = true) :
    relaxDone g u0 (relaxStep g u0 st i) j ∨
      (relaxStep g u0 st i).inq.getD u0 false = true := by
  rcases hj with hdone | hq
  · rcases relaxStep_cases g u0 st i with heq | ⟨himp, hres, hbr⟩
    · rw [heq]; exact Or.inl hdone
    have hvlt : (edgeAt g u0 i).v < nodes := target_lt hg hwf hu0 hi
    have hvdis : (edgeAt g u0 i).v < st.dis.size := by
      rw [hcore.sizeDis]; exact hvlt
    have hvinq : (edgeAt g u0 i).v < st.inq.size := by
      rw [hcore.sizeInq]; exact hvlt
    have hdisF : (relaxStep g u0 st i).dis =
        st.dis.setD (edgeAt g u0 i).v
          (st.dis.getD u0 0 + (edgeAt g u0 i).cost) := by
      rcases hbr with ⟨_, h⟩ | ⟨_, h⟩ <;> rw [h]
    have hdis2 : ∀ x, (relaxStep g u0 st i).dis.getD x 0 =
        if x = (edgeAt g u0 i).v then st.dis.getD u0 0 + (edgeAt g u0 i).cost
        else st.dis.getD x 0 := by
      intro x
      rw [hdisF, getD_setD]
      by_cases hx : x = (edgeAt g u0 i).v
      · rw [if_pos ⟨hx, hvdis⟩, if_pos hx]
      · rw [if_neg (fun hc => hx hc.1), if_neg hx]
    by_cases hu0v : u0 = (edgeAt g u0 i).v
    · right
      rcases hbr with ⟨h3, heq⟩ | ⟨h3, heq⟩
      · rw [heq]
        show st.inq.getD u0 false = true
        rw [hu0v]; exact h3
      · rw [heq]
        show (st.inq.setD (edgeAt g u0 i).v true).getD u0 false = true
        rw [getD_setD, if_pos ⟨hu0v, hvinq⟩]
    · left
      intro hc
      have hold := hdone hc
      have h1 : (relaxStep g u0 st i).dis.getD (edgeAt g u0 j).v 0 ≤
          st.dis.getD (edgeAt g u0 j).v 0 := by
        rw [hdis2]
        by_cases hx : (edgeAt g u0 j).v = (edgeAt g u0 i).v
        · rw [if_pos hx, hx]
          exact le_of_lt himp
        · rw [if_neg hx]
      have h2 : (relaxStep g u0 st i).dis.getD u0 0 = st.dis.getD u0 0 := by
        rw [hdis2, if_neg hu0v]
      omega
  · exact Or.inr (relaxStep_inq_mono2 g u0 st i u0 hq)

end Sol0

namespace Sol0

/-- The first `n` relaxations of the edges of `u`. -/
def relaxUpTo (g : Graph) (u : Nat) (n : Nat) (st : SpfaSt) : SpfaSt :=
  (List.range n).foldl (relaxStep g u) st

theorem relaxUpTo_zero (g : Graph) (u : Nat) (st : SpfaSt) :
    relaxUpTo g u 0 st = st := rfl

theorem relaxUpTo_succ (g : Graph) (u : Nat) (n : Nat) (st : SpfaSt) :
    relaxUpTo g u (n + 1) st = relaxStep g u (relaxUpTo g u n st) n := by
  unfold relaxUpTo
  rw [List.range_succ, List.foldl_append]
  rfl

theorem relaxEdges_eq_upTo (g : Graph) (u : Nat) (st : SpfaSt) :
    relaxEdges g u st = relaxUpTo g u (g.getD u #[]).size st := rfl

theorem relaxUpTo_inv {g : Graph} {nodes src : Nat} (hg : g.size = nodes)
    (hwf : WF g) {u0 : Nat} (hu0 : u0 < nodes) :
    ∀ n, n ≤ (g.getD u0 #[]).size → ∀ st : SpfaSt,
    SpfaCore g nodes src st → st.dis.getD u0 0 < inf →
    FixExcept g nodes st (fun w => w = u0) →
    SpfaCore g nodes src (relaxUpTo g u0 n st) ∧
    (relaxUpTo g u0 n st).dis.getD u0 0 < inf ∧
    FixExcept g nodes (relaxUpTo g u0 n st) (fun w => w = u0) ∧
    (∀ j, j < n → relaxDone g u0 (relaxUpTo g u0 n st) j ∨
      (relaxUpTo g u0 n st).inq.getD u0 false = true) := by
  intro n
  induction n with
  | zero =>
    intro _ st hcore hufin hfix
    rw [relaxUpTo_zero]
    exact ⟨hcore, hufin, hfix, fun j hj => absurd hj (Nat.not_lt_zero j)⟩
  | succ n ih =>
    intro hn st hcore hufin hfix
    have hn' : n ≤ (g.getD u0 #[]).size := Nat.le_of_succ_le hn
    have hnlt : n < (g.getD u0 #[]).size := hn
    obtain ⟨hcore1, hufin1, hfix1, hdone1⟩ := ih hn' st hcore hufin hfix
    rw [relaxUpTo_succ]
    obtain ⟨hcore2, hmono2, hinq2⟩ :=
      relaxStep_pres hg hwf hu0 hnlt hcore1 hufin1
    refine ⟨hcore2, lt_of_le_of_lt (hmono2 u0) hufin1, ?_, ?_⟩
    · exact relaxStep_fixX hg hwf hu0 hnlt hcore1 hfix1
    · intro j hj
      rcases Nat.lt_succ_iff_lt_or_eq.mp hj with hjn | hjn
      · exact relaxStep_done_mono hg hwf hu0 hnlt hcore1 j (hdone1 j hjn)
      · rw [hjn]
        exact relaxStep_done_self hg hwf hu0 hnlt hcore1

theorem spfaPop_inv {g : Graph} {nodes src : Nat} (hg : g.size = nodes)
    (hwf : WF g) {st : SpfaSt} (hcore : SpfaCore g nodes src st)
    (hfix : FixAll g nodes st) {u : Nat} {rest : List Nat}
    (hq : st.q = u :: rest) :
    SpfaCore g nodes src
      (relaxEdges g u { st with q := rest, inq := st.inq.setD u false }) ∧
    FixAll g nodes
      (relaxEdges g u { st with q := rest, inq := st.inq.setD u false }) := by
  have humem : u ∈ st.q := by rw [hq]; exact List.mem_cons_self u rest
  have hu : u < nodes := hcore.qlt u humem
  have hufin : st.dis.getD u 0 < inf := hcore.qfin u humem
  have huinq : u < st.inq.size := by rw [hcore.sizeInq]; exact hu
  have hnodup := hcore.qnodup
  rw [hq] at hnodup
  have hunotrest : u ∉ rest := (List.nodup_cons.mp hnodup).1
  set st1 : SpfaSt := { st with q := rest, inq := st.inq.setD u false } with hst1
  have hcore1 : SpfaCore g nodes src st1 := by
    constructor
    case sizeDis => exact hcore.sizeDis
    case sizePar => exact hcore.sizePar
    case sizeIdx => exact hcore.sizeIdx
    case sizeInq => show (st.inq.setD u false).size = nodes
                    rw [size_setD]; exact hcore.sizeInq
    case disLe => exact hcore.disLe
    case disSrc => exact hcore.disSrc
    case qnodup => exact (List.nodup_cons.mp hnodup).2
    case qlt => exact fun w hw => hcore.qlt w (by rw [hq]; exact List.mem_cons_of_mem u hw)
    case qinq =>
      intro w hw
      show (st.inq.setD u false).getD w false = true ↔ w ∈ rest
      by_cases hwu : w = u
      · rw [getD_setD, if_pos ⟨hwu, huinq⟩]
        constructor
        · intro hcon; exact Bool.noConfusion hcon
        · intro hcon; exact absurd (hwu ▸ hcon) hunotrest
      · rw [getD_setD, if_neg (fun hc => hwu hc.1)]
        rw [hcore.qinq w hw, hq, List.mem_cons]
        constructor
        · intro h
          rcases h with h | h
          · exact absurd h hwu
          · exact h
        · intro h; exact Or.inr h
    case qfin =>
      exact fun w hw => hcore.qfin w (by rw [hq]; exact List.mem_cons_of_mem u hw)
    case good => exact hcore.good
    case real => exact hcore.real
  have hfix1 : FixExcept g nodes st1 (fun w => w = u) := by
    intro w hw hnE hwfin hwinq k hk hkres
    have hwinq0 : st.inq.getD w false = false := by
      have hw2 : (st.inq.setD u false).getD w false = false := hwinq
      rwa [getD_setD_ne _ _ _ (fun hc => hnE hc)] at hw2
    exact hfix w hw (by intro hcon; cases hcon) hwfin hwinq0 k hk hkres
  rw [relaxEdges_eq_upTo]
  obtain ⟨hcore2, _, hfix2, hdone2⟩ :=
    relaxUpTo_inv hg hwf hu ((g.getD u #[]).size) (le_refl _) st1 hcore1 hufin hfix1
  refine ⟨hcore2, ?_⟩
  intro w hw _ hwfin hwinq k hk hkres
  by_cases hwu : w = u
  · subst hwu
    rcases hdone2 k hk with hdone | hinqu
    · exact hdone hkres
    · rw [hinqu] at hwinq
      exact Bool.noConfusion hwinq
  · exact hfix2 w hw hwu hwfin hwinq k hk hkres

theorem spfaLoop_inv {g : Graph} {nodes src : Nat} (hg : g.size = nodes)
    (hwf : WF g) :
    ∀ fuel : Nat, ∀ st st2 : SpfaSt,
    SpfaCore g nodes src st → FixAll g nodes st →
    spfaLoop g fuel st = some st2 →
    SpfaCore g nodes src st2 ∧ FixAll g nodes st2 ∧ st2.q = [] := by
  intro fuel
  induction fuel with
  | zero => intro st st2 _ _ h; exact absurd h (by unfold spfaLoop; simp)
  | succ fuel ih =>
    intro st st2 hcore hfix h
    unfold spfaLoop at h
    cases hq : st.q with
    | nil =>
      rw [hq] at h
      simp at h
      rw [← h]
      exact ⟨hcore, hfix, hq⟩
    | cons u rest =>
      rw [hq] at h
      simp only [] at h
      obtain ⟨hcore2, hfix2⟩ := spfaPop_inv hg hwf hcore hfix hq
      exact ih _ st2 hcore2 hfix2 h

theorem spfaInit_inv {g : Graph} {nodes src : Nat} (hsrc : src < nodes)
    {par0 : Array Int} {idx0 : Array Nat} (hpar0 : par0.size = nodes)
    (hidx0 : idx0.size = nodes) :
    SpfaCore g nodes src (spfaInit nodes src par0 idx0) ∧
    FixAll g nodes (spfaInit nodes src par0 idx0) := by
  have hsd : src < (Array.mkArray nodes inf).size := by
    rw [Array.size_mkArray]; exact hsrc
  have hsi : src < (Array.mkArray nodes (false : Bool)).size := by
    rw [Array.size_mkArray]; exact hsrc
  have hdis0 : ∀ x, (spfaInit nodes src par0 idx0).dis.getD x 0 =
      if x = src then 0 else if x < nodes then inf else 0 := by
    intro x
    show ((Array.mkArray nodes inf).setD src 0).getD x 0 = _
    rw [getD_setD]
    by_cases hx : x = src
    · rw [if_pos ⟨hx, hsd⟩, if_pos hx]
    · rw [if_neg (fun hc => hx hc.1), if_neg hx]
      by_cases hxn : x < nodes
      · rw [if_pos hxn, getD_mkArray_lt _ _ _ _ hxn]
      · rw [if_neg hxn, getD_of_ge]
        rw [Array.size_mkArray]
        exact hxn
  have hinq0 : ∀ x, (spfaInit nodes src par0 idx0).inq.getD x false =
      if x = src then true else false := by
    intro x
    show ((Array.mkArray nodes false).setD src true).getD x false = _
    rw [getD_setD]
    by_cases hx : x = src
    · rw [if_pos ⟨hx, hsi⟩, if_pos hx]
    · rw [if_neg (fun hc => hx hc.1), if_neg hx]
      by_cases hxn : x < nodes
      · rw [getD_mkArray_lt _ _ _ _ hxn]
      · rw [getD_of_ge]
        rw [Array.size_mkArray]
        exact hxn
  have hfin0 : ∀ x, x < nodes →
      (spfaInit nodes src par0 idx0).dis.getD x 0 < inf → x = src := by
    intro x hxn hx
    rw [hdis0 x] at hx
    by_cases h : x = src
    · exact h
    · rw [if_neg h, if_pos hxn] at hx
      exact absurd hx (lt_irrefl inf)
  constructor
  · constructor
    case sizeDis => show ((Array.mkArray nodes inf).setD src 0).size = nodes
                    rw [size_setD, Array.size_mkArray]
    case sizePar => show (par0.setD src (-1)).size = nodes
                    rw [size_setD]; exact hpar0
    case sizeIdx => exact hidx0
    case sizeInq => show ((Array.mkArray nodes false).setD src true).size = nodes
                    rw [size_setD, Array.size_mkArray]
    case disLe =>
      intro x
      rw [hdis0 x]
      by_cases h : x = src
      · rw [if_pos h]; norm_num [inf]
      · rw [if_neg h]
        by_cases h2 : x < nodes
        · rw [if_pos h2]
        · rw [if_neg h2]; norm_num [inf]
    case disSrc =>
      rw [hdis0 src, if_pos rfl]
    case qnodup => exact List.nodup_singleton src
    case qlt =>
      intro w hw
      have hw2 : w ∈ [src] := hw
      rw [List.mem_singleton] at hw2
      rw [hw2]; exact hsrc
    case qinq =>
      intro w hw
      have hqeq : (spfaInit nodes src par0 idx0).q = [src] := rfl
      rw [hinq0 w, hqeq, List.mem_singleton]
      by_cases h : w = src
      · rw [if_pos h]; simp [h]
      · rw [if_neg h]; simp [h]
    case qfin =>
      intro w hw
      have hw2 : w ∈ [src] := hw
      rw [List.mem_singleton] at hw2
      rw [hdis0 w, if_pos hw2]
      norm_num [inf]
    case good =>
      intro x hx hxfin
      have hxsrc : x = src := hfin0 x hx hxfin
      constructor
      · intro _; exact hxsrc
      · intro hcon
        exfalso
        apply hcon
        show (par0.setD src (-1)).getD x 0 = -1
        have hps : src < par0.size := by rw [hpar0]; exact hsrc
        rw [hxsrc, getD_setD_self _ _ _ _ hps]
    case real =>
      intro x hx hxfin
      have hxsrc : x = src := hfin0 x hx hxfin
      refine ⟨[], hxsrc.symm, ?_, ?_⟩
      · rw [hdis0 x, if_pos hxsrc]
        rfl
      · intro y hy
        unfold walkNodes at hy
        simp only [List.map_nil, List.mem_singleton] at hy
        rw [hy]
        refine ⟨hsrc, ?_⟩
        rw [hdis0 src, if_pos rfl]
        norm_num [inf]
  · intro w hw _ hwfin hwinq k hk hkres
    exfalso
    have hwsrc : w = src := hfin0 w hw hwfin
    rw [hinq0 w, if_pos hwsrc] at hwinq
    exact Bool.noConfusion hwinq

/-- The complete postcondition of a terminating run of `mcmf::spfa`. -/
theorem spfa_some_inv {g : Graph} {nodes src : Nat} (hg : g.size = nodes)
    (hwf : WF g) (hsrc : src < nodes) {par0 : Array Int} {idx0 : Array Nat}
    (hpar0 : par0.size = nodes) (hidx0 : idx0.size = nodes) {fuel : Nat}
    {st : SpfaSt} (h : spfa g nodes src par0 idx0 fuel = some st) :
    SpfaCore g nodes src st ∧ FixAll g nodes st ∧
    (∀ u, u < nodes → st.inq.getD u false = false) := by
  obtain ⟨hc0, hf0⟩ := spfaInit_inv (g := g) hsrc hpar0 hidx0
  obtain ⟨hc, hf, hq⟩ := spfaLoop_inv hg hwf fuel _ st hc0 hf0 h
  refine ⟨hc, hf, fun u hu => ?_⟩
  have := hc.qinq u hu
  rw [hq] at this
  simp only [List.not_mem_nil, iff_false] at this
  cases hb : st.inq.getD u false
  · rfl
  · exact absurd hb this

end Sol0

/-! ### Properties of the predecessor traversal -/

namespace Sol0

theorem walkChain_det (par : Array Int) (idx : Array Nat) (g : Graph) :
    ∀ f1 : Nat, ∀ {f2 : Nat} {u : Int} {v : Nat} {L1 L2 : List (Nat × Nat)},
    walkChain par idx g f1 u v = some L1 →
    walkChain par idx g f2 u v = some L2 → L1 = L2 := by
  intro f1
  induction f1 with
  | zero =>
    intro f2 u v L1 L2 h1 _
    exact absurd h1 (by unfold walkChain; simp)
  | succ f1 ih =>
    intro f2 u v L1 L2 h1 h2
    cases f2 with
    | zero => exact absurd h2 (by unfold walkChain; simp)
    | succ f2 =>
      unfold walkChain at h1 h2
      by_cases hu : u = -1
      · rw [if_pos hu] at h1 h2
        have e1 : L1 = [] := by
          have := Option.some.inj h1
          rw [← this]
        have e2 : L2 = [] := by
          have := Option.some.inj h2
          rw [← this]
        rw [e1, e2]
      · rw [if_neg hu] at h1 h2
        by_cases hc : 0 ≤ u ∧ u.toNat < g.size ∧ v < (g.getD u.toNat #[]).size
        · rw [if_pos hc] at h1 h2
          rcases Option.map_eq_some'.mp h1 with ⟨L1', hL1, hL1e⟩
          rcases Option.map_eq_some'.mp h2 with ⟨L2', hL2, hL2e⟩
          rw [← hL1e, ← hL2e, ih hL1 hL2]
        · rw [if_neg hc] at h1
          exact absurd h1 (by simp)

theorem walkChain_suffix (par : Array Int) (idx : Array Nat) (g : Graph) :
    ∀ f : Nat, ∀ {u : Int} {v : Nat} {L : List (Nat × Nat)},
    walkChain par idx g f u v = some L →
    ∀ n, ∀ hn : n < L.length, ∃ f2 : Nat,
      walkChain par idx g f2 (par.getD (L.get ⟨n, hn⟩).1 0)
        (idx.getD (L.get ⟨n, hn⟩).1 0) = some (L.drop (n + 1)) := by
  intro f
  induction f with
  | zero =>
    intro u v L h
    exact absurd h (by unfold walkChain; simp)
  | succ f ih =>
    intro u v L h
    unfold walkChain at h
    by_cases hu : u = -1
    · rw [if_pos hu] at h
      have e1 : L = [] := by
        have := Option.some.inj h
        rw [← this]
      subst e1
      intro n hn
      exact absurd hn (by simp)
    · rw [if_neg hu] at h
      by_cases hc : 0 ≤ u ∧ u.toNat < g.size ∧ v < (g.getD u.toNat #[]).size
      · rw [if_pos hc] at h
        rcases Option.map_eq_some'.mp h with ⟨L', hL', hLe⟩
        subst hLe
        intro n hn
        cases n with
        | zero => exact ⟨f, hL'⟩
        | succ m =>
          have hm : m < L'.length := by
            have := hn
            simp only [List.length_cons] at this
            omega
          obtain ⟨f2, h2⟩ := ih hL' m hm
          exact ⟨f2, h2⟩
      · rw [if_neg hc] at h
        exact absurd h (by simp)

theorem walkChain_tails_nodup (par : Array Int) (idx : Array Nat) (g : Graph)
    {f : Nat} {u : Int} {v : Nat} {L : List (Nat × Nat)}
    (h : walkChain par idx g f u v = some L) : (L.map Prod.fst).Nodup := by
  rw [List.nodup_iff_injective_get]
  intro a b hab
  obtain ⟨i, hi⟩ := a
  obtain ⟨j, hj⟩ := b
  have hi' : i < L.length := by simpa using hi
  have hj' : j < L.length := by simpa using hj
  rw [List.get_map, List.get_map] at hab
  obtain ⟨f1, h1⟩ := walkChain_suffix par idx g f h i hi'
  obtain ⟨f2, h2⟩ := walkChain_suffix par idx g f h j hj'
  have hfst : (L.get ⟨i, hi'⟩).1 = (L.get ⟨j, hj'⟩).1 := hab
  rw [hfst] at h1
  have hdrop : L.drop (i + 1) = L.drop (j + 1) := walkChain_det par idx g f1 h1 h2
  have hlen : L.length - (i + 1) = L.length - (j + 1) := by
    rw [← List.length_drop, ← List.length_drop, hdrop]
  have hij : i = j := by omega
  exact Fin.ext hij

theorem walkChain_start_not_tail (par : Array Int) (idx : Array Nat) (g : Graph)
    {f : Nat} {s : Nat} {L : List (Nat × Nat)}
    (h : walkChain par idx g f (par.getD s 0) (idx.getD s 0) = some L) :
    s ∉ L.map Prod.fst := by
  intro hmem
  obtain ⟨⟨n, hn⟩, hget⟩ := List.mem_iff_get.mp hmem
  have hn' : n < L.length := by simpa using hn
  rw [List.get_map] at hget
  obtain ⟨f2, h2⟩ := walkChain_suffix par idx g f h n hn'
  rw [show (L.get ⟨n, hn'⟩).1 = s from hget] at h2
  have hdrop : L = L.drop (n + 1) := walkChain_det par idx g f h h2
  have hlen := congrArg List.length hdrop
  rw [List.length_drop] at hlen
  omega

/-- The predecessor chain read by the traversal of a terminating `spfa` run:
each visited position is a residual edge pointing at the previous node, the
recorded distances are consistent along it, and the chain ends at the
source. -/
def LinkedTo (g : Graph) (nodes : Nat) (st : SpfaSt) (src : Nat) :
    Nat → List (Nat × Nat) → Prop
  | x, [] => x = src
  | x, p :: L => p.1 < nodes ∧ st.par.getD x 0 = Int.ofNat p.1 ∧
      st.idx.getD x 0 = p.2 ∧ ValidLoc g p.1 p.2 ∧
      (edgeAt g p.1 p.2).v = x ∧
      (edgeAt g p.1 p.2).flow < (edgeAt g p.1 p.2).cap ∧
      st.dis.getD p.1 0 < inf ∧
      st.dis.getD p.1 0 + (edgeAt g p.1 p.2).cost ≤ st.dis.getD x 0 ∧
      LinkedTo g nodes st src p.1 L

theorem walkChain_linked {g : Graph} {nodes src : Nat} {st : SpfaSt}
    (hg : g.size = nodes) (hcore : SpfaCore g nodes src st) :
    ∀ f : Nat, ∀ x : Nat, ∀ L : List (Nat × Nat), x < nodes →
    st.dis.getD x 0 < inf →
    walkChain st.par st.idx g f (st.par.getD x 0) (st.idx.getD x 0) = some L →
    LinkedTo g nodes st src x L := by
  intro f
  induction f with
  | zero =>
    intro x L _ _ h
    exact absurd h (by unfold walkChain; simp)
  | succ f ih =>
    intro x L hx hxfin h
    unfold walkChain at h
    by_cases hpar : st.par.getD x 0 = -1
    · rw [if_pos hpar] at h
      have e1 : L = [] := by
        have := Option.some.inj h
        rw [← this]
      subst e1
      exact (hcore.good x hx hxfin).1 hpar
    · rw [if_neg hpar] at h
      obtain ⟨u1, i1, hp, hix, hu1n, hi1, hv1, hres1, hu1fin, htight⟩ :=
        (hcore.good x hx hxfin).2 hpar
      have htn : (st.par.getD x 0).toNat = u1 := by rw [hp]; rfl
      have hc : 0 ≤ st.par.getD x 0 ∧ (st.par.getD x 0).toNat < g.size ∧
          st.idx.getD x 0 < (g.getD (st.par.getD x 0).toNat #[]).size := by
        refine ⟨by rw [hp]; exact Int.ofNat_nonneg u1, ?_, ?_⟩
        · rw [htn, hg]; exact hu1n
        · rw [htn, hix]; exact hi1
      rw [if_pos hc] at h
      rcases Option.map_eq_some'.mp h with ⟨L', hL', hLe⟩
      subst hLe
      rw [htn] at hL' ⊢
      rw [hix]
      show LinkedTo g nodes st src x ((u1, i1) :: L')
      refine ⟨hu1n, hp, hix, ⟨hg ▸ hu1n, hi1⟩, hv1, hres1, hu1fin, htight, ?_⟩
      exact ih u1 L' hu1n hu1fin hL'

theorem linked_valid {g : Graph} {nodes src : Nat} {st : SpfaSt} :
    ∀ {L : List (Nat × Nat)} {x : Nat}, LinkedTo g nodes st src x L →
    ∀ p ∈ L, ValidLoc g p.1 p.2 := by
  intro L
  induction L with
  | nil => intro x _ p hp; cases hp
  | cons q L ih =>
    intro x hl p hp
    rcases List.mem_cons.mp hp with he | ht
    · rw [he]; exact hl.2.2.2.1
    · exact ih hl.2.2.2.2.2.2.2.2 p ht

theorem linked_res {g : Graph} {nodes src : Nat} {st : SpfaSt} :
    ∀ {L : List (Nat × Nat)} {x : Nat}, LinkedTo g nodes st src x L →
    ∀ p ∈ L, 0 < residualAt g p.1 p.2 := by
  intro L
  induction L with
  | nil => intro x _ p hp; cases hp
  | cons q L ih =>
    intro x hl p hp
    rcases List.mem_cons.mp hp with he | ht
    · rw [he]
      have := hl.2.2.2.2.2.1
      unfold residualAt
      omega
    · exact ih hl.2.2.2.2.2.2.2.2 p ht

theorem linked_last {g : Graph} {nodes src : Nat} {st : SpfaSt} :
    ∀ {L : List (Nat × Nat)} {x : Nat}, LinkedTo g nodes st src x L →
    (x :: L.map Prod.fst).getLast (List.cons_ne_nil x _) = src := by
  intro L
  induction L with
  | nil => intro x hl; exact hl
  | cons q L ih =>
    intro x hl
    have h := ih hl.2.2.2.2.2.2.2.2
    rw [List.map_cons, List.getLast_cons (List.cons_ne_nil q.1 _)]
    exact h

theorem linked_targets {g : Graph} {nodes src : Nat} {st : SpfaSt} :
    ∀ {L : List (Nat × Nat)} {x : Nat}, LinkedTo g nodes st src x L →
    L.map (fun p => (edgeAt g p.1 p.2).v) = (x :: L.map Prod.fst).dropLast := by
  intro L
  induction L with
  | nil => intro x _; rfl
  | cons q L ih =>
    intro x hl
    have h := ih hl.2.2.2.2.2.2.2.2
    rw [List.map_cons, List.map_cons, hl.2.2.2.2.1]
    show x :: List.map (fun p => (edgeAt g p.1 p.2).v) L =
      (x :: q.1 :: List.map Prod.fst L).dropLast
    rw [h]
    rfl

theorem linked_no_partner {g : Graph} {nodes src : Nat} {st : SpfaSt}
    (hwf : WF g) :
    ∀ {L : List (Nat × Nat)} {x : Nat}, LinkedTo g nodes st src x L →
    (x :: L.map Prod.fst).Nodup →
    ∀ p ∈ L, partnerLoc g p.1 p.2 ∉ L := by
  intro L
  induction L with
  | nil => intro x _ _ p hp; cases hp
  | cons q L ih =>
    intro x hl hnd p hp hpmem
    obtain ⟨hq1n, _, _, hqv, hqtl, _, _, _, hl'⟩ := hl
    have hxnot : x ∉ (q.1 :: L.map Prod.fst) := by
      have := List.nodup_cons.mp hnd
      simpa using this.1
    have hnd' : (q.1 :: L.map Prod.fst).Nodup := (List.nodup_cons.mp hnd).2
    rcases List.mem_cons.mp hp with hpq | hpL
    · subst hpq
      have hptail : (partnerLoc g p.1 p.2).1 = x := by
        unfold partnerLoc
        show (edgeAt g p.1 p.2).v = x
        exact hqtl
      rcases List.mem_cons.mp hpmem with hpe | hpt
      · have : x = p.1 := by rw [← hptail, hpe]
        exact hxnot (by rw [this]; exact List.mem_cons_self _ _)
      · have : x ∈ L.map Prod.fst := by
          rw [← hptail]
          exact List.mem_map_of_mem Prod.fst hpt
        exact hxnot (List.mem_cons_of_mem _ this)
    · rcases List.mem_cons.mp hpmem with hpe | hpt
      · have hpvalid : ValidLoc g p.1 p.2 := linked_valid hl' p hpL
        have hqpart : partnerLoc g q.1 q.2 = p := by
          have h2 : q = (q.1, q.2) := rfl
          have := partner_involution hwf hpvalid
          rw [hpe] at this
          exact this
        have hp1x : p.1 = x := by
          have : (partnerLoc g q.1 q.2).1 = (edgeAt g q.1 q.2).v := rfl
          rw [hqpart] at this
          rw [this, hqtl]
        have : x ∈ L.map Prod.fst := by
          rw [← hp1x]
          exact List.mem_map_of_mem Prod.fst hpL
        exact hxnot (List.mem_cons_of_mem _ this)
      · exact ih hl' hnd' p hpL hpt

theorem linked_tight {g : Graph} {nodes src : Nat} {st : SpfaSt}
    (hfix : FixAll g nodes st)
    (hinq : ∀ u, u < nodes → st.inq.getD u false = false) :
    ∀ {L : List (Nat × Nat)} {x : Nat}, LinkedTo g nodes st src x L →
    ∀ p ∈ L, st.dis.getD (edgeAt g p.1 p.2).v 0 =
      st.dis.getD p.1 0 + (edgeAt g p.1 p.2).cost := by
  intro L
  induction L with
  | nil => intro x _ p hp; cases hp
  | cons q L ih =>
    intro x hl p hp
    obtain ⟨hq1n, _, _, hqv, hqtl, hqres, hqfin, hqle, hl'⟩ := hl
    rcases List.mem_cons.mp hp with he | ht
    · subst he
      have hup := hfix p.1 hq1n (by intro hcon; cases hcon) hqfin
        (hinq p.1 hq1n) p.2 hqv.2 hqres
      rw [hqtl]
      rw [hqtl] at hup
      omega
    · exact ih hl' p ht

theorem bottleneck_pos_aux (g : Graph) (chain : List (Nat × Nat))
    (hres : ∀ p ∈ chain, 0 < residualAt g p.1 p.2) :
    ∀ a : Int, 0 < a → 0 < chain.foldl (fun b p => min b (residualAt g p.1 p.2)) a := by
  induction chain with
  | nil => intro a ha; simpa using ha
  | cons p L ih =>
    intro a ha
    have hp : 0 < residualAt g p.1 p.2 := hres p (List.mem_cons_self p L)
    exact ih (fun q hq => hres q (List.mem_cons_of_mem p hq)) _ (lt_min ha hp)

theorem bottleneckOf_pos {g : Graph} {chain : List (Nat × Nat)}
    (hres : ∀ p ∈ chain, 0 < residualAt g p.1 p.2) : 0 < bottleneckOf g chain :=
  bottleneck_pos_aux g chain hres inf (by norm_num [inf])

end Sol0

/-! ### Net flow out of a node and its behaviour under pushes -/

namespace Sol0

/-- Sum of the flow fields of all edges stored at node `x` (original and
synthetic reverse edges alike). -/
def netAll (g : Graph) (x : Nat) : Int :=
  ∑ k in Finset.range (g.getD x #[]).size, (edgeAt g x k).flow

/-- Occurrences of a node in a list of nodes. -/
def cntN (x : Nat) : List Nat → Nat
  | [] => 0
  | y :: l => cntN x l + (if x = y then 1 else 0)

theorem cntN_cons (x y : Nat) (l : List Nat) :
    cntN x (y :: l) = cntN x l + (if x = y then 1 else 0) := rfl

theorem cntN_append (x : Nat) : ∀ l1 l2 : List Nat,
    cntN x (l1 ++ l2) = cntN x l1 + cntN x l2 := by
  intro l1
  induction l1 with
  | nil => intro l2; simp [cntN]
  | cons y l ih =>
    intro l2
    rw [List.cons_append, cntN_cons, cntN_cons, ih]
    omega

theorem sum_ite_pair (n : Nat) (x y j : Nat) (b : Int) :
    (∑ k in Finset.range n, if (x, k) = (y, j) then b else 0) =
      if x = y ∧ j < n then b else 0 := by
  by_cases hxy : x = y
  · subst hxy
    have hcongr : ∀ k ∈ Finset.range n,
        (if (x, k) = (x, j) then b else 0) = if k = j then b else 0 := by
      intro k _
      by_cases hk : k = j
      · rw [if_pos (by rw [hk]), if_pos hk]
      · rw [if_neg (fun hc => hk (congrArg Prod.snd hc)), if_neg hk]
    rw [Finset.sum_congr rfl hcongr, Finset.sum_ite_eq' (Finset.range n) j fun _ => b]
    simp only [Finset.mem_range]
    by_cases hj : j < n
    · simp [hj]
    · simp [hj]
  · have hall : ∀ k ∈ Finset.range n, (if (x, k) = (y, j) then b else 0) = 0 := by
      intro k _
      rw [if_neg (fun hc => hxy (congrArg Prod.fst hc))]
    rw [Finset.sum_congr rfl hall, Finset.sum_const_zero,
      if_neg (fun hc => hxy hc.1)]

theorem netAll_pushEdge {g : Graph} (hwf : WF g) {u i : Nat}
    (hv : ValidLoc g u i) (b : Int) (x : Nat) :
    netAll (pushEdge g u i b) x =
      netAll g x + (if x = u then b else 0) -
        (if x = (edgeAt g u i).v then b else 0) := by
  have hpv : ValidLoc g (partnerLoc g u i).1 (partnerLoc g u i).2 :=
    partner_valid hwf hv
  have hsh : sameShape g (pushEdge g u i b) := sameShape_pushEdge g u i b
  unfold netAll
  rw [hsh.2.1 x]
  have hterm : ∀ k ∈ Finset.range (g.getD x #[]).size,
      (edgeAt (pushEdge g u i b) x k).flow =
        (edgeAt g x k).flow + (if (x, k) = (u, i) then b else 0) -
          (if (x, k) = partnerLoc g u i then b else 0) := by
    intro k _
    exact flow_pushEdge g u i b hv hpv x k
  rw [Finset.sum_congr rfl hterm]
  rw [Finset.sum_sub_distrib, Finset.sum_add_distrib]
  have h1 : (∑ k in Finset.range (g.getD x #[]).size,
      if (x, k) = (u, i) then b else 0) = if x = u then b else 0 := by
    rw [sum_ite_pair]
    by_cases hx : x = u
    · rw [if_pos ⟨hx, by rw [hx]; exact hv.2⟩, if_pos hx]
    · rw [if_neg (fun hc => hx hc.1), if_neg hx]
  have h2 : (∑ k in Finset.range (g.getD x #[]).size,
      if (x, k) = partnerLoc g u i then b else 0) =
      if x = (edgeAt g u i).v then b else 0 := by
    have hpp : partnerLoc g u i = ((edgeAt g u i).v, (edgeAt g u i).rev) := rfl
    rw [hpp, sum_ite_pair]
    by_cases hx : x = (edgeAt g u i).v
    · rw [if_pos ⟨hx, by rw [hx]; exact hpv.2⟩, if_pos hx]
    · rw [if_neg (fun hc => hx hc.1), if_neg hx]
  rw [h1, h2]

theorem netAll_pushChain (b : Int) : ∀ (L : List (Nat × Nat)) (g : Graph),
    WF g → (∀ p ∈ L, ValidLoc g p.1 p.2) → ∀ x : Nat,
    netAll (pushChain g L b) x =
      netAll g x + b * (cntN x (L.map Prod.fst) : Int) -
        b * (cntN x (L.map fun p => (edgeAt g p.1 p.2).v) : Int) := by
  intro L
  induction L with
  | nil =>
    intro g _ _ x
    simp [pushChain, cntN]
  | cons p L ih =>
    intro g hwf hvalid x
    have hpv : ValidLoc g p.1 p.2 := hvalid p (List.mem_cons_self p L)
    have hsh : sameShape g (pushEdge g p.1 p.2 b) := sameShape_pushEdge g p.1 p.2 b
    rw [pushChain_cons]
    have hLvalid : ∀ q ∈ L, ValidLoc (pushEdge g p.1 p.2 b) q.1 q.2 := fun q hq =>
      ValidLoc_of_sameShape hsh (hvalid q (List.mem_cons_of_mem p hq))
    rw [ih (pushEdge g p.1 p.2 b) (WF_of_sameShape hsh hwf) hLvalid x]
    rw [netAll_pushEdge hwf hpv b x]
    have hmapeq : L.map (fun q => (edgeAt (pushEdge g p.1 p.2 b) q.1 q.2).v) =
        L.map (fun q => (edgeAt g q.1 q.2).v) := by
      apply List.map_congr_left
      intro q _
      exact edgeV_of_sameShape hsh q.1 q.2
    rw [hmapeq, List.map_cons, List.map_cons, cntN_cons, cntN_cons]
    by_cases h1 : x = p.1
    · by_cases h2 : x = (edgeAt g p.1 p.2).v
      · rw [if_pos h1, if_pos h2, if_pos h1, if_pos h2]
        push_cast
        ring
      · rw [if_pos h1, if_neg h2, if_pos h1, if_neg h2]
        push_cast
        ring
    · by_cases h2 : x = (edgeAt g p.1 p.2).v
      · rw [if_neg h1, if_pos h2, if_neg h1, if_pos h2]
        push_cast
        ring
      · rw [if_neg h1, if_neg h2, if_neg h1, if_neg h2]
        push_cast
        ring

theorem netAll_pushChain_linked {g : Graph} {nodes src : Nat} {st : SpfaSt}
    {x0 : Nat} {L : List (Nat × Nat)} (hwf : WF g)
    (hl : LinkedTo g nodes st src x0 L) (b : Int) :
    ∀ y : Nat, y ≠ x0 → y ≠ src → netAll (pushChain g L b) y = netAll g y := by
  intro y hy0 hysrc
  rw [netAll_pushChain b L g hwf (linked_valid hl) y]
  rw [linked_targets hl]
  have hfullne : (x0 :: L.map Prod.fst) ≠ [] := List.cons_ne_nil _ _
  have hsplit : (x0 :: L.map Prod.fst).dropLast ++
      [(x0 :: L.map Prod.fst).getLast hfullne] = x0 :: L.map Prod.fst :=
    List.dropLast_append_getLast hfullne
  have hlast : (x0 :: L.map Prod.fst).getLast hfullne = src := linked_last hl
  have hcnt1 : cntN y (x0 :: L.map Prod.fst) = cntN y (L.map Prod.fst) := by
    rw [cntN_cons, if_neg hy0]
    omega
  have h3 : cntN y ((x0 :: L.map Prod.fst).dropLast ++ [src]) =
      cntN y (x0 :: L.map Prod.fst) := by
    rw [← hlast, hsplit]
  have h4 : cntN y ((x0 :: L.map Prod.fst).dropLast ++ [src]) =
      cntN y ((x0 :: L.map Prod.fst).dropLast) + cntN y [src] :=
    cntN_append y _ _
  have h5 : cntN y [src] = 0 := by
    show cntN y (src :: []) = 0
    rw [cntN_cons, if_neg hysrc]
    rfl
  have hcnt2 : cntN y ((x0 :: L.map Prod.fst).dropLast) =
      cntN y (x0 :: L.map Prod.fst) := by omega
  rw [hcnt2, hcnt1]
  ring

end Sol0

/-! ### The solver loop: invariants along the whole run -/

namespace Sol0

/-- Graph invariants maintained by the solver. -/
def GInv (g : Graph) (nodes : Nat) : Prop :=
  g.size = nodes ∧ WF g ∧ FlowInv g ∧ CapInv g ∧ CostInv g

theorem spfaReached_fin {st : SpfaSt} {sink : Nat}
    (hle : st.dis.getD sink 0 ≤ inf) (h : spfaReached st sink = true) :
    st.dis.getD sink 0 < inf := by
  unfold spfaReached at h
  rw [bne_iff_ne] at h
  omega

theorem spfaReached_false_eq {st : SpfaSt} {sink : Nat}
    (h : spfaReached st sink = false) : st.dis.getD sink 0 = inf := by
  unfold spfaReached at h
  simpa using h

theorem solveLoop_eq_none {nodes src sink spfaFuel fuel : Nat} {M : MState}
    {mincost maxflow : Int} {tr : List (Int × Int × Graph)}
    (hspfa : spfa M.g nodes src M.par M.idx spfaFuel = none) :
    solveLoop nodes src sink spfaFuel (fuel + 1) M mincost maxflow tr = none := by
  unfold solveLoop
  rw [hspfa]

theorem solveLoop_eq_stop {nodes src sink spfaFuel fuel : Nat} {M : MState}
    {mincost maxflow : Int} {tr : List (Int × Int × Graph)} {st : SpfaSt}
    (hspfa : spfa M.g nodes src M.par M.idx spfaFuel = some st)
    (hr : spfaReached st sink = false) :
    solveLoop nodes src sink spfaFuel (fuel + 1) M mincost maxflow tr =
      some (mincost, maxflow, ⟨M.g, st.par, st.idx⟩, tr) := by
  unfold solveLoop
  rw [hspfa]
  simp only [hr]
  rfl

theorem solveLoop_eq_walknone {nodes src sink spfaFuel fuel : Nat} {M : MState}
    {mincost maxflow : Int} {tr : List (Int × Int × Graph)} {st : SpfaSt}
    (hspfa : spfa M.g nodes src M.par M.idx spfaFuel = some st)
    (hr : spfaReached st sink = true)
    (hwalk : walkChain st.par st.idx M.g (nodes + 1)
      (st.par.getD sink 0) (st.idx.getD sink 0) = none) :
    solveLoop nodes src sink spfaFuel (fuel + 1) M mincost maxflow tr = none := by
  unfold solveLoop
  rw [hspfa]
  simp only [hr, hwalk]
  rfl

theorem solveLoop_eq_step {nodes src sink spfaFuel fuel : Nat} {M : MState}
    {mincost maxflow : Int} {tr : List (Int × Int × Graph)} {st : SpfaSt}
    {chain : List (Nat × Nat)}
    (hspfa : spfa M.g nodes src M.par M.idx spfaFuel = some st)
    (hr : spfaReached st sink = true)
    (hwalk : walkChain st.par st.idx M.g (nodes + 1)
      (st.par.getD sink 0) (st.idx.getD sink 0) = some chain) :
    solveLoop nodes src sink spfaFuel (fuel + 1) M mincost maxflow tr =
      solveLoop nodes src sink spfaFuel fuel
        ⟨pushChain M.g chain (bottleneckOf M.g chain), st.par, st.idx⟩
        (mincost + bottleneckOf M.g chain * st.dis.getD sink 0)
        (maxflow + bottleneckOf M.g chain)
        (tr ++ [(st.dis.getD sink 0, bottleneckOf M.g chain,
          pushChain M.g chain (bottleneckOf M.g chain))]) := by
  conv_lhs => rw [solveLoop]
  rw [hspfa]
  simp only [hr, hwalk]
  rw [if_pos trivial]

/-- Everything one completed augmentation of the solver loop provides. -/
theorem solve_iter_facts {g : Graph} {nodes src sink : Nat} {st : SpfaSt}
    {chain : List (Nat × Nat)} {spfaFuel : Nat} {par0 : Array Int}
    {idx0 : Array Nat} (hginv : GInv g nodes) (hsrc : src < nodes)
    (hsink : sink < nodes)
    (hpar0 : par0.size = nodes) (hidx0 : idx0.size = nodes)
    (hspfa : spfa g nodes src par0 idx0 spfaFuel = some st)
    (hr : spfaReached st sink = true)
    (hwalk : walkChain st.par st.idx g (nodes + 1)
      (st.par.getD sink 0) (st.idx.getD sink 0) = some chain) :
    GInv (pushChain g chain (bottleneckOf g chain)) nodes ∧
    sameShape g (pushChain g chain (bottleneckOf g chain)) ∧
    (∀ y : Nat, y ≠ sink → y ≠ src →
      netAll (pushChain g chain (bottleneckOf g chain)) y = netAll g y) ∧
    0 < bottleneckOf g chain ∧
    st.par.size = nodes ∧ st.idx.size = nodes ∧
    LinkedTo g nodes st src sink chain ∧ SpfaCore g nodes src st ∧
    FixAll g nodes st ∧ (∀ u, u < nodes → st.inq.getD u false = false) := by
  obtain ⟨hg, hwf, hfi, hcap, hcost⟩ := hginv
  obtain ⟨hcore, hfix, hinqall⟩ := spfa_some_inv hg hwf hsrc hpar0 hidx0 hspfa
  have hsinkfin : st.dis.getD sink 0 < inf :=
    spfaReached_fin (hcore.disLe sink) hr
  have hlink : LinkedTo g nodes st src sink chain :=
    walkChain_linked hg hcore (nodes + 1) sink chain hsink hsinkfin hwalk
  have htnodup : (chain.map Prod.fst).Nodup :=
    walkChain_tails_nodup st.par st.idx g hwalk
  have hsinknot : sink ∉ chain.map Prod.fst :=
    walkChain_start_not_tail st.par st.idx g hwalk
  have hfullnodup : (sink :: chain.map Prod.fst).Nodup :=
    List.nodup_cons.mpr ⟨hsinknot, htnodup⟩
  have hchainnodup : chain.Nodup := List.Nodup.of_map Prod.fst htnodup
  have hvalid := linked_valid hlink
  have hres := linked_res hlink
  have hnp := linked_no_partner hwf hlink hfullnodup
  have hb0 : 0 < bottleneckOf g chain := bottleneckOf_pos hres
  have hble : ∀ p ∈ chain, bottleneckOf g chain ≤ residualAt g p.1 p.2 :=
    fun p hp => bottleneckOf_le hp
  have hsh : sameShape g (pushChain g chain (bottleneckOf g chain)) :=
    sameShape_pushChain chain g _
  refine ⟨⟨by rw [hsh.1, hg], WF_of_sameShape hsh hwf,
    FlowInv_pushChain hwf hfi hvalid hchainnodup hnp (le_of_lt hb0) hble,
    CapInv_of_sameShape hsh hcap, CostInv_of_sameShape hsh hcost⟩,
    hsh, ?_, hb0, hcore.sizePar, hcore.sizeIdx, hlink, hcore, hfix, hinqall⟩
  intro y hy1 hy2
  exact netAll_pushChain_linked hwf hlink _ y hy1 hy2

end Sol0

namespace Sol0

theorem solveLoop_master {nodes src sink spfaFuel : Nat} (hsrc : src < nodes)
    (hsink : sink < nodes) :
    ∀ fuel : Nat, ∀ M : MState, ∀ mincost maxflow : Int,
    ∀ tr0 : List (Int × Int × Graph),
    ∀ res : Int × Int × MState × List (Int × Int × Graph),
    GInv M.g nodes → M.par.size = nodes → M.idx.size = nodes →
    solveLoop nodes src sink spfaFuel fuel M mincost maxflow tr0 = some res →
    ∃ new : List (Int × Int × Graph),
      res.2.2.2 = tr0 ++ new ∧
      res.1 = mincost + (new.map (fun t => t.2.1 * t.1)).sum ∧
      res.2.1 = maxflow + (new.map (fun t => t.2.1)).sum ∧
      GInv res.2.2.1.g nodes ∧ sameShape M.g res.2.2.1.g ∧
      (∀ y, y ≠ src → y ≠ sink → netAll res.2.2.1.g y = netAll M.g y) ∧
      (∀ t ∈ new, GInv t.2.2 nodes ∧ sameShape M.g t.2.2 ∧
        (∀ y, y ≠ src → y ≠ sink → netAll t.2.2 y = netAll M.g y) ∧ 0 < t.2.1) ∧
      res.2.2.1.par.size = nodes ∧ res.2.2.1.idx.size = nodes := by
  intro fuel
  induction fuel with
  | zero =>
    intro M mincost maxflow tr0 res _ _ _ h
    exact absurd h (by unfold solveLoop; simp)
  | succ fuel ih =>
    intro M mincost maxflow tr0 res hginv hpar hidx h
    cases hspfa : spfa M.g nodes src M.par M.idx spfaFuel with
    | none =>
      rw [solveLoop_eq_none hspfa] at h
      exact absurd h (by simp)
    | some st =>
      obtain ⟨hcore, _, _⟩ :=
        spfa_some_inv hginv.1 hginv.2.1 hsrc hpar hidx hspfa
      cases hr : spfaReached st sink with
      | false =>
        rw [solveLoop_eq_stop hspfa hr] at h
        have hres := Option.some.inj h
        subst hres
        exact ⟨[], by simp, by simp, by simp, hginv, sameShape_refl M.g,
          fun y _ _ => rfl, fun t ht => absurd ht (List.not_mem_nil t),
          hcore.sizePar, hcore.sizeIdx⟩
      | true =>
        cases hwalk : walkChain st.par st.idx M.g (nodes + 1)
            (st.par.getD sink 0) (st.idx.getD sink 0) with
        | none =>
          rw [solveLoop_eq_walknone hspfa hr hwalk] at h
          exact absurd h (by simp)
        | some chain =>
          rw [solveLoop_eq_step hspfa hr hwalk] at h
          obtain ⟨hgi2, hsh2, hnet2, hb0, hps, his, _, _, _, _⟩ :=
            solve_iter_facts hginv hsrc hsink hpar hidx hspfa hr hwalk
          obtain ⟨new2, htr, hc, hf, hgi3, hsh3, hnet3, hall3, hp3, hi3⟩ :=
            ih ⟨pushChain M.g chain (bottleneckOf M.g chain), st.par, st.idx⟩
              (mincost + bottleneckOf M.g chain * st.dis.getD sink 0)
              (maxflow + bottleneckOf M.g chain)
              (tr0 ++ [(st.dis.getD sink 0, bottleneckOf M.g chain,
                pushChain M.g chain (bottleneckOf M.g chain))])
              res hgi2 hps his h
          refine ⟨(st.dis.getD sink 0, bottleneckOf M.g chain,
            pushChain M.g chain (bottleneckOf M.g chain)) :: new2,
            ?_, ?_, ?_, hgi3, sameShape_trans hsh2 hsh3, ?_, ?_, hp3, hi3⟩
          · rw [htr, List.append_assoc]
            rfl
          · rw [hc, List.map_cons, List.sum_cons]
            ring
          · rw [hf, List.map_cons, List.sum_cons]
            ring
          · intro y hy1 hy2
            rw [hnet3 y hy1 hy2]
            exact hnet2 y hy2 hy1
          · intro t ht
            rcases List.mem_cons.mp ht with he | ht2
            · rw [he]
              exact ⟨hgi2, hsh2, fun y hy1 hy2 => hnet2 y hy2 hy1, hb0⟩
            · obtain ⟨h1, h2, h3, h4⟩ := hall3 t ht2
              refine ⟨h1, sameShape_trans hsh2 h2, ?_, h4⟩
              intro y hy1 hy2
              rw [h3 y hy1 hy2]
              exact hnet2 y hy2 hy1

end Sol0

/-! ### Telescoping along residual walks and extraction of simple paths -/

namespace Sol0

/-- Sanity bound on edge costs so that the `inf` sentinel cannot collide with
a genuine path cost (the spec restricts the engine to fixed-width integer
costs; this is the corresponding arithmetic side condition). -/
def CostBound (g : Graph) (nodes : Nat) (B : Int) : Prop :=
  0 ≤ B ∧ ((nodes : Int) + 1) * B < inf ∧
  ∀ u, u < g.size → ∀ i, i < (g.getD u #[]).size →
    -B ≤ (edgeAt g u i).cost ∧ (edgeAt g u i).cost ≤ B

instance (g : Graph) (nodes : Nat) (B : Int) : Decidable (CostBound g nodes B) := by
  unfold CostBound; infer_instance

theorem walkNodes_cons (g : Graph) (a : Nat) (p : Nat × Nat) (L : List (Nat × Nat)) :
    walkNodes g a (p :: L) = a :: walkNodes g (edgeAt g p.1 p.2).v L := rfl

theorem walkCost_cons (g : Graph) (p : Nat × Nat) (L : List (Nat × Nat)) :
    walkCost g (p :: L) = (edgeAt g p.1 p.2).cost + walkCost g L := by
  unfold walkCost
  rw [List.map_cons, List.sum_cons]

theorem walk_lower_all (g : Graph) (nodes : Nat) (d : Nat → Int)
    (hfix : ∀ u, u < nodes → d u < inf → ∀ i, i < (g.getD u #[]).size →
      0 < residualAt g u i → d (edgeAt g u i).v ≤ d u + (edgeAt g u i).cost) :
    ∀ P : List (Nat × Nat), ∀ a c : Nat, IsWalk g a c P →
    (∀ z ∈ walkNodes g a P, z < nodes ∧ d z < inf) →
    d c ≤ d a + walkCost g P := by
  intro P
  induction P with
  | nil =>
    intro a c hw _
    have hac : a = c := hw
    subst hac
    simp [walkCost]
  | cons p P ih =>
    intro a c hw hn
    obtain ⟨hp1, hpv, hpres, hw2⟩ := hw
    have ha : a < nodes ∧ d a < inf :=
      hn a (by rw [walkNodes_cons]; exact List.mem_cons_self _ _)
    have hstep : d (edgeAt g p.1 p.2).v ≤ d p.1 + (edgeAt g p.1 p.2).cost :=
      hfix p.1 (hp1 ▸ ha.1) (hp1 ▸ ha.2) p.2 hpv.2 hpres
    have hrest := ih (edgeAt g p.1 p.2).v c hw2 (fun z hz => hn z
      (by rw [walkNodes_cons]; exact List.mem_cons_of_mem _ hz))
    rw [walkCost_cons, hp1] at *
    omega

theorem cycle_nonneg (g : Graph) (nodes : Nat) (d : Nat → Int)
    (hfix : ∀ u, u < nodes → d u < inf → ∀ i, i < (g.getD u #[]).size →
      0 < residualAt g u i → d (edgeAt g u i).v ≤ d u + (edgeAt g u i).cost)
    (C : List (Nat × Nat)) (y : Nat) (hw : IsWalk g y y C)
    (hn : ∀ z ∈ walkNodes g y C, z < nodes ∧ d z < inf) :
    0 ≤ walkCost g C := by
  have := walk_lower_all g nodes d hfix C y y hw hn
  omega

theorem walk_lower_bounded (g : Graph) (nodes : Nat) (B : Int) (d : Nat → Int)
    (hfix : ∀ u, u < nodes → d u < inf → ∀ i, i < (g.getD u #[]).size →
      0 < residualAt g u i → d (edgeAt g u i).v ≤ d u + (edgeAt g u i).cost)
    (hB0 : 0 ≤ B) (hBinf : ((nodes : Int) + 1) * B < inf)
    (hBc : ∀ u, u < g.size → ∀ i, i < (g.getD u #[]).size →
      -B ≤ (edgeAt g u i).cost ∧ (edgeAt g u i).cost ≤ B)
    (hg : g.size = nodes) :
    ∀ P : List (Nat × Nat), ∀ a c : Nat, IsWalk g a c P →
    (∀ z ∈ walkNodes g a P, z < nodes) →
    d a < inf → d a + (P.length : Int) * B ≤ (nodes : Int) * B →
    d c ≤ d a + walkCost g P ∧ d c < inf := by
  intro P
  induction P with
  | nil =>
    intro a c hw _ hfa _
    have hac : a = c := hw
    subst hac
    exact ⟨by simp [walkCost], hfa⟩
  | cons p P ih =>
    intro a c hw hn hfa hbud
    obtain ⟨hp1, hpv, hpres, hw2⟩ := hw
    subst hp1
    have ha : p.1 < nodes :=
      hn p.1 (by rw [walkNodes_cons]; exact List.mem_cons_self _ _)
    have hstep : d (edgeAt g p.1 p.2).v ≤ d p.1 + (edgeAt g p.1 p.2).cost :=
      hfix p.1 ha hfa p.2 hpv.2 hpres
    have hcB := hBc p.1 (hg ▸ ha) p.2 hpv.2
    have hlen : (((p :: P).length : Nat) : Int) = (P.length : Int) + 1 := by
      rw [List.length_cons]
      push_cast
      ring
    rw [hlen, add_mul, one_mul] at hbud
    have hXpos : 0 ≤ (P.length : Int) * B :=
      mul_nonneg (Int.natCast_nonneg _) hB0
    have hYinf : (nodes : Int) * B + B < inf := by
      have hYB : ((nodes : Int) + 1) * B = (nodes : Int) * B + B := by ring
      rw [← hYB]
      exact hBinf
    have htle : d (edgeAt g p.1 p.2).v ≤ d p.1 + B := by
      linarith [hstep, hcB.2]
    have htfin : d (edgeAt g p.1 p.2).v < inf := by
      linarith [htle, hbud, hXpos, hYinf, hB0]
    have htbud : d (edgeAt g p.1 p.2).v + (P.length : Int) * B ≤ (nodes : Int) * B := by
      linarith [htle, hbud]
    have hnodes2 : ∀ z ∈ walkNodes g (edgeAt g p.1 p.2).v P, z < nodes := fun z hz =>
      hn z (by rw [walkNodes_cons]; exact List.mem_cons_of_mem _ hz)
    obtain ⟨hle2, hfin2⟩ := ih (edgeAt g p.1 p.2).v c hw2 hnodes2 htfin htbud
    constructor
    · rw [walkCost_cons]
      linarith [hle2, hstep]
    · exact hfin2

theorem walk_split (g : Graph) : ∀ (W : List (Nat × Nat)) (m c y : Nat),
    IsWalk g m c W → y ∈ walkNodes g m W →
    ∃ A Bs : List (Nat × Nat), W = A ++ Bs ∧ IsWalk g m y A ∧ IsWalk g y c Bs := by
  intro W
  induction W with
  | nil =>
    intro m c y hw hy
    have hym : y = m := by
      unfold walkNodes at hy
      simpa using hy
    exact ⟨[], [], rfl, hym.symm, hym ▸ hw⟩
  | cons p W ih =>
    intro m c y hw hy
    obtain ⟨hp1, hpv, hpres, hw2⟩ := hw
    by_cases hym : y = m
    · exact ⟨[], p :: W, rfl, hym.symm, hym ▸ ⟨hp1, hpv, hpres, hw2⟩⟩
    · have hy2 : y ∈ walkNodes g (edgeAt g p.1 p.2).v W := by
        rw [walkNodes_cons] at hy
        rcases List.mem_cons.mp hy with h | h
        · exact absurd h hym
        · exact h
      obtain ⟨A, Bs, hWeq, hA, hBs⟩ := ih (edgeAt g p.1 p.2).v c y hw2 hy2
      exact ⟨p :: A, Bs, by rw [List.cons_append, ← hWeq], ⟨hp1, hpv, hpres, hA⟩, hBs⟩

theorem walkNodes_sub_append (g : Graph) (a : Nat) (A Bs : List (Nat × Nat)) :
    ∀ z ∈ walkNodes g a A, z ∈ walkNodes g a (A ++ Bs) := by
  intro z hz
  unfold walkNodes at hz ⊢
  rw [List.map_append]
  rcases List.mem_cons.mp hz with h | h
  · rw [h]; exact List.mem_cons_self _ _
  · exact List.mem_cons_of_mem _ (List.mem_append_left _ h)

theorem walk_decompose (g : Graph) (Good : Nat → Prop)
    (hcyc : ∀ y : Nat, ∀ C : List (Nat × Nat), C ≠ [] → IsWalk g y y C →
      (∀ z ∈ walkNodes g y C, Good z) → 0 ≤ walkCost g C) :
    ∀ n : Nat, ∀ W : List (Nat × Nat), ∀ a c : Nat, W.length ≤ n →
    IsWalk g a c W → (∀ z ∈ walkNodes g a W, Good z) →
    ∃ P : List (Nat × Nat), IsWalk g a c P ∧ (walkNodes g a P).Nodup ∧
      walkCost g P ≤ walkCost g W ∧
      ∀ z ∈ walkNodes g a P, z ∈ walkNodes g a W := by
  intro n
  induction n with
  | zero =>
    intro W a c hlen hw _
    have hW : W = [] := List.length_eq_zero.mp (Nat.le_zero.mp hlen)
    subst hW
    have hac : a = c := hw
    subst hac
    exact ⟨[], rfl, List.nodup_singleton a, le_refl _, fun z hz => hz⟩
  | succ n ih =>
    intro W a c hlen hw hgood
    cases W with
    | nil =>
      have hac : a = c := hw
      subst hac
      exact ⟨[], rfl, List.nodup_singleton a, le_refl _, fun z hz => hz⟩
    | cons p W2 =>
      obtain ⟨hp1, hpv, hpres, hw2⟩ := hw
      by_cases hrev : a ∈ walkNodes g (edgeAt g p.1 p.2).v W2
      · obtain ⟨A, Bs, hWeq, hA, hBs⟩ :=
          walk_split g W2 (edgeAt g p.1 p.2).v c a hw2 hrev
        have hcycle : IsWalk g a a (p :: A) := ⟨hp1, hpv, hpres, hA⟩
        have hcyclenodes : ∀ z ∈ walkNodes g a (p :: A), Good z := by
          intro z hz
          apply hgood
          have : walkNodes g a (p :: A ++ Bs) = walkNodes g a ((p :: A) ++ Bs) := rfl
          rw [show (p :: W2) = (p :: A) ++ Bs by rw [List.cons_append, ← hWeq]]
          exact walkNodes_sub_append g a (p :: A) Bs z hz
        have hcost0 : 0 ≤ walkCost g (p :: A) :=
          hcyc a (p :: A) (List.cons_ne_nil _ _) hcycle hcyclenodes
        have hlenBs : Bs.length ≤ n := by
          have h1 : (p :: W2).length = 1 + A.length + Bs.length := by
            rw [hWeq]
            simp [List.length_append]
            omega
          omega
        have hgoodBs : ∀ z ∈ walkNodes g a Bs, Good z := by
          intro z hz
          apply hgood
          unfold walkNodes at hz ⊢
          rcases List.mem_cons.mp hz with h | h
          · rw [h]; exact List.mem_cons_self _ _
          · refine List.mem_cons_of_mem _ ?_
            rw [show (p :: W2) = (p :: A) ++ Bs by rw [List.cons_append, ← hWeq]]
            rw [List.map_append]
            exact List.mem_append_right _ h
        obtain ⟨P, hPw, hPnd, hPcost, hPsub⟩ := ih Bs a c hlenBs hBs hgoodBs
        refine ⟨P, hPw, hPnd, ?_, ?_⟩
        · have hsplitcost : walkCost g (p :: W2) =
              walkCost g (p :: A) + walkCost g Bs := by
            rw [show (p :: W2) = (p :: A) ++ Bs by rw [List.cons_append, ← hWeq]]
            exact walkCost_append g (p :: A) Bs
          omega
        · intro z hz
          have h1 := hPsub z hz
          unfold walkNodes at h1 ⊢
          rcases List.mem_cons.mp h1 with h | h
          · rw [h]; exact List.mem_cons_self _ _
          · refine List.mem_cons_of_mem _ ?_
            rw [show (p :: W2) = (p :: A) ++ Bs by rw [List.cons_append, ← hWeq]]
            rw [List.map_append]
            exact List.mem_append_right _ h
      · have hgood2 : ∀ z ∈ walkNodes g (edgeAt g p.1 p.2).v W2, Good z := by
          intro z hz
          apply hgood
          rw [walkNodes_cons]
          exact List.mem_cons_of_mem _ hz
        obtain ⟨P2, hP2w, hP2nd, hP2cost, hP2sub⟩ :=
          ih W2 (edgeAt g p.1 p.2).v c (by simpa using Nat.le_of_succ_le_succ hlen)
            hw2 hgood2
        refine ⟨p :: P2, ⟨hp1, hpv, hpres, hP2w⟩, ?_, ?_, ?_⟩
        · rw [walkNodes_cons]
          refine List.nodup_cons.mpr ⟨?_, hP2nd⟩
          intro hmem
          exact hrev (hP2sub a hmem)
        · rw [walkCost_cons, walkCost_cons]
          omega
        · intro z hz
          rw [walkNodes_cons] at hz
          rcases List.mem_cons.mp hz with h | h
          · rw [h, walkNodes_cons]
            exact List.mem_cons_self _ _
          · rw [walkNodes_cons]
            exact List.mem_cons_of_mem _ (hP2sub z h)

end Sol0

/-! ### Correctness of spfa as a shortest-path oracle over simple residual paths -/

namespace Sol0

theorem walkNodes_lt {g : Graph} {nodes : Nat} (hg : g.size = nodes) (hwf : WF g) :
    ∀ (L : List (Nat × Nat)) (a c : Nat), a < nodes → IsWalk g a c L →
    ∀ z ∈ walkNodes g a L, z < nodes := by
  intro L
  induction L with
  | nil =>
    intro a c ha _ z hz
    have hza : z = a := by
      unfold walkNodes at hz
      simpa using hz
    rw [hza]
    exact ha
  | cons p L ih =>
    intro a c ha hw z hz
    obtain ⟨hp1, hpv, hpres, hw2⟩ := hw
    have hp1n : p.1 < nodes := by rw [hp1]; exact ha
    have htlt : (edgeAt g p.1 p.2).v < nodes := target_lt hg hwf hp1n hpv.2
    rw [walkNodes_cons] at hz
    rcases List.mem_cons.mp hz with h | h
    · rw [h]; exact ha
    · exact ih _ c htlt hw2 z h

theorem fixAll_resid {g : Graph} {nodes : Nat} {st : SpfaSt}
    (hfix : FixAll g nodes st)
    (hinq : ∀ u, u < nodes → st.inq.getD u false = false) :
    ∀ u, u < nodes → st.dis.getD u 0 < inf → ∀ i, i < (g.getD u #[]).size →
      0 < residualAt g u i →
      st.dis.getD (edgeAt g u i).v 0 ≤ st.dis.getD u 0 + (edgeAt g u i).cost := by
  intro u hu hfin i hi hres
  have hflow : (edgeAt g u i).flow < (edgeAt g u i).cap := by
    unfold residualAt at hres
    omega
  exact hfix u hu not_false hfin (hinq u hu) i hi hflow

theorem spfa_dis_src_zero {g : Graph} {nodes src : Nat} {st : SpfaSt}
    (hcore : SpfaCore g nodes src st) (hfix : FixAll g nodes st)
    (hinq : ∀ u, u < nodes → st.inq.getD u false = false)
    (hsrc : src < nodes) :
    st.dis.getD src 0 = 0 := by
  have hd0 : st.dis.getD src 0 ≤ 0 := hcore.disSrc
  have hinf0 : (0 : Int) < inf := by norm_num [inf]
  have hfin : st.dis.getD src 0 < inf := by omega
  obtain ⟨W, hwW, hcW, hnW⟩ := hcore.real src hsrc hfin
  have hcost0 : 0 ≤ walkCost g W :=
    cycle_nonneg g nodes (fun z => st.dis.getD z 0)
      (fixAll_resid hfix hinq) W src hwW hnW
  omega

theorem nodup_length_le (n : Nat) : ∀ l : List Nat, l.Nodup → (∀ z ∈ l, z < n) →
    l.length ≤ n := by
  intro l hnd hlt
  have h1 : l.toFinset.card = l.length := List.toFinset_card_of_nodup hnd
  have h2 : l.toFinset ⊆ Finset.range n := by
    intro z hz
    rw [Finset.mem_range]
    exact hlt z (List.mem_toFinset.mp hz)
  have h3 := Finset.card_le_card h2
  rw [h1, Finset.card_range] at h3
  exact h3

theorem spfa_min_path {g : Graph} {nodes src : Nat} {B : Int} {st : SpfaSt}
    (hg : g.size = nodes) (hwf : WF g)
    (hcore : SpfaCore g nodes src st) (hfix : FixAll g nodes st)
    (hinq : ∀ u, u < nodes → st.inq.getD u false = false)
    (hsrc : src < nodes) (hB : CostBound g nodes B) :
    ∀ x, ∀ P, IsPath g src x P →
      st.dis.getD x 0 ≤ walkCost g P ∧ st.dis.getD x 0 < inf := by
  intro x P hP
  obtain ⟨hw, hnd⟩ := hP
  have hlt := walkNodes_lt hg hwf P src x hsrc hw
  have hinf0 : (0 : Int) < inf := by norm_num [inf]
  have hdsle : st.dis.getD src 0 ≤ 0 := hcore.disSrc
  have hsrcfin : st.dis.getD src 0 < inf := by omega
  have hlen : (walkNodes g src P).length ≤ nodes := nodup_length_le nodes _ hnd hlt
  have hlen2 : P.length + 1 ≤ nodes := by
    have hwn : (walkNodes g src P).length = P.length + 1 := by
      unfold walkNodes
      rw [List.length_cons, List.length_map]
    omega
  obtain ⟨hB0, hBinf, hBc⟩ := hB
  have hbud : st.dis.getD src 0 + (P.length : Int) * B ≤ (nodes : Int) * B := by
    have hc : (P.length : Int) ≤ (nodes : Int) := by
      exact_mod_cast Nat.le_of_succ_le hlen2
    have hm := mul_le_mul_of_nonneg_right hc hB0
    linarith
  obtain ⟨h1, h2⟩ := walk_lower_bounded g nodes B (fun z => st.dis.getD z 0)
    (fixAll_resid hfix hinq) hB0 hBinf hBc hg P src x hw hlt hsrcfin hbud
  exact ⟨by linarith, h2⟩

theorem spfa_exists_path {g : Graph} {nodes src : Nat} {B : Int} {st : SpfaSt}
    (hg : g.size = nodes) (hwf : WF g)
    (hcore : SpfaCore g nodes src st) (hfix : FixAll g nodes st)
    (hinq : ∀ u, u < nodes → st.inq.getD u false = false)
    (hsrc : src < nodes) (hB : CostBound g nodes B) :
    ∀ x, x < nodes → st.dis.getD x 0 < inf →
      ∃ P, IsPath g src x P ∧ walkCost g P = st.dis.getD x 0 := by
  intro x hx hfin
  obtain ⟨W, hwW, hcW, hnW⟩ := hcore.real x hx hfin
  have hcyc : ∀ y : Nat, ∀ C : List (Nat × Nat), C ≠ [] → IsWalk g y y C →
      (∀ z ∈ walkNodes g y C, z < nodes ∧ st.dis.getD z 0 < inf) →
      0 ≤ walkCost g C := by
    intro y C _ hwC hnC
    exact cycle_nonneg g nodes (fun z => st.dis.getD z 0)
      (fixAll_resid hfix hinq) C y hwC hnC
  obtain ⟨P, hPw, hPnd, hPcost, _⟩ :=
    walk_decompose g (fun z => z < nodes ∧ st.dis.getD z 0 < inf) hcyc
      W.length W src x (le_refl _) hwW hnW
  have hmin := (spfa_min_path hg hwf hcore hfix hinq hsrc
    ⟨hB.1, hB.2.1, hB.2.2⟩ x P ⟨hPw, hPnd⟩).1
  exact ⟨P, ⟨hPw, hPnd⟩, by omega⟩

/-- Specification of a completed run of `mcmf::spfa`: the source distance is
zero, the boolean result reports finiteness of the sink distance, a node
distance is finite exactly when a simple residual path from the source
reaches the node, finite distances are exactly the minimum cost over such
paths, and every finite node other than the source carries a valid, tight
predecessor entry in `par`/`idx`. -/
def SpfaPost (g : Graph) (nodes src sink : Nat) (st : SpfaSt) : Prop :=
  st.dis.getD src 0 = 0 ∧
  (spfaReached st sink = true ↔ st.dis.getD sink 0 < inf) ∧
  (∀ x, x < nodes → (st.dis.getD x 0 < inf ↔ ∃ P, IsPath g src x P)) ∧
  (∀ x, x < nodes → ∀ P, IsPath g src x P → st.dis.getD x 0 ≤ walkCost g P) ∧
  (∀ x, x < nodes → st.dis.getD x 0 < inf →
    ∃ P, IsPath g src x P ∧ walkCost g P = st.dis.getD x 0) ∧
  (∀ x, x < nodes → st.dis.getD x 0 < inf → x ≠ src →
    ∃ u i, st.par.getD x 0 = Int.ofNat u ∧ st.idx.getD x 0 = i ∧
      u < nodes ∧ ValidLoc g u i ∧ (edgeAt g u i).v = x ∧
      0 < residualAt g u i ∧
      st.dis.getD x 0 = st.dis.getD u 0 + (edgeAt g u i).cost)

theorem spfa_post_of_run {g : Graph} {nodes src sink : Nat} {B : Int}
    {par0 : Array Int} {idx0 : Array Nat} {fuel : Nat} {st : SpfaSt}
    (hg : g.size = nodes) (hwf : WF g) (hsrc : src < nodes)
    (hpar0 : par0.size = nodes) (hidx0 : idx0.size = nodes)
    (hB : CostBound g nodes B)
    (hrun : spfa g nodes src par0 idx0 fuel = some st) :
    SpfaPost g nodes src sink st := by
  obtain ⟨hcore, hfix, hinq⟩ := spfa_some_inv hg hwf hsrc hpar0 hidx0 hrun
  refine ⟨spfa_dis_src_zero hcore hfix hinq hsrc, ?_, ?_, ?_, ?_, ?_⟩
  · constructor
    · intro h
      exact spfaReached_fin (hcore.disLe sink) h
    · intro h
      unfold spfaReached
      simp only [bne_iff_ne, ne_eq]
      omega
  · intro x hx
    constructor
    · intro hfin
      obtain ⟨P, hP, _⟩ := spfa_exists_path hg hwf hcore hfix hinq hsrc hB x hx hfin
      exact ⟨P, hP⟩
    · intro hex
      obtain ⟨P, hP⟩ := hex
      exact (spfa_min_path hg hwf hcore hfix hinq hsrc hB x P hP).2
  · intro x _ P hP
    exact (spfa_min_path hg hwf hcore hfix hinq hsrc hB x P hP).1
  · intro x hx hfin
    exact spfa_exists_path hg hwf hcore hfix hinq hsrc hB x hx hfin
  · intro x hx hfin hxs
    have hpar : st.par.getD x 0 ≠ -1 := fun hcon => hxs ((hcore.good x hx hfin).1 hcon)
    obtain ⟨u, i, hp, hi, hun, hilt, hv, hflow, hufin, hle⟩ :=
      (hcore.good x hx hfin).2 hpar
    have hres : 0 < residualAt g u i := by
      unfold residualAt
      omega
    have htight := fixAll_resid hfix hinq u hun hufin i hilt hres
    rw [hv] at htight
    exact ⟨u, i, hp, hi, hun, ⟨by rw [hg]; exact hun, hilt⟩, hv, hres, by omega⟩

end Sol0

/-! ### Monotonicity of the augmentation costs across solver iterations -/

namespace Sol0

theorem CostBound_of_sameShape {g g2 : Graph} {nodes : Nat} {B : Int}
    (hsh : sameShape g g2) (hB : CostBound g nodes B) : CostBound g2 nodes B := by
  obtain ⟨h0, h1, h2⟩ := hB
  refine ⟨h0, h1, ?_⟩
  intro u hu i hi
  rw [hsh.1] at hu
  rw [hsh.2.1 u] at hi
  rw [edgeCost_of_sameShape hsh]
  exact h2 u hu i hi

theorem old_fix_on_new {g : Graph} {nodes src sink : Nat} {st : SpfaSt}
    {chain : List (Nat × Nat)} {b : Int}
    (hg : g.size = nodes) (hwf : WF g) (hfi : FlowInv g) (hcostI : CostInv g)
    (hfix : FixAll g nodes st)
    (hinq : ∀ u, u < nodes → st.inq.getD u false = false)
    (hlink : LinkedTo g nodes st src sink chain) (hb0 : 0 ≤ b) :
    ∀ u, u < nodes → st.dis.getD u 0 < inf →
    ∀ i, i < ((pushChain g chain b).getD u #[]).size →
    0 < residualAt (pushChain g chain b) u i →
    st.dis.getD (edgeAt (pushChain g chain b) u i).v 0 ≤
      st.dis.getD u 0 + (edgeAt (pushChain g chain b) u i).cost := by
  intro u hu hfin i hi hres
  have hsh : sameShape g (pushChain g chain b) := sameShape_pushChain chain g b
  have hi0 : i < (g.getD u #[]).size := by rw [← hsh.2.1 u]; exact hi
  have hvloc : ValidLoc g u i := ⟨by rw [hg]; exact hu, hi0⟩
  rw [edgeV_of_sameShape hsh, edgeCost_of_sameShape hsh]
  by_cases hold : 0 < residualAt g u i
  · exact fixAll_resid hfix hinq u hu hfin i hi0 hold
  · have hres0 : residualAt g u i = 0 := by
      have := residual_nonneg_of_FlowInv hfi hvloc
      omega
    have hvchain := linked_valid hlink
    have hflow := flow_pushChain b chain g hwf hvchain u i hvloc
    have hcapeq := edgeCap_of_sameShape hsh u i
    have hR : residualAt (pushChain g chain b) u i =
        residualAt g u i - b * (cnt (u, i) chain : Int) +
          b * (cnt (partnerLoc g u i) chain : Int) := by
      unfold residualAt
      rw [hcapeq, hflow]
      ring
    have hq : partnerLoc g u i ∈ chain := by
      by_contra hnm
      have hc0 : cnt (partnerLoc g u i) chain = 0 := cnt_eq_zero hnm
      rw [hc0] at hR
      simp only [Nat.cast_zero, mul_zero, add_zero] at hR
      have hcnt1 : (0 : Int) ≤ b * (cnt (u, i) chain : Int) :=
        mul_nonneg hb0 (Int.natCast_nonneg _)
      rw [hR] at hres
      linarith
    have htight := linked_tight hfix hinq hlink (partnerLoc g u i) hq
    have hinv := partner_involution hwf hvloc
    have hqv : (edgeAt g (partnerLoc g u i).1 (partnerLoc g u i).2).v = u := by
      have h1 : (partnerLoc g (partnerLoc g u i).1 (partnerLoc g u i).2).1 = (u, i).1 := by
        rw [hinv]
      exact h1
    have hcostq := hcostI u hvloc.1 i hvloc.2
    have hveq : (edgeAt g u i).v = (partnerLoc g u i).1 := rfl
    rw [hveq]
    rw [hqv] at htight
    omega

/-- A lower bound `c` on any future augmentation cost, witnessed by a
potential on the given residual graph. -/
def PotBound (g : Graph) (nodes src sink : Nat) (c : Int) : Prop :=
  ∃ d : Nat → Int, d src ≤ 0 ∧ c ≤ d sink ∧
    ∀ u, u < nodes → d u < inf → ∀ i, i < (g.getD u #[]).size →
      0 < residualAt g u i → d (edgeAt g u i).v ≤ d u + (edgeAt g u i).cost

theorem iter_lower {g : Graph} {nodes src sink : Nat} {B c : Int}
    {par0 : Array Int} {idx0 : Array Nat} {fuel : Nat} {st : SpfaSt}
    (hg : g.size = nodes) (hwf : WF g) (hsrc : src < nodes) (hsink : sink < nodes)
    (hpar0 : par0.size = nodes) (hidx0 : idx0.size = nodes)
    (hB : CostBound g nodes B) (hpb : PotBound g nodes src sink c)
    (hrun : spfa g nodes src par0 idx0 fuel = some st)
    (hreach : spfaReached st sink = true) :
    c ≤ st.dis.getD sink 0 := by
  obtain ⟨hcore, hfix, hinq⟩ := spfa_some_inv hg hwf hsrc hpar0 hidx0 hrun
  have hfin : st.dis.getD sink 0 < inf := spfaReached_fin (hcore.disLe sink) hreach
  obtain ⟨W, hwW, hcW, hnW⟩ := hcore.real sink hsink hfin
  have hcyc : ∀ y : Nat, ∀ C : List (Nat × Nat), C ≠ [] → IsWalk g y y C →
      (∀ z ∈ walkNodes g y C, z < nodes ∧ st.dis.getD z 0 < inf) →
      0 ≤ walkCost g C := by
    intro y C _ hwC hnC
    exact cycle_nonneg g nodes (fun z => st.dis.getD z 0)
      (fixAll_resid hfix hinq) C y hwC hnC
  obtain ⟨P, hPw, hPnd, hPcost, _⟩ :=
    walk_decompose g (fun z => z < nodes ∧ st.dis.getD z 0 < inf) hcyc
      W.length W src sink (le_refl _) hwW hnW
  obtain ⟨d, hd0, hdc, hdfix⟩ := hpb
  have hlt := walkNodes_lt hg hwf P src sink hsrc hPw
  have hinf0 : (0 : Int) < inf := by norm_num [inf]
  have hlen : (walkNodes g src P).length ≤ nodes := nodup_length_le nodes _ hPnd hlt
  have hlen2 : P.length + 1 ≤ nodes := by
    have hwn : (walkNodes g src P).length = P.length + 1 := by
      unfold walkNodes
      rw [List.length_cons, List.length_map]
    omega
  obtain ⟨hB0, hBinf, hBc⟩ := hB
  have hbud : d src + (P.length : Int) * B ≤ (nodes : Int) * B := by
    have hc : (P.length : Int) ≤ (nodes : Int) := by
      exact_mod_cast Nat.le_of_succ_le hlen2
    have hm := mul_le_mul_of_nonneg_right hc hB0
    linarith
  obtain ⟨h1, _⟩ := walk_lower_bounded g nodes B d hdfix hB0 hBinf hBc hg
    P src sink hPw hlt (by omega) hbud
  omega

theorem pot_push {g : Graph} {nodes src sink : Nat} {st : SpfaSt}
    {chain : List (Nat × Nat)} {b : Int}
    (hg : g.size = nodes) (hwf : WF g) (hfi : FlowInv g) (hcostI : CostInv g)
    (hcore : SpfaCore g nodes src st) (hfix : FixAll g nodes st)
    (hinq : ∀ u, u < nodes → st.inq.getD u false = false)
    (hlink : LinkedTo g nodes st src sink chain) (hb0 : 0 ≤ b) :
    PotBound (pushChain g chain b) nodes src sink (st.dis.getD sink 0) :=
  ⟨fun z => st.dis.getD z 0, hcore.disSrc, le_refl _,
    old_fix_on_new hg hwf hfi hcostI hfix hinq hlink hb0⟩

end Sol0

namespace Sol0

theorem solveLoop_trace_mono {nodes src sink spfaFuel : Nat} {B : Int}
    (hsrc : src < nodes) (hsink : sink < nodes) :
    ∀ fuel : Nat, ∀ M : MState, ∀ mincost maxflow : Int,
    ∀ tr0 : List (Int × Int × Graph),
    ∀ res : Int × Int × MState × List (Int × Int × Graph),
    GInv M.g nodes → M.par.size = nodes → M.idx.size = nodes →
    CostBound M.g nodes B →
    solveLoop nodes src sink spfaFuel fuel M mincost maxflow tr0 = some res →
    ∃ new : List (Int × Int × Graph),
      res.2.2.2 = tr0 ++ new ∧
      List.Chain' (fun a b => a.1 ≤ b.1) new ∧
      ∀ c : Int, PotBound M.g nodes src sink c →
        ∀ e, new.head? = some e → c ≤ e.1 := by
  intro fuel
  induction fuel with
  | zero =>
    intro M mincost maxflow tr0 res _ _ _ _ h
    exact absurd h (by unfold solveLoop; simp)
  | succ fuel ih =>
    intro M mincost maxflow tr0 res hginv hpar hidx hCB h
    cases hspfa : spfa M.g nodes src M.par M.idx spfaFuel with
    | none =>
      rw [solveLoop_eq_none hspfa] at h
      exact absurd h (by simp)
    | some st =>
      cases hr : spfaReached st sink with
      | false =>
        rw [solveLoop_eq_stop hspfa hr] at h
        have hres := Option.some.inj h
        subst hres
        refine ⟨[], by simp, List.chain'_nil, ?_⟩
        intro c _ e he
        simp at he
      | true =>
        cases hwalk : walkChain st.par st.idx M.g (nodes + 1)
            (st.par.getD sink 0) (st.idx.getD sink 0) with
        | none =>
          rw [solveLoop_eq_walknone hspfa hr hwalk] at h
          exact absurd h (by simp)
        | some chain =>
          rw [solveLoop_eq_step hspfa hr hwalk] at h
          obtain ⟨hgi2, hsh2, _, hb0, hps, his, hlink, hcore, hfix, hinq⟩ :=
            solve_iter_facts hginv hsrc hsink hpar hidx hspfa hr hwalk
          have hCB2 : CostBound (pushChain M.g chain (bottleneckOf M.g chain))
              nodes B := CostBound_of_sameShape hsh2 hCB
          obtain ⟨new2, htr, hchain2, hhead2⟩ :=
            ih ⟨pushChain M.g chain (bottleneckOf M.g chain), st.par, st.idx⟩
              (mincost + bottleneckOf M.g chain * st.dis.getD sink 0)
              (maxflow + bottleneckOf M.g chain)
              (tr0 ++ [(st.dis.getD sink 0, bottleneckOf M.g chain,
                pushChain M.g chain (bottleneckOf M.g chain))])
              res hgi2 hps his hCB2 h
          refine ⟨(st.dis.getD sink 0, bottleneckOf M.g chain,
            pushChain M.g chain (bottleneckOf M.g chain)) :: new2, ?_, ?_, ?_⟩
          · rw [htr, List.append_assoc]
            rfl
          · rw [List.chain'_cons']
            refine ⟨?_, hchain2⟩
            intro e2 he2
            have hpot : PotBound (pushChain M.g chain (bottleneckOf M.g chain))
                nodes src sink (st.dis.getD sink 0) :=
              pot_push hginv.1 hginv.2.1 hginv.2.2.1 hginv.2.2.2.2 hcore hfix
                hinq hlink (le_of_lt hb0)
            exact hhead2 _ hpot e2 (Option.mem_def.mp he2)
          · intro c hpb e he
            have he0 : (st.dis.getD sink 0, bottleneckOf M.g chain,
                pushChain M.g chain (bottleneckOf M.g chain)) = e := by
              rw [List.head?_cons] at he
              exact Option.some.inj he
            have hlow : c ≤ st.dis.getD sink 0 :=
              iter_lower hginv.1 hginv.2.1 hsrc hsink hpar hidx hCB hpb hspfa hr
            rw [← he0]
            exact hlow

end Sol0

/-! ### Conservation: net flow on forward edges -/

namespace Sol0

/-- Contribution of position `(u, k)` to the inbound forward flow of `y`. -/
def inTerm (g : Graph) (y u k : Nat) : Int :=
  if (edgeAt g u k).v = y ∧ 0 < (edgeAt g u k).cap then (edgeAt g u k).flow else 0

/-- Flow leaving `y` on forward edges (the pair members with positive
capacity, i.e. the edges the caller passed to `add_edge`). -/
def outFlowF (g : Graph) (y : Nat) : Int :=
  ∑ k in Finset.range (g.getD y #[]).size,
    if 0 < (edgeAt g y k).cap then (edgeAt g y k).flow else 0

/-- Flow entering `y` on forward edges. -/
def inFlowF (g : Graph) (y : Nat) : Int :=
  ∑ u in Finset.range g.size, ∑ k in Finset.range (g.getD u #[]).size,
    inTerm g y u k

theorem sum_partner_reindex {g : Graph} (hwf : WF g) (F : Nat → Nat → Int) :
    (∑ u in Finset.range g.size, ∑ k in Finset.range (g.getD u #[]).size,
      F (partnerLoc g u k).1 (partnerLoc g u k).2) =
    ∑ u in Finset.range g.size, ∑ k in Finset.range (g.getD u #[]).size, F u k := by
  rw [Finset.sum_sigma', Finset.sum_sigma']
  refine Finset.sum_nbij'
    (fun x => ⟨(partnerLoc g x.1 x.2).1, (partnerLoc g x.1 x.2).2⟩)
    (fun x => ⟨(partnerLoc g x.1 x.2).1, (partnerLoc g x.1 x.2).2⟩)
    ?_ ?_ ?_ ?_ ?_
  · intro a ha
    rw [Finset.mem_sigma, Finset.mem_range, Finset.mem_range] at ha
    have hv : ValidLoc g a.1 a.2 := ⟨ha.1, ha.2⟩
    have hp := partner_valid hwf hv
    rw [Finset.mem_sigma, Finset.mem_range, Finset.mem_range]
    exact ⟨hp.1, hp.2⟩
  · intro a ha
    rw [Finset.mem_sigma, Finset.mem_range, Finset.mem_range] at ha
    have hv : ValidLoc g a.1 a.2 := ⟨ha.1, ha.2⟩
    have hp := partner_valid hwf hv
    rw [Finset.mem_sigma, Finset.mem_range, Finset.mem_range]
    exact ⟨hp.1, hp.2⟩
  · intro a ha
    rw [Finset.mem_sigma, Finset.mem_range, Finset.mem_range] at ha
    have hv : ValidLoc g a.1 a.2 := ⟨ha.1, ha.2⟩
    have hinv := partner_involution hwf hv
    show (⟨(partnerLoc g (partnerLoc g a.1 a.2).1 (partnerLoc g a.1 a.2).2).1,
      (partnerLoc g (partnerLoc g a.1 a.2).1 (partnerLoc g a.1 a.2).2).2⟩ :
        Σ _ : Nat, Nat) = a
    rw [hinv]
  · intro a ha
    rw [Finset.mem_sigma, Finset.mem_range, Finset.mem_range] at ha
    have hv : ValidLoc g a.1 a.2 := ⟨ha.1, ha.2⟩
    have hinv := partner_involution hwf hv
    show (⟨(partnerLoc g (partnerLoc g a.1 a.2).1 (partnerLoc g a.1 a.2).2).1,
      (partnerLoc g (partnerLoc g a.1 a.2).1 (partnerLoc g a.1 a.2).2).2⟩ :
        Σ _ : Nat, Nat) = a
    rw [hinv]
  · intro a _
    rfl

theorem inFlow_eq_back {g : Graph} {nodes : Nat} (hg : g.size = nodes)
    (hwf : WF g) (hfi : FlowInv g) (y : Nat) (hy : y < nodes) :
    inFlowF g y = ∑ k in Finset.range (g.getD y #[]).size,
      (if 0 < (edgeAt g (partnerLoc g y k).1 (partnerLoc g y k).2).cap
        then -(edgeAt g y k).flow else 0) := by
  have hre := sum_partner_reindex hwf (fun u k => inTerm g y u k)
  unfold inFlowF
  rw [← hre]
  have hcongr : ∀ u ∈ Finset.range g.size,
      (∑ k in Finset.range (g.getD u #[]).size,
        inTerm g y (partnerLoc g u k).1 (partnerLoc g u k).2) =
      (if u = y then ∑ k in Finset.range (g.getD y #[]).size,
        (if 0 < (edgeAt g (partnerLoc g y k).1 (partnerLoc g y k).2).cap
          then -(edgeAt g y k).flow else 0) else 0) := by
    intro u hu
    rw [Finset.mem_range] at hu
    by_cases huy : u = y
    · subst huy
      rw [if_pos rfl]
      refine Finset.sum_congr rfl ?_
      intro k hk
      rw [Finset.mem_range] at hk
      have hv : ValidLoc g u k := ⟨hu, hk⟩
      have hinv := partner_involution hwf hv
      have hvp : (edgeAt g (partnerLoc g u k).1 (partnerLoc g u k).2).v = u := by
        have h1 : (partnerLoc g (partnerLoc g u k).1 (partnerLoc g u k).2).1 =
            (u, k).1 := by rw [hinv]
        exact h1
      have hfl : (edgeAt g (partnerLoc g u k).1 (partnerLoc g u k).2).flow =
          -(edgeAt g u k).flow := by
        have h2 := (hfi u hu k hk).2
        omega
      unfold inTerm
      rw [hvp, hfl]
      by_cases hc : 0 < (edgeAt g (partnerLoc g u k).1 (partnerLoc g u k).2).cap
      · rw [if_pos ⟨rfl, hc⟩, if_pos hc]
      · rw [if_neg (fun hcon => hc hcon.2), if_neg hc]
    · rw [if_neg huy]
      refine Finset.sum_eq_zero ?_
      intro k hk
      rw [Finset.mem_range] at hk
      have hv : ValidLoc g u k := ⟨hu, hk⟩
      have hinv := partner_involution hwf hv
      have hvp : (edgeAt g (partnerLoc g u k).1 (partnerLoc g u k).2).v = u := by
        have h1 : (partnerLoc g (partnerLoc g u k).1 (partnerLoc g u k).2).1 =
            (u, k).1 := by rw [hinv]
        exact h1
      unfold inTerm
      rw [hvp]
      rw [if_neg (fun hcon => huy hcon.1)]
  rw [Finset.sum_congr rfl hcongr]
  rw [Finset.sum_ite_eq' (Finset.range g.size) y]
  rw [if_pos (Finset.mem_range.mpr (by rw [hg]; exact hy))]

theorem netAll_eq_out_sub_in {g : Graph} {nodes : Nat} (hg : g.size = nodes)
    (hwf : WF g) (hfi : FlowInv g) (hcap : CapInv g) (y : Nat) (hy : y < nodes) :
    netAll g y = outFlowF g y - inFlowF g y := by
  have hin := inFlow_eq_back hg hwf hfi y hy
  unfold netAll outFlowF
  rw [hin, ← Finset.sum_sub_distrib]
  refine Finset.sum_congr rfl ?_
  intro k hk
  rw [Finset.mem_range] at hk
  have hyg : y < g.size := by rw [hg]; exact hy
  have hv : ValidLoc g y k := ⟨hyg, hk⟩
  have hcapk := hcap y hyg k hk
  have hflk := hfi y hyg k hk
  by_cases h1 : 0 < (edgeAt g y k).cap
  · have h2 : (edgeAt g (partnerLoc g y k).1 (partnerLoc g y k).2).cap = 0 := by
      rcases hcapk.2 with hc | hc
      · omega
      · exact hc
    rw [if_pos h1, if_neg (by omega)]
    ring
  · rw [if_neg h1]
    by_cases h2 : 0 < (edgeAt g (partnerLoc g y k).1 (partnerLoc g y k).2).cap
    · rw [if_pos h2]
      ring
    · rw [if_neg h2]
      have hpv : ValidLoc g (partnerLoc g y k).1 (partnerLoc g y k).2 :=
        partner_valid hwf hv
      have hflp := (hfi (partnerLoc g y k).1 hpv.1 (partnerLoc g y k).2 hpv.2).1
      have hcapp := (hcap (partnerLoc g y k).1 hpv.1 (partnerLoc g y k).2 hpv.2).1
      have hfl0 : (edgeAt g y k).flow = 0 := by
        have h3 := hflk.2
        have h4 := hflk.1
        omega
      omega

theorem netAll_zero_of_flows_zero {g : Graph}
    (h0 : ∀ u i, ValidLoc g u i → (edgeAt g u i).flow = 0) (y : Nat) :
    netAll g y = 0 := by
  unfold netAll
  refine Finset.sum_eq_zero ?_
  intro k hk
  rw [Finset.mem_range] at hk
  by_cases hy : y < g.size
  · exact h0 y k ⟨hy, hk⟩
  · exfalso
    have hempty : g.getD y #[] = #[] := getD_of_ge g y #[] hy
    rw [hempty] at hk
    simp at hk

end Sol0

/-! ### Structure of add_edge with directed = false, and residual pushes -/

namespace Sol0

theorem addEdgeDirected_getD (g : Graph) (u v : Nat) (cap cost : Int)
    (hu : u < g.size) (hv : v < g.size) (hne : u ≠ v) :
    (addEdgeDirected g u v cap cost).getD u #[] =
      (g.getD u #[]).push ⟨v, (g.getD v #[]).size, cap, cost, 0⟩ ∧
    (addEdgeDirected g u v cap cost).getD v #[] =
      (g.getD v #[]).push ⟨u, (g.getD u #[]).size, 0, -cost, 0⟩ ∧
    (∀ w, w ≠ u → w ≠ v → (addEdgeDirected g u v cap cost).getD w #[] = g.getD w #[]) ∧
    (addEdgeDirected g u v cap cost).size = g.size := by
  refine ⟨?_, ?_, ?_, ?_⟩
  · simp only [addEdgeDirected]
    rw [getD_setD_ne _ _ _ hne, getD_setD_self g u _ _ hu]
  · simp only [addEdgeDirected]
    rw [getD_setD_self _ v _ _ (by rw [size_setD]; exact hv)]
    rw [getD_setD_ne _ _ _ (Ne.symm hne)]
  · intro w hwu hwv
    simp only [addEdgeDirected]
    rw [getD_setD_ne _ _ _ hwv, getD_setD_ne _ _ _ hwu]
  · simp only [addEdgeDirected, size_setD]

theorem add_edge_false_eq (g : Graph) (u v : Nat) (cap cost : Int) :
    add_edge g u v cap cost false =
      addEdgeDirected (addEdgeDirected g u v cap cost) v u cap cost := rfl

theorem add_edge_undirected_getD (g : Graph) (u v : Nat) (cap cost : Int)
    (hu : u < g.size) (hv : v < g.size) (hne : u ≠ v) :
    (add_edge g u v cap cost false).getD u #[] =
      ((g.getD u #[]).push ⟨v, (g.getD v #[]).size, cap, cost, 0⟩).push
        ⟨v, (g.getD v #[]).size + 1, 0, -cost, 0⟩ ∧
    (add_edge g u v cap cost false).getD v #[] =
      ((g.getD v #[]).push ⟨u, (g.getD u #[]).size, 0, -cost, 0⟩).push
        ⟨u, (g.getD u #[]).size + 1, cap, cost, 0⟩ ∧
    (∀ w, w ≠ u → w ≠ v → (add_edge g u v cap cost false).getD w #[] = g.getD w #[]) ∧
    (add_edge g u v cap cost false).size = g.size := by
  obtain ⟨h1u, h1v, h1w, h1s⟩ := addEdgeDirected_getD g u v cap cost hu hv hne
  have hv1 : v < (addEdgeDirected g u v cap cost).size := by rw [h1s]; exact hv
  have hu1 : u < (addEdgeDirected g u v cap cost).size := by rw [h1s]; exact hu
  obtain ⟨h2v, h2u, h2w, h2s⟩ :=
    addEdgeDirected_getD (addEdgeDirected g u v cap cost) v u cap cost hv1 hu1
      (Ne.symm hne)
  refine ⟨?_, ?_, ?_, ?_⟩
  · rw [add_edge_false_eq, h2u, h1u, h1v, Array.size_push]
  · rw [add_edge_false_eq, h2v, h1v, h1u, Array.size_push]
  · intro w hwu hwv
    rw [add_edge_false_eq, h2w w hwv hwu, h1w w hwu hwv]
  · rw [add_edge_false_eq, h2s, h1s]

theorem residual_pushEdge_ne {g : Graph} {u i : Nat} (hv : ValidLoc g u i)
    (hpv : ValidLoc g (partnerLoc g u i).1 (partnerLoc g u i).2)
    (b : Int) (x j : Nat) (h1 : (x, j) ≠ (u, i)) (h2 : (x, j) ≠ partnerLoc g u i) :
    residualAt (pushEdge g u i b) x j = residualAt g x j := by
  unfold residualAt
  rw [flow_pushEdge g u i b hv hpv x j, if_neg h1, if_neg h2]
  rw [edgeCap_of_sameShape (sameShape_pushEdge g u i b) x j]
  ring

theorem residual_pushEdge_self {g : Graph} {u i : Nat} (hv : ValidLoc g u i)
    (hpv : ValidLoc g (partnerLoc g u i).1 (partnerLoc g u i).2)
    (b : Int) (hne : partnerLoc g u i ≠ (u, i)) :
    residualAt (pushEdge g u i b) u i = residualAt g u i - b := by
  unfold residualAt
  rw [flow_pushEdge g u i b hv hpv u i, if_pos rfl,
    if_neg (fun hc => hne hc.symm)]
  rw [edgeCap_of_sameShape (sameShape_pushEdge g u i b) u i]
  ring

theorem residual_pushEdge_partner {g : Graph} {u i : Nat} (hv : ValidLoc g u i)
    (hpv : ValidLoc g (partnerLoc g u i).1 (partnerLoc g u i).2)
    (b : Int) (hne : partnerLoc g u i ≠ (u, i)) :
    residualAt (pushEdge g u i b) (partnerLoc g u i).1 (partnerLoc g u i).2 =
      residualAt g (partnerLoc g u i).1 (partnerLoc g u i).2 + b := by
  unfold residualAt
  rw [flow_pushEdge g u i b hv hpv (partnerLoc g u i).1 (partnerLoc g u i).2]
  rw [if_neg (fun hc => hne hc), if_pos rfl]
  rw [edgeCap_of_sameShape (sameShape_pushEdge g u i b)]
  ring

theorem residual_pair_sum_eq_cap {g : Graph} (hfi : FlowInv g) {u i : Nat}
    (hv : ValidLoc g u i) :
    residualAt g u i + residualAt g (partnerLoc g u i).1 (partnerLoc g u i).2 =
      (edgeAt g u i).cap +
        (edgeAt g (partnerLoc g u i).1 (partnerLoc g u i).2).cap := by
  unfold residualAt
  have h := (hfi u hv.1 i hv.2).2
  omega

theorem flow_bounds_of_GInv {g : Graph} {nodes : Nat} (h : GInv g nodes) :
    ∀ u i, ValidLoc g u i →
    (edgeAt g u i).flow ≤ (edgeAt g u i).cap ∧ 0 ≤ residualAt g u i ∧
    (0 < (edgeAt g u i).cap → 0 ≤ (edgeAt g u i).flow) := by
  obtain ⟨hg, hwf, hfi, hcap, hcost⟩ := h
  intro u i hv
  have h1 := hfi u hv.1 i hv.2
  have h2 := hcap u hv.1 i hv.2
  have hpv := partner_valid hwf hv
  have h3 := (hfi (partnerLoc g u i).1 hpv.1 (partnerLoc g u i).2 hpv.2).1
  refine ⟨h1.1, ?_, ?_⟩
  · unfold residualAt
    omega
  · intro hcpos
    rcases h2.2 with hc | hc
    · omega
    · omega

end Sol0

namespace Sol0

theorem solveLoop_final_unreachable {nodes src sink spfaFuel : Nat} {B : Int}
    (hsrc : src < nodes) (hsink : sink < nodes) :
    ∀ fuel : Nat, ∀ M : MState, ∀ mincost maxflow : Int,
    ∀ tr0 : List (Int × Int × Graph),
    ∀ res : Int × Int × MState × List (Int × Int × Graph),
    GInv M.g nodes → M.par.size = nodes → M.idx.size = nodes →
    CostBound M.g nodes B →
    solveLoop nodes src sink spfaFuel fuel M mincost maxflow tr0 = some res →
    ¬ ∃ P, IsPath res.2.2.1.g src sink P := by
  intro fuel
  induction fuel with
  | zero =>
    intro M mincost maxflow tr0 res _ _ _ _ h
    exact absurd h (by unfold solveLoop; simp)
  | succ fuel ih =>
    intro M mincost maxflow tr0 res hginv hpar hidx hCB h
    cases hspfa : spfa M.g nodes src M.par M.idx spfaFuel with
    | none =>
      rw [solveLoop_eq_none hspfa] at h
      exact absurd h (by simp)
    | some st =>
      cases hr : spfaReached st sink with
      | false =>
        rw [solveLoop_eq_stop hspfa hr] at h
        have hres := Option.some.inj h
        subst hres
        have hpost : SpfaPost M.g nodes src sink st :=
          spfa_post_of_run hginv.1 hginv.2.1 hsrc hpar hidx hCB hspfa
        intro hex
        obtain ⟨P, hP⟩ := hex
        have hfin : st.dis.getD sink 0 < inf :=
          (hpost.2.2.1 sink hsink).mpr ⟨P, hP⟩
        have hdis : st.dis.getD sink 0 = inf := spfaReached_false_eq hr
        omega
      | true =>
        cases hwalk : walkChain st.par st.idx M.g (nodes + 1)
            (st.par.getD sink 0) (st.idx.getD sink 0) with
        | none =>
          rw [solveLoop_eq_walknone hspfa hr hwalk] at h
          exact absurd h (by simp)
        | some chain =>
          rw [solveLoop_eq_step hspfa hr hwalk] at h
          obtain ⟨hgi2, hsh2, _, _, hps, his, _, _, _, _⟩ :=
            solve_iter_facts hginv hsrc hsink hpar hidx hspfa hr hwalk
          exact ih ⟨pushChain M.g chain (bottleneckOf M.g chain), st.par, st.idx⟩
            _ _ _ res hgi2 hps his (CostBound_of_sameShape hsh2 hCB) h

end Sol0

/-! ### The edge-list solver of saved_graph_solution_1.cpp -/

namespace Sol1

/-- `const int INF = 0x3f3f3f3f`. -/
def INF : Int := 1061109567

/-- The global edge arrays `head/to/nx/flow/cost` and the counter `ppp`.
`flow` stores the remaining (residual) capacity directly. -/
structure G1 where
  head : Array Int
  toN : Array Nat
  nx : Array Int
  flow : Array Int
  cost : Array Int
  ppp : Nat
deriving DecidableEq, Repr

/-- `init()` on a fresh program state with `n` usable head slots. -/
def init (n : Nat) : G1 :=
  ⟨Array.mkArray n (-1), #[], #[], #[], #[], 0⟩

/-- `MIN_COST_MAX_FLOW::add_edge(u, v, f, c)`: forward edge with flow `f`,
reverse companion at the next index with flow `0` and cost `-c`, each linked
into its node's `head` chain. -/
def add_edge (g : G1) (u v : Nat) (f c : Int) : G1 :=
  let g1 : G1 := ⟨g.head.setD u (Int.ofNat g.ppp), g.toN.push v,
    g.nx.push (g.head.getD u (-1)), g.flow.push f, g.cost.push c, g.ppp + 1⟩
  ⟨g1.head.setD v (Int.ofNat g1.ppp), g1.toN.push u,
    g1.nx.push (g1.head.getD v (-1)), g1.flow.push 0, g1.cost.push (-c),
    g1.ppp + 1⟩

/-- Scratch state of `MIN_COST_MAX_FLOW::spfa`; `minflow` and `par` are the
persistent global arrays. -/
structure St1 where
  dis : Array Int
  minflow : Array Int
  flag : Array Bool
  par : Array (Nat × Nat)
  q : List Nat
deriving DecidableEq, Repr

/-- Body of the `for (int i = head[u]; ~i; i = nx[i])` relaxation: skip the
edge unless `flow[i]` is non-zero and it improves `dis[to[i]]`; on improvement
also record `par` and the running path bottleneck `minflow`. -/
def relaxEdge1 (g : G1) (u i : Nat) (st : St1) : St1 :=
  let v := g.toN.getD i 0
  if g.flow.getD i 0 ≠ 0 ∧ st.dis.getD u 0 + g.cost.getD i 0 < st.dis.getD v 0 then
    let st1 : St1 := { st with
      dis := st.dis.setD v (st.dis.getD u 0 + g.cost.getD i 0)
      par := st.par.setD v (u, i)
      minflow := st.minflow.setD v (min (st.minflow.getD u 0) (g.flow.getD i 0)) }
    if st1.flag.getD v false then st1
    else { st1 with flag := st1.flag.setD v true, q := st1.q ++ [v] }
  else st

/-- The adjacency chain of `u`: indices visited by
`for (int i = head[u]; ~i; i = nx[i])`. -/
def chain1 (g : G1) : Nat → Int → List Nat
  | 0, _ => []
  | fuel + 1, i => if i = -1 then [] else i.toNat :: chain1 g fuel (g.nx.getD i.toNat (-1))

/-- The `while (!q.empty())` loop of `MIN_COST_MAX_FLOW::spfa`, with fuel. -/
def spfaLoop1 (g : G1) : Nat → St1 → Option St1
  | 0, _ => none
  | fuel + 1, st =>
    match st.q with
    | [] => some st
    | u :: rest =>
      spfaLoop1 g fuel
        ((chain1 g (g.ppp + 1) (g.head.getD u (-1))).foldl
          (fun s i => relaxEdge1 g u i s)
          { st with q := rest, flag := st.flag.setD u false })

/-- `MIN_COST_MAX_FLOW::spfa(s, t)` final state: distances reset to `INF`,
flags cleared, `dis[s] = 0`, `minflow[s] = INF`, queue seeded with `s`. -/
def spfa1 (g : G1) (n s : Nat) (minflow0 : Array Int) (par0 : Array (Nat × Nat))
    (fuel : Nat) : Option St1 :=
  spfaLoop1 g fuel
    { dis := (Array.mkArray n INF).setD s 0
      minflow := minflow0.setD s INF
      flag := Array.mkArray n false
      par := par0
      q := [s] }

/-- The augmentation walk `while (p != s) { flow[par[p].second] -= minflow[t];
flow[par[p].second ^ 1] += minflow[t]; p = par[p].first; }`. -/
def augLoop1 (mf : Int) (par : Array (Nat × Nat)) (s : Nat) :
    Nat → Nat → Array Int → Option (Array Int)
  | 0, _, _ => none
  | fuel + 1, p, fl =>
    if p = s then some fl
    else
      let pr := par.getD p (0, 0)
      let fl1 := fl.setD pr.2 (fl.getD pr.2 0 - mf)
      let fl2 := fl1.setD (pr.2 ^^^ 1) (fl1.getD (pr.2 ^^^ 1) 0 + mf)
      augLoop1 mf par s fuel pr.1 fl2

/-- The `while (spfa(s, t))` loop of `MIN_COST_MAX_FLOW::solve`: on success
`ans += dis[t]` (the augmented amount `minflow[t]` is pushed but not
multiplied into `ans`). -/
def solveLoop1 (n s t spfaFuel walkFuel : Nat) :
    Nat → G1 → Array Int → Array (Nat × Nat) → Int → Option (Int × G1)
  | 0, _, _, _, _ => none
  | fuel + 1, g, mf0, par0, ans =>
    match spfa1 g n s mf0 par0 spfaFuel with
    | none => none
    | some st =>
      if st.dis.getD t 0 = INF then some (ans, g)
      else
        match augLoop1 (st.minflow.getD t 0) st.par s walkFuel t g.flow with
        | none => none
        | some fl2 =>
          solveLoop1 n s t spfaFuel walkFuel fuel { g with flow := fl2 }
            st.minflow st.par (ans + st.dis.getD t 0)

/-- `MIN_COST_MAX_FLOW::solve(s, t)`: starts from the zero-initialized global
`minflow`/`par` arrays and `ans = 0`, returning the accumulated `ans`. -/
def solve (n s t spfaFuel walkFuel fuel : Nat) (g : G1) : Option (Int × G1) :=
  solveLoop1 n s t spfaFuel walkFuel fuel g (Array.mkArray n 0)
    (Array.mkArray n (0, 0)) 0

end Sol1

/-! ### The zkw cost-scaling solver of saved_graph_solution_6.cpp -/

namespace Sol6

/-- `const LL INF = 1e18`. -/
def INF6 : Int := 1000000000000000000

/-- `struct Graph { int to, cap, cost, next; }` (the `to` field is called
`toN` here). -/
structure E6 where
  toN : Nat
  cap : Int
  cost : Int
  nxt : Int
deriving DecidableEq, Repr

instance : Inhabited E6 := ⟨⟨0, 0, 0, 0⟩⟩

/-- The edge array `e` and head array `fir`. -/
structure G6 where
  e : Array E6
  fir : Array Int
deriving DecidableEq, Repr

/-- `clearGraph()` with `n` usable `fir` slots. -/
def clearGraph (n : Nat) : G6 := ⟨#[], Array.mkArray n (-1)⟩

/-- `Add_Edge(u, v, c, w)`: forward edge of capacity `c`, reverse companion of
capacity `0` and cost `-w`. -/
def Add_Edge (g : G6) (u v : Nat) (c w : Int) : G6 :=
  let g1 : G6 := ⟨g.e.push ⟨v, c, w, g.fir.getD u (-1)⟩,
    g.fir.setD u (Int.ofNat g.e.size)⟩
  ⟨g1.e.push ⟨u, 0, -w, g1.fir.getD v (-1)⟩, g1.fir.setD v (Int.ofNat g1.e.size)⟩

/-- `AddEdge(u, v, c, w)`: both members of the pair receive capacity `c` (the
reverse direction shares the companion slot instead of getting its own
zero-capacity pair). -/
def AddEdge (g : G6) (u v : Nat) (c w : Int) : G6 :=
  let g1 : G6 := ⟨g.e.push ⟨v, c, w, g.fir.getD u (-1)⟩,
    g.fir.setD u (Int.ofNat g.e.size)⟩
  ⟨g1.e.push ⟨u, c, -w, g1.fir.getD v (-1)⟩, g1.fir.setD v (Int.ofNat g1.e.size)⟩

/-- Indices visited by `for (int i = fir[x]; ~i; i = e[i].next)`. -/
def chain6 (e : Array E6) : Nat → Int → List Nat
  | 0, _ => []
  | fuel + 1, i => if i = -1 then [] else i.toNat :: chain6 e fuel (e.getD i.toNat default).nxt

/-- Scratch state of the `spfa` of the zkw solver. -/
structure St6 where
  dis : Array Int
  inq : Array Bool
  q : List Nat
deriving DecidableEq, Repr

/-- Relaxation body of the zkw `spfa`, which runs backwards from `T`: edge `i`
out of `x` is traversed in reverse, using the companion `e[i ^ 1]`'s capacity
and cost. -/
def relax6 (e : Array E6) (x : Nat) (st : St6) (i : Nat) : St6 :=
  let v := (e.getD i default).toN
  let w := (e.getD (i ^^^ 1) default).cost
  if (e.getD (i ^^^ 1) default).cap ≠ 0 ∧ st.dis.getD x 0 + w < st.dis.getD v 0 then
    let st1 : St6 := { st with dis := st.dis.setD v (st.dis.getD x 0 + w) }
    if st1.inq.getD v false then st1
    else { st1 with q := st1.q ++ [v], inq := st1.inq.setD v true }
  else st

/-- The `while (!que.empty())` loop of the zkw `spfa`, with fuel (`inq[x]` is
cleared after the relaxations, as in the source). -/
def spfaLoop6 (e : Array E6) (fir : Array Int) : Nat → St6 → Option St6
  | 0, _ => none
  | fuel + 1, st =>
    match st.q with
    | [] => some st
    | x :: rest =>
      let st1 := (chain6 e (e.size + 1) (fir.getD x (-1))).foldl (relax6 e x)
        { st with q := rest }
      spfaLoop6 e fir fuel { st1 with inq := st1.inq.setD x false }

/-- The zkw `spfa()`: distances `0..T` reset to `INF`, then `dis[T] = 0` and
the queue is seeded with `T`. -/
def spfa6 (e : Array E6) (fir : Array Int) (T : Nat) (fuel : Nat) : Option St6 :=
  spfaLoop6 e fir fuel
    { dis := (Array.mkArray (T + 1) INF6).setD T 0
      inq := (Array.mkArray (T + 1) false).setD T true
      q := [T] }

mutual

/-- `dfs(x, f)` of the zkw solver, with fuel: returns the pushed amount
together with the updated capacities and `vis` marks. -/
def dfs6 (T tim : Nat) (fir : Array Int) (dis : Array Int) :
    Nat → Nat → Int → Array E6 → Array Nat → Option (Int × Array E6 × Array Nat)
  | 0, _, _, _, _ => none
  | fuel + 1, x, f, e, vis =>
    if x = T ∨ f = 0 then some (f, e, vis)
    else dfsRow T tim fir dis fuel (chain6 e (e.size + 1) (fir.getD x (-1))) x f 0 e
      (vis.setD x tim)

/-- The `for (int i = fir[x]; ...)` loop inside `dfs`: recurse into admissible
tight edges, update `e[i].cap` and `e[i ^ 1].cap` by the pushed amount, and
stop early when `f` is exhausted. -/
def dfsRow (T tim : Nat) (fir : Array Int) (dis : Array Int) :
    Nat → List Nat → Nat → Int → Int → Array E6 → Array Nat →
    Option (Int × Array E6 × Array Nat)
  | _, [], _, _, res, e, vis => some (res, e, vis)
  | 0, _ :: _, _, _, _, _, _ => none
  | fuel + 1, i :: rest, x, f, res, e, vis =>
    let ei := e.getD i default
    if ei.cap ≠ 0 ∧ dis.getD x 0 = dis.getD ei.toN 0 + ei.cost ∧
        vis.getD ei.toN 0 ≠ tim then
      match dfs6 T tim fir dis fuel ei.toN (min f ei.cap) e vis with
      | none => none
      | some (d, e1, vis1) =>
        let e2 := e1.setD i { e1.getD i default with cap := (e1.getD i default).cap - d }
        let e3 := e2.setD (i ^^^ 1)
          { e2.getD (i ^^^ 1) default with cap := (e2.getD (i ^^^ 1) default).cap + d }
        if f - d = 0 then some (res + d, e3, vis1)
        else dfsRow T tim fir dis fuel rest x (f - d) (res + d) e3 vis1
    else dfsRow T tim fir dis fuel rest x f res e vis

end

/-- The minimum slack `dis[v] + e[i].cost - dis[x]` over residual edges
leaving the `vis[x] == tim` set, as scanned by `relabel()`. -/
def computeSlack (T tim : Nat) (e : Array E6) (fir : Array Int) (vis : Array Nat)
    (dis : Array Int) : Int :=
  (List.range (T + 1)).foldl (fun res x =>
    if vis.getD x 0 ≠ tim then res
    else (chain6 e (e.size + 1) (fir.getD x (-1))).foldl (fun r i =>
      let ei := e.getD i default
      if ei.cap ≠ 0 ∧ vis.getD ei.toN 0 ≠ tim then
        min r (dis.getD ei.toN 0 + ei.cost - dis.getD x 0)
      else r) res) INF6

/-- The `for (int i = 0; i <= T; i++) if (vis[i] == tim) dis[i] += res;` bump
of `relabel()`, over the first `k` indices. -/
def bumpVis (tim : Nat) (vis : Array Nat) (slack : Int) (k : Nat)
    (dis : Array Int) : Array Int :=
  (List.range k).foldl (fun d i =>
    if vis.getD i 0 = tim then d.setD i (d.getD i 0 + slack) else d) dis

/-- `relabel()`: returns `false` (leaving `dis` alone) exactly when the
minimum slack is `INF`, otherwise raises the visited distances by it. -/
def relabel6 (T tim : Nat) (e : Array E6) (fir : Array Int) (vis : Array Nat)
    (dis : Array Int) : Bool × Array Int :=
  let res := computeSlack T tim e fir vis dis
  if res = INF6 then (false, dis)
  else (true, bumpVis tim vis res (T + 1) dis)

/-- The nested `do do { ... } while (f); while (relabel());` of `zkw()`, with
fuel.  Returns `(res, e, dis, vis, tim)` at exit. -/
def zkwLoop (S T : Nat) (fir : Array Int) (dfsFuel : Nat) :
    Nat → Nat → Array Nat → Array E6 → Array Int → Int →
    Option (Int × Array E6 × Array Int × Array Nat × Nat)
  | 0, _, _, _, _, _ => none
  | fuel + 1, tim, vis, e, dis, res =>
    match dfs6 T (tim + 1) fir dis dfsFuel S 1000000000 e vis with
    | none => none
    | some (f, e1, vis1) =>
      if 0 ≤ dis.getD S 0 then some (res, e1, dis, vis1, tim + 1)
      else
        let res1 := res + dis.getD S 0 * f
        if f ≠ 0 then zkwLoop S T fir dfsFuel fuel (tim + 1) vis1 e1 dis res1
        else
          match relabel6 T (tim + 1) e1 fir vis1 dis with
          | (true, dis1) => zkwLoop S T fir dfsFuel fuel (tim + 1) vis1 e1 dis1 res1
          | (false, dis1) => some (res1, e1, dis1, vis1, tim + 1)

/-- `zkw()`: one `spfa()` from `T`, then the blocking-flow/relabel loop
starting from `tim = 0`, zeroed `vis`, and `res = 0`. -/
def zkw6 (S T : Nat) (g : G6) (spfaFuel dfsFuel fuel : Nat) :
    Option (Int × Array E6 × Array Int × Array Nat × Nat) :=
  match spfa6 g.e g.fir T spfaFuel with
  | none => none
  | some st => zkwLoop S T g.fir dfsFuel fuel 0 (Array.mkArray (T + 1) 0) g.e st.dis 0

end Sol6

namespace Sol6

theorem bumpVis_size (tim : Nat) (vis : Array Nat) (slack : Int) :
    ∀ k : Nat, ∀ dis : Array Int, (bumpVis tim vis slack k dis).size = dis.size := by
  intro k
  induction k with
  | zero => intro dis; rfl
  | succ k ih =>
    intro dis
    unfold bumpVis
    rw [List.range_succ, List.foldl_append]
    simp only [List.foldl_cons, List.foldl_nil]
    have hbk : (List.range k).foldl (fun d i =>
        if vis.getD i 0 = tim then d.setD i (d.getD i 0 + slack) else d) dis =
        bumpVis tim vis slack k dis := rfl
    rw [hbk]
    by_cases h : vis.getD k 0 = tim
    · rw [if_pos h, Sol0.size_setD]
      exact ih dis
    · rw [if_neg h]
      exact ih dis

theorem bumpVis_getD (tim : Nat) (vis : Array Nat) (slack : Int) :
    ∀ k : Nat, ∀ dis : Array Int, ∀ j : Nat,
    (bumpVis tim vis slack k dis).getD j 0 =
      if j < k ∧ vis.getD j 0 = tim ∧ j < dis.size
      then dis.getD j 0 + slack else dis.getD j 0 := by
  intro k
  induction k with
  | zero =>
    intro dis j
    rw [if_neg (fun h => Nat.not_lt_zero j h.1)]
    rfl
  | succ k ih =>
    intro dis j
    unfold bumpVis
    rw [List.range_succ, List.foldl_append]
    simp only [List.foldl_cons, List.foldl_nil]
    have hbk : (List.range k).foldl (fun d i =>
        if vis.getD i 0 = tim then d.setD i (d.getD i 0 + slack) else d) dis =
        bumpVis tim vis slack k dis := rfl
    rw [hbk]
    by_cases hv : vis.getD k 0 = tim
    · rw [if_pos hv]
      by_cases hjk : j = k
      · subst hjk
        by_cases hjsz : j < dis.size
        · rw [Sol0.getD_setD_self _ j _ _ (by rw [bumpVis_size]; exact hjsz)]
          rw [ih dis j, if_neg (fun h => absurd h.1 (lt_irrefl j))]
          rw [if_pos ⟨Nat.lt_succ_self j, hv, hjsz⟩]
        · rw [Sol0.setD_of_ge _ _ _ (by rw [bumpVis_size]; exact hjsz)]
          rw [ih dis j, if_neg (fun h => absurd h.1 (lt_irrefl j)),
            if_neg (fun h => hjsz h.2.2)]
      · rw [Sol0.getD_setD_ne _ _ _ hjk]
        rw [ih dis j]
        by_cases hc : j < k ∧ vis.getD j 0 = tim ∧ j < dis.size
        · rw [if_pos hc, if_pos ⟨Nat.lt_succ_of_lt hc.1, hc.2⟩]
        · rw [if_neg hc, if_neg (fun h => hc ⟨by omega, h.2⟩)]
    · rw [if_neg hv]
      rw [ih dis j]
      by_cases hc : j < k ∧ vis.getD j 0 = tim ∧ j < dis.size
      · rw [if_pos hc, if_pos ⟨Nat.lt_succ_of_lt hc.1, hc.2⟩]
      · rw [if_neg hc]
        rw [if_neg ?_]
        intro h
        rcases Nat.lt_succ_iff_lt_or_eq.mp h.1 with h1 | h1
        · exact hc ⟨h1, h.2⟩
        · exact hv (h1 ▸ h.2.1)

theorem relabel6_false_iff (T tim : Nat) (e : Array E6) (fir : Array Int)
    (vis : Array Nat) (dis : Array Int) :
    (relabel6 T tim e fir vis dis).1 = false ↔
      computeSlack T tim e fir vis dis = INF6 := by
  unfold relabel6
  by_cases h : computeSlack T tim e fir vis dis = INF6
  · rw [if_pos h]
    simp [h]
  · rw [if_neg h]
    simp [h]

theorem relabel6_dis (T tim : Nat) (e : Array E6) (fir : Array Int)
    (vis : Array Nat) (dis : Array Int) (j : Nat) :
    ((relabel6 T tim e fir vis dis).2).getD j 0 =
      if computeSlack T tim e fir vis dis ≠ INF6 ∧ j < T + 1 ∧
          vis.getD j 0 = tim ∧ j < dis.size
      then dis.getD j 0 + computeSlack T tim e fir vis dis
      else dis.getD j 0 := by
  unfold relabel6
  by_cases h : computeSlack T tim e fir vis dis = INF6
  · rw [if_pos h]
    rw [if_neg (fun hc => hc.1 h)]
  · rw [if_neg h]
    show (bumpVis tim vis (computeSlack T tim e fir vis dis) (T + 1) dis).getD j 0 = _
    rw [bumpVis_getD]
    by_cases hc : j < T + 1 ∧ vis.getD j 0 = tim ∧ j < dis.size
    · rw [if_pos hc, if_pos ⟨h, hc⟩]
    · rw [if_neg hc, if_neg (fun hh => hc hh.2)]

theorem zkwLoop_exit (S T : Nat) (fir : Array Int) (dfsFuel : Nat) :
    ∀ fuel tim : Nat, ∀ vis : Array Nat, ∀ e : Array E6, ∀ dis : Array Int,
    ∀ res : Int, ∀ r : Int × Array E6 × Array Int × Array Nat × Nat,
    zkwLoop S T fir dfsFuel fuel tim vis e dis res = some r →
    0 ≤ r.2.2.1.getD S 0 ∨
      computeSlack T r.2.2.2.2 r.2.1 fir r.2.2.2.1 r.2.2.1 = INF6 := by
  intro fuel
  induction fuel with
  | zero =>
    intro tim vis e dis res r h
    exact absurd h (by unfold zkwLoop; simp)
  | succ fuel ih =>
    intro tim vis e dis res r h
    rw [zkwLoop] at h
    cases hdfs : dfs6 T (tim + 1) fir dis dfsFuel S 1000000000 e vis with
    | none =>
      exfalso
      rw [hdfs] at h
      have h1 : (none : Option (Int × Array E6 × Array Int × Array Nat × Nat)) =
          some r := h
      exact Option.noConfusion h1
    | some t =>
      obtain ⟨f, e1, vis1⟩ := t
      rw [hdfs] at h
      have h1 : (if 0 ≤ dis.getD S 0 then
          some (res, e1, dis, vis1, tim + 1)
        else if f ≠ 0 then
          zkwLoop S T fir dfsFuel fuel (tim + 1) vis1 e1 dis
            (res + dis.getD S 0 * f)
        else match relabel6 T (tim + 1) e1 fir vis1 dis with
          | (true, dis1) => zkwLoop S T fir dfsFuel fuel (tim + 1) vis1 e1 dis1
              (res + dis.getD S 0 * f)
          | (false, dis1) =>
              some (res + dis.getD S 0 * f, e1, dis1, vis1, tim + 1)) = some r := h
      by_cases hge : 0 ≤ dis.getD S 0
      · rw [if_pos hge] at h1
        have h2 := Option.some.inj h1
        subst h2
        exact Or.inl hge
      · rw [if_neg hge] at h1
        by_cases hf : f ≠ 0
        · rw [if_pos hf] at h1
          exact ih _ _ _ _ _ r h1
        · rw [if_neg hf] at h1
          cases hrel : relabel6 T (tim + 1) e1 fir vis1 dis with
          | mk b dis1 =>
            rw [hrel] at h1
            cases b with
            | true => exact ih _ _ _ _ _ r h1
            | false =>
              have h2 : some (res + dis.getD S 0 * f, e1, dis1, vis1, tim + 1) =
                  some r := h1
              have h3 := Option.some.inj h2
              subst h3
              right
              have hfalse : (relabel6 T (tim + 1) e1 fir vis1 dis).1 = false := by
                rw [hrel]
              have hslack := (relabel6_false_iff T (tim + 1) e1 fir vis1 dis).mp hfalse
              have hdis1 : dis1 = dis := by
                have : (relabel6 T (tim + 1) e1 fir vis1 dis).2 = dis1 := by
                  rw [hrel]
                rw [← this]
                unfold relabel6
                rw [if_pos hslack]
              rw [hdis1]
              exact hslack

end Sol6

/-! ### The claims -/

namespace Sol0

/-- C4: the shortest-path oracle `mcmf::spfa`, run from the source over the
current residual graph, computes for every node the minimum cost of a simple
residual path (edges with residual capacity > 0) from the source, with
`dis[src] = 0` and the `inf` sentinel exactly on the unreachable nodes,
reports whether the sink's distance is finite, and records a valid tight
`par`/`idx` predecessor entry for every reached node other than the source. -/
theorem claim_C4_spfa {g : Graph} {nodes src sink : Nat} {B : Int}
    {par0 : Array Int} {idx0 : Array Nat} {fuel : Nat} {st : SpfaSt}
    (hg : g.size = nodes) (hwf : WF g) (hsrc : src < nodes)
    (hpar0 : par0.size = nodes) (hidx0 : idx0.size = nodes)
    (hB : CostBound g nodes B)
    (hrun : spfa g nodes src par0 idx0 fuel = some st) :
    SpfaPost g nodes src sink st :=
  spfa_post_of_run hg hwf hsrc hpar0 hidx0 hB hrun

/-- C5: after a completed `mcmf::solve` on a freshly built graph (all flows
zero), flow is conserved: at every node other than the source and the sink,
the inbound flow on forward (positive-capacity) edges equals the outbound
flow on forward edges. -/
theorem claim_C5_conservation {nodes src sink spfaFuel fuel : Nat} {M : MState}
    {res : Int × Int × MState × List (Int × Int × Graph)}
    (hsrc : src < nodes) (hsink : sink < nodes)
    (hginv : GInv M.g nodes) (hpar : M.par.size = nodes)
    (hidx : M.idx.size = nodes)
    (h0 : ∀ u, u < M.g.size → ∀ i, i < (M.g.getD u #[]).size →
      (edgeAt M.g u i).flow = 0)
    (hrun : solveFull nodes src sink spfaFuel fuel M = some res) :
    ∀ y, y < nodes → y ≠ src → y ≠ sink →
      outFlowF res.2.2.1.g y = inFlowF res.2.2.1.g y := by
  obtain ⟨new, htr, hc, hf, hgi, hsh, hnet, hall, hp, hi⟩ :=
    solveLoop_master hsrc hsink fuel M 0 0 [] res hginv hpar hidx hrun
  intro y hy hys hyt
  have hzero : netAll M.g y = 0 :=
    netAll_zero_of_flows_zero (fun u i hv => h0 u hv.1 i hv.2) y
  have hnet2 : netAll res.2.2.1.g y = 0 := by
    rw [hnet y hys hyt]
    exact hzero
  have heq := netAll_eq_out_sub_in hgi.1 hgi.2.1 hgi.2.2.1 hgi.2.2.2.1 y hy
  omega

/-- C6: across the iterations of the successive-shortest-path loop of
`mcmf::solve`, the sequence of per-augmentation path costs `dis[sink]`
recorded in the trace is non-decreasing. -/
theorem claim_C6_monotone {nodes src sink spfaFuel fuel : Nat} {B : Int}
    {M : MState} {res : Int × Int × MState × List (Int × Int × Graph)}
    (hsrc : src < nodes) (hsink : sink < nodes)
    (hginv : GInv M.g nodes) (hpar : M.par.size = nodes)
    (hidx : M.idx.size = nodes) (hCB : CostBound M.g nodes B)
    (hrun : solveFull nodes src sink spfaFuel fuel M = some res) :
    List.Chain' (fun a b : Int => a ≤ b) (res.2.2.2.map (fun t => t.1)) := by
  obtain ⟨new, htr, hch, _⟩ :=
    solveLoop_trace_mono hsrc hsink fuel M 0 0 [] res hginv hpar hidx hCB hrun
  have hnew : res.2.2.2 = new := by simpa using htr
  rw [hnew, List.chain'_map]
  exact hch

/-- C7: when the sink is unreachable from the source in the residual graph at
the moment `mcmf::solve` is called, `solve` returns `(0, 0)` at once, with
the graph untouched and an empty augmentation trace: normal termination, not
an error. -/
theorem claim_C7_unreachable {nodes src sink spfaFuel fuel : Nat} {B : Int}
    {M : MState} {st : SpfaSt}
    (hsrc : src < nodes) (hsink : sink < nodes)
    (hginv : GInv M.g nodes) (hpar : M.par.size = nodes)
    (hidx : M.idx.size = nodes) (hB : CostBound M.g nodes B)
    (hun : ¬ ∃ P, IsPath M.g src sink P)
    (hspfa : spfa M.g nodes src M.par M.idx spfaFuel = some st) :
    solveFull nodes src sink spfaFuel (fuel + 1) M =
      some (0, 0, ⟨M.g, st.par, st.idx⟩, []) ∧
    solve nodes src sink spfaFuel (fuel + 1) M = some (0, 0) := by
  have hpost : SpfaPost M.g nodes src sink st :=
    spfa_post_of_run hginv.1 hginv.2.1 hsrc hpar hidx hB hspfa
  have hnotfin : ¬ st.dis.getD sink 0 < inf := fun hfin =>
    hun ((hpost.2.2.1 sink hsink).mp hfin)
  have hr : spfaReached st sink = false := by
    cases hreach : spfaReached st sink
    · rfl
    · exact absurd (hpost.2.1.mp hreach) hnotfin
  have hstop : solveLoop nodes src sink spfaFuel (fuel + 1) M 0 0 [] =
      some (0, 0, ⟨M.g, st.par, st.idx⟩, []) := solveLoop_eq_stop hspfa hr
  refine ⟨hstop, ?_⟩
  unfold solve solveFull
  rw [hstop]
  rfl

/-- C8: `mcmf::solve` mutates only the flow fields: the final graph and every
mid-loop snapshot of the trace have the same size, the same adjacency-list
lengths, and the same endpoint, reverse-index, capacity and cost on every
edge as the input graph. -/
theorem claim_C8_frame {nodes src sink spfaFuel fuel : Nat} {M : MState}
    {res : Int × Int × MState × List (Int × Int × Graph)}
    (hsrc : src < nodes) (hsink : sink < nodes)
    (hginv : GInv M.g nodes) (hpar : M.par.size = nodes)
    (hidx : M.idx.size = nodes)
    (hrun : solveFull nodes src sink spfaFuel fuel M = some res) :
    sameShape M.g res.2.2.1.g ∧ ∀ t ∈ res.2.2.2, sameShape M.g t.2.2 := by
  obtain ⟨new, htr, _, _, _, hsh, _, hall, _, _⟩ :=
    solveLoop_master hsrc hsink fuel M 0 0 [] res hginv hpar hidx hrun
  refine ⟨hsh, ?_⟩
  intro t ht
  have ht2 : t ∈ new := by
    rw [htr] at ht
    simpa using ht
  exact (hall t ht2).2.1

end Sol0

namespace Sol0

/-- C1 (amended): in the baseline solver `mcmf::solve`, each augmentation
pushes a positive bottleneck along the predecessor path and contributes
exactly `bottleneck * dis[sink]` to the total cost and `bottleneck` to the
total flow, and `solve` returns the pair `(totalCost, totalFlow)` of the sums
over all augmentations.  (The edge-list solver of
`saved_graph_solution_1.cpp`, also cited by the claim, instead adds `dis[t]`
once per augmentation and returns a single integer: see the
counterexample.) -/
theorem claim_C1_corrected {nodes src sink spfaFuel fuel : Nat} {M : MState}
    {res : Int × Int × MState × List (Int × Int × Graph)}
    (hsrc : src < nodes) (hsink : sink < nodes)
    (hginv : GInv M.g nodes) (hpar : M.par.size = nodes)
    (hidx : M.idx.size = nodes)
    (hrun : solveFull nodes src sink spfaFuel fuel M = some res) :
    res.1 = (res.2.2.2.map (fun t => t.2.1 * t.1)).sum ∧
    res.2.1 = (res.2.2.2.map (fun t => t.2.1)).sum ∧
    (∀ t ∈ res.2.2.2, 0 < t.2.1) ∧
    solve nodes src sink spfaFuel fuel M = some (res.1, res.2.1) := by
  obtain ⟨new, htr, hc, hf, _, _, _, hall, _, _⟩ :=
    solveLoop_master hsrc hsink fuel M 0 0 [] res hginv hpar hidx hrun
  have hnew : res.2.2.2 = new := by simpa using htr
  refine ⟨?_, ?_, ?_, ?_⟩
  · rw [hnew]
    omega
  · rw [hnew]
    omega
  · intro t ht
    exact (hall t (hnew ▸ ht)).2.2.2
  · unfold solve
    rw [hrun]
    rfl

/-- C1 counterexample: on a single source-to-sink edge of capacity `2` and
cost `5`, `MIN_COST_MAX_FLOW::solve` of `saved_graph_solution_1.cpp` pushes
the bottleneck `2` (the forward residual drops to `0` and the companion rises
to `2`) but returns the single integer `5 = dis[t]`, not the claimed
accumulated `bottleneck * dist = 2 * 5 = 10`, and not a pair. -/
theorem claim_C1_counterexample :
    Sol1.solve 2 0 1 20 5 10 (Sol1.add_edge (Sol1.init 2) 0 1 2 5) =
      some (5, ⟨#[0, 1], #[1, 0], #[-1, -1], #[0, 2], #[5, -5], 2⟩) ∧
    (5 : Int) ≠ 2 * 5 :=
  ⟨by decide, by decide⟩

/-- C2 (amended): what `mcmf::solve` really maintains, after the run and at
every mid-loop snapshot: `flow ≤ capacity` and `0 ≤ capacity - flow` on every
edge, and `0 ≤ flow` on the forward (positive-capacity) edges.  The synthetic
reverse edges carry the negated flow of their partners, so `0 ≤ flow` fails
for them: see the counterexample. -/
theorem claim_C2_corrected {nodes src sink spfaFuel fuel : Nat} {M : MState}
    {res : Int × Int × MState × List (Int × Int × Graph)}
    (hsrc : src < nodes) (hsink : sink < nodes)
    (hginv : GInv M.g nodes) (hpar : M.par.size = nodes)
    (hidx : M.idx.size = nodes)
    (hrun : solveFull nodes src sink spfaFuel fuel M = some res) :
    (∀ u i, ValidLoc res.2.2.1.g u i →
      (edgeAt res.2.2.1.g u i).flow ≤ (edgeAt res.2.2.1.g u i).cap ∧
      0 ≤ residualAt res.2.2.1.g u i ∧
      (0 < (edgeAt res.2.2.1.g u i).cap → 0 ≤ (edgeAt res.2.2.1.g u i).flow)) ∧
    (∀ t ∈ res.2.2.2, ∀ u i, ValidLoc t.2.2 u i →
      (edgeAt t.2.2 u i).flow ≤ (edgeAt t.2.2 u i).cap ∧
      0 ≤ residualAt t.2.2 u i ∧
      (0 < (edgeAt t.2.2 u i).cap → 0 ≤ (edgeAt t.2.2 u i).flow)) := by
  obtain ⟨new, htr, _, _, hgi, _, _, hall, _, _⟩ :=
    solveLoop_master hsrc hsink fuel M 0 0 [] res hginv hpar hidx hrun
  refine ⟨flow_bounds_of_GInv hgi, ?_⟩
  intro t ht
  have ht2 : t ∈ new := by
    rw [htr] at ht
    simpa using ht
  exact flow_bounds_of_GInv (hall t ht2).1

/-- C2 counterexample: after `solve` on the single directed edge
`add_edge(0, 1, 1, 3)`, the synthetic reverse edge `g[1][0]` carries
`flow = -1`, so `0 ≤ flow` does not hold for every edge. -/
theorem claim_C2_counterexample :
    (solveFull 2 0 1 20 5 (mstate0 (buildGraph 2 [(0, 1, 1, 3, true)]) 2)).map
      (fun r => (edgeAt r.2.2.1.g 1 0).flow) = some (-1) ∧
    ¬ (0 : Int) ≤ -1 :=
  ⟨by decide, by decide⟩

end Sol0

namespace Sol0

/-- C3 (amended): in `saved_graph_solution_0.cpp`,
`add_edge(u, v, cap, cost, directed = false)` appends two independent
directed pairs: a forward edge `u -> v` of capacity `cap` with its own
zero-capacity reverse companion, and a forward edge `v -> u` of capacity
`cap` with its own zero-capacity companion; pushing flow through either
forward edge leaves the residual capacities of the other pair untouched.
(The `AddEdge` of `saved_graph_solution_6.cpp`, also cited by the claim,
instead gives the single companion capacity `cap`, and pushing one way does
change the opposite residual: see the counterexample.) -/
theorem claim_C3_structure (g : Graph) (u v : Nat) (cap cost : Int)
    (hu : u < g.size) (hv : v < g.size) (hne : u ≠ v) :
    edgeAt (add_edge g u v cap cost false) u (g.getD u #[]).size =
      ⟨v, (g.getD v #[]).size, cap, cost, 0⟩ ∧
    edgeAt (add_edge g u v cap cost false) v (g.getD v #[]).size =
      ⟨u, (g.getD u #[]).size, 0, -cost, 0⟩ ∧
    edgeAt (add_edge g u v cap cost false) v ((g.getD v #[]).size + 1) =
      ⟨u, (g.getD u #[]).size + 1, cap, cost, 0⟩ ∧
    edgeAt (add_edge g u v cap cost false) u ((g.getD u #[]).size + 1) =
      ⟨v, (g.getD v #[]).size + 1, 0, -cost, 0⟩ ∧
    (∀ b : Int,
      residualAt (pushEdge (add_edge g u v cap cost false) u
          (g.getD u #[]).size b) v ((g.getD v #[]).size + 1) =
        residualAt (add_edge g u v cap cost false) v ((g.getD v #[]).size + 1) ∧
      residualAt (pushEdge (add_edge g u v cap cost false) u
          (g.getD u #[]).size b) u ((g.getD u #[]).size + 1) =
        residualAt (add_edge g u v cap cost false) u ((g.getD u #[]).size + 1)) ∧
    (∀ b : Int,
      residualAt (pushEdge (add_edge g u v cap cost false) v
          ((g.getD v #[]).size + 1) b) u (g.getD u #[]).size =
        residualAt (add_edge g u v cap cost false) u (g.getD u #[]).size ∧
      residualAt (pushEdge (add_edge g u v cap cost false) v
          ((g.getD v #[]).size + 1) b) v (g.getD v #[]).size =
        residualAt (add_edge g u v cap cost false) v (g.getD v #[]).size) := by
  obtain ⟨hgu, hgv, hgw, hgs⟩ := add_edge_undirected_getD g u v cap cost hu hv hne
  have he1 : edgeAt (add_edge g u v cap cost false) u (g.getD u #[]).size =
      ⟨v, (g.getD v #[]).size, cap, cost, 0⟩ := by
    unfold edgeAt
    rw [hgu, getD_push_lt _ _ _ _ (by rw [Array.size_push]; omega)]
    exact getD_push_size _ _ _
  have he2 : edgeAt (add_edge g u v cap cost false) u ((g.getD u #[]).size + 1) =
      ⟨v, (g.getD v #[]).size + 1, 0, -cost, 0⟩ := by
    unfold edgeAt
    rw [hgu]
    rw [show (g.getD u #[]).size + 1 =
      ((g.getD u #[]).push ⟨v, (g.getD v #[]).size, cap, cost, 0⟩).size from
      (Array.size_push _ _).symm]
    exact getD_push_size _ _ _
  have he3 : edgeAt (add_edge g u v cap cost false) v (g.getD v #[]).size =
      ⟨u, (g.getD u #[]).size, 0, -cost, 0⟩ := by
    unfold edgeAt
    rw [hgv, getD_push_lt _ _ _ _ (by rw [Array.size_push]; omega)]
    exact getD_push_size _ _ _
  have he4 : edgeAt (add_edge g u v cap cost false) v ((g.getD v #[]).size + 1) =
      ⟨u, (g.getD u #[]).size + 1, cap, cost, 0⟩ := by
    unfold edgeAt
    rw [hgv]
    rw [show (g.getD v #[]).size + 1 =
      ((g.getD v #[]).push ⟨u, (g.getD u #[]).size, 0, -cost, 0⟩).size from
      (Array.size_push _ _).symm]
    exact getD_push_size _ _ _
  have hdegu : ((add_edge g u v cap cost false).getD u #[]).size =
      (g.getD u #[]).size + 2 := by
    rw [hgu, Array.size_push, Array.size_push]
  have hdegv : ((add_edge g u v cap cost false).getD v #[]).size =
      (g.getD v #[]).size + 2 := by
    rw [hgv, Array.size_push, Array.size_push]
  have hvu1 : ValidLoc (add_edge g u v cap cost false) u (g.getD u #[]).size :=
    ⟨by rw [hgs]; exact hu, by rw [hdegu]; omega⟩
  have hvu2 : ValidLoc (add_edge g u v cap cost false) u ((g.getD u #[]).size + 1) :=
    ⟨by rw [hgs]; exact hu, by rw [hdegu]; omega⟩
  have hvv1 : ValidLoc (add_edge g u v cap cost false) v (g.getD v #[]).size :=
    ⟨by rw [hgs]; exact hv, by rw [hdegv]; omega⟩
  have hvv2 : ValidLoc (add_edge g u v cap cost false) v ((g.getD v #[]).size + 1) :=
    ⟨by rw [hgs]; exact hv, by rw [hdegv]; omega⟩
  have hp1 : partnerLoc (add_edge g u v cap cost false) u (g.getD u #[]).size =
      (v, (g.getD v #[]).size) := by
    unfold partnerLoc
    rw [he1]
  have hp2 : partnerLoc (add_edge g u v cap cost false) v ((g.getD v #[]).size + 1) =
      (u, (g.getD u #[]).size + 1) := by
    unfold partnerLoc
    rw [he4]
  refine ⟨he1, he3, he4, he2, ?_, ?_⟩
  · intro b
    constructor
    · refine residual_pushEdge_ne hvu1 (by rw [hp1]; exact hvv1) b v
        ((g.getD v #[]).size + 1) ?_ ?_
      · intro hc
        exact hne (congrArg Prod.fst hc).symm
      · rw [hp1]
        intro hc
        have := congrArg Prod.snd hc
        simp only [] at this
        omega
    · refine residual_pushEdge_ne hvu1 (by rw [hp1]; exact hvv1) b u
        ((g.getD u #[]).size + 1) ?_ ?_
      · intro hc
        have := congrArg Prod.snd hc
        simp only [] at this
        omega
      · rw [hp1]
        intro hc
        exact hne (congrArg Prod.fst hc)
  · intro b
    constructor
    · refine residual_pushEdge_ne hvv2 (by rw [hp2]; exact hvu2) b u
        (g.getD u #[]).size ?_ ?_
      · intro hc
        exact hne (congrArg Prod.fst hc)
      · rw [hp2]
        intro hc
        have := congrArg Prod.snd hc
        simp only [] at this
        omega
    · refine residual_pushEdge_ne hvv2 (by rw [hp2]; exact hvu2) b v
        (g.getD v #[]).size ?_ ?_
      · intro hc
        have := congrArg Prod.snd hc
        simp only [] at this
        omega
      · rw [hp2]
        intro hc
        exact hne (congrArg Prod.fst hc).symm

end Sol0

namespace Sol6

/-- C3 counterexample: `AddEdge(1, 2, 1, 0)` of `saved_graph_solution_6.cpp`
gives the companion edge `2 -> 1` capacity `1` instead of a zero-capacity
reverse of an independent second pair; after `zkw()` pushes one unit through
`1 -> 2` (on the graph `Add_Edge(0,1,1,0); AddEdge(1,2,1,0)` with `S = 0`,
`T = 2`), the residual capacity available in the direction `2 -> 1` has grown
from `1` to `2`: pushing one way does change the opposite direction. -/
theorem claim_C3_counterexample :
    ((AddEdge (Add_Edge (clearGraph 3) 0 1 1 0) 1 2 1 0).e.getD 3 default).cap = 1 ∧
    (zkw6 0 2 (AddEdge (Add_Edge (clearGraph 3) 0 1 1 0) 1 2 1 0) 20 20 10).map
      (fun r => (r.2.1.getD 3 default).cap) = some 2 ∧
    (2 : Int) ≠ 1 :=
  ⟨by decide, by decide, by decide⟩

end Sol6

namespace Sol0

/-- C10: for every edge pair of the graph, after a completed solve on a
freshly built graph the pairing is involutive, the sum of the two residual
capacities is unchanged from its initial value, and (when the queried side is
the forward one) equals that forward edge's original capacity; moreover a
push of `b` through an edge moves exactly `b` units from its residual to its
partner's. -/
theorem claim_C10_pairs {nodes src sink spfaFuel fuel : Nat} {M : MState}
    {res : Int × Int × MState × List (Int × Int × Graph)}
    (hsrc : src < nodes) (hsink : sink < nodes)
    (hginv : GInv M.g nodes) (hpar : M.par.size = nodes)
    (hidx : M.idx.size = nodes)
    (h0 : ∀ u, u < M.g.size → ∀ i, i < (M.g.getD u #[]).size →
      (edgeAt M.g u i).flow = 0)
    (hrun : solveFull nodes src sink spfaFuel fuel M = some res) :
    (∀ u i, ValidLoc M.g u i →
      partnerLoc res.2.2.1.g (partnerLoc res.2.2.1.g u i).1
        (partnerLoc res.2.2.1.g u i).2 = (u, i) ∧
      residualAt res.2.2.1.g u i +
        residualAt res.2.2.1.g (partnerLoc res.2.2.1.g u i).1
          (partnerLoc res.2.2.1.g u i).2 =
        residualAt M.g u i +
          residualAt M.g (partnerLoc M.g u i).1 (partnerLoc M.g u i).2 ∧
      (0 < (edgeAt M.g u i).cap →
        residualAt res.2.2.1.g u i +
          residualAt res.2.2.1.g (partnerLoc res.2.2.1.g u i).1
            (partnerLoc res.2.2.1.g u i).2 = (edgeAt M.g u i).cap)) ∧
    (∀ g2 : Graph, WF g2 → FlowInv g2 → ∀ u i, ValidLoc g2 u i →
      partnerLoc g2 u i ≠ (u, i) → ∀ b : Int,
      residualAt (pushEdge g2 u i b) u i = residualAt g2 u i - b ∧
      residualAt (pushEdge g2 u i b) (partnerLoc g2 u i).1 (partnerLoc g2 u i).2 =
        residualAt g2 (partnerLoc g2 u i).1 (partnerLoc g2 u i).2 + b) := by
  obtain ⟨new, htr, _, _, hgi, hsh, _, hall, _, _⟩ :=
    solveLoop_master hsrc hsink fuel M 0 0 [] res hginv hpar hidx hrun
  constructor
  · intro u i hv
    have hv2 : ValidLoc res.2.2.1.g u i := ValidLoc_of_sameShape hsh hv
    have hpeq : partnerLoc res.2.2.1.g u i = partnerLoc M.g u i :=
      partnerLoc_of_sameShape hsh u i
    have h1 := residual_pair_sum_eq_cap hgi.2.2.1 hv2
    have h2 := residual_pair_sum_eq_cap hginv.2.2.1 hv
    have hcap1 : (edgeAt res.2.2.1.g u i).cap = (edgeAt M.g u i).cap :=
      edgeCap_of_sameShape hsh u i
    have hcap2 : (edgeAt res.2.2.1.g (partnerLoc res.2.2.1.g u i).1
        (partnerLoc res.2.2.1.g u i).2).cap =
        (edgeAt M.g (partnerLoc M.g u i).1 (partnerLoc M.g u i).2).cap := by
      rw [hpeq]
      exact edgeCap_of_sameShape hsh _ _
    have hinit0 : residualAt M.g u i = (edgeAt M.g u i).cap := by
      unfold residualAt
      rw [h0 u hv.1 i hv.2]
      ring
    refine ⟨partner_involution hgi.2.1 hv2, by omega, ?_⟩
    intro hcpos
    have hcap0 := (hginv.2.2.2.1 u hv.1 i hv.2).2
    have hpv := partner_valid hginv.2.1 hv
    have hinitp : residualAt M.g (partnerLoc M.g u i).1 (partnerLoc M.g u i).2 =
        (edgeAt M.g (partnerLoc M.g u i).1 (partnerLoc M.g u i).2).cap := by
      unfold residualAt
      rw [h0 (partnerLoc M.g u i).1 hpv.1 (partnerLoc M.g u i).2 hpv.2]
      ring
    rcases hcap0 with hc | hc
    · omega
    · omega
  · intro g2 hwf2 hfi2 u i hv2 hne2 b
    have hpv2 := partner_valid hwf2 hv2
    exact ⟨residual_pushEdge_self hv2 hpv2 b hne2,
      residual_pushEdge_partner hv2 hpv2 b hne2⟩

end Sol0

namespace Sol6

/-- C9 (amended): in the zkw cost-scaling solver, `relabel()` returns `false`
(leaving the potentials alone) exactly when the minimum slack over residual
edges leaving the visited set is `INF`, and otherwise raises the potentials
of exactly the nodes visited in the current phase (`vis[i] == tim`, `i <= T`)
by that minimum slack; the `zkw()` loop, however, terminates either through
that infinite-slack relabel failure or through the early
`if (dis[S] >= 0) return res;` exit, which can fire with finite slack (see
the counterexample). -/
theorem claim_C9_relabel (S T tim : Nat) (e : Array E6) (fir : Array Int)
    (vis : Array Nat) (dis : Array Int) (dfsFuel : Nat) :
    ((relabel6 T tim e fir vis dis).1 = false ↔
      computeSlack T tim e fir vis dis = INF6) ∧
    (∀ j, ((relabel6 T tim e fir vis dis).2).getD j 0 =
      if computeSlack T tim e fir vis dis ≠ INF6 ∧ j < T + 1 ∧
          vis.getD j 0 = tim ∧ j < dis.size
      then dis.getD j 0 + computeSlack T tim e fir vis dis
      else dis.getD j 0) ∧
    (∀ fuel tim0 : Nat, ∀ vis0 : Array Nat, ∀ e0 : Array E6, ∀ dis0 : Array Int,
      ∀ res0 : Int, ∀ r : Int × Array E6 × Array Int × Array Nat × Nat,
      zkwLoop S T fir dfsFuel fuel tim0 vis0 e0 dis0 res0 = some r →
      0 ≤ r.2.2.1.getD S 0 ∨
        computeSlack T r.2.2.2.2 r.2.1 fir r.2.2.2.1 r.2.2.1 = INF6) :=
  ⟨relabel6_false_iff T tim e fir vis dis,
    relabel6_dis T tim e fir vis dis,
    zkwLoop_exit S T fir dfsFuel⟩

/-- C9 counterexample: on the graph `Add_Edge(0,1,1,5); Add_Edge(0,1,1,7)`
with `S = 0`, `T = 1`, `zkw()` terminates (returning `0` through the
`dis[S] >= 0` early exit) while the minimum relabel slack on the final state
is `2`, not `INF`: the variant does not terminate exactly when the slack is
infinite. -/
theorem claim_C9_counterexample :
    zkw6 0 1 (Add_Edge (Add_Edge (clearGraph 2) 0 1 1 5) 0 1 1 7) 20 20 10 =
      some (0, #[⟨1, 0, 5, -1⟩, ⟨0, 1, -5, -1⟩, ⟨1, 1, 7, 0⟩, ⟨0, 0, -7, 1⟩],
        #[5, 0], #[1, 0], 1) ∧
    computeSlack 1 1 #[⟨1, 0, 5, -1⟩, ⟨0, 1, -5, -1⟩, ⟨1, 1, 7, 0⟩, ⟨0, 0, -7, 1⟩]
      #[2, 3] #[1, 0] #[5, 0] = 2 ∧
    (2 : Int) ≠ INF6 :=
  ⟨by decide, by decide, by decide⟩

end Sol6

/-! ### Witnesses: the claims applied to concrete graphs -/

namespace Sol0

instance (g : Graph) (nodes : Nat) : Decidable (GInv g nodes) := by
  unfold GInv
  infer_instance

instance : DecidableEq Graph := by
  infer_instance

instance : DecidableEq (List (Int × Int × Graph)) := by
  infer_instance

/-- Witness for C1 on a single edge of capacity 2 and cost 5: one augmentation
of bottleneck 2 at distance 5, total cost 10 = 2 * 5, returned as a pair. -/
theorem claim_C1_witness :
    GInv (buildGraph 2 [(0, 1, 2, 5, true)]) 2 ∧
    solveFull 2 0 1 20 5 (mstate0 (buildGraph 2 [(0, 1, 2, 5, true)]) 2) =
      some (10, 2, ⟨#[#[⟨1, 0, 2, 5, 2⟩], #[⟨0, 0, 0, -5, -2⟩]], #[-1, 0], #[0, 0]⟩,
        [(5, 2, #[#[⟨1, 0, 2, 5, 2⟩], #[⟨0, 0, 0, -5, -2⟩]])]) ∧
    (10 : Int) = ([((5 : Int), (2 : Int),
      (#[#[⟨1, 0, 2, 5, 2⟩], #[⟨0, 0, 0, -5, -2⟩]] : Graph))].map
        (fun t => t.2.1 * t.1)).sum ∧
    solve 2 0 1 20 5 (mstate0 (buildGraph 2 [(0, 1, 2, 5, true)]) 2) =
      some (10, 2) := by
  have hrun : solveFull 2 0 1 20 5 (mstate0 (buildGraph 2 [(0, 1, 2, 5, true)]) 2) =
      some (10, 2, ⟨#[#[⟨1, 0, 2, 5, 2⟩], #[⟨0, 0, 0, -5, -2⟩]], #[-1, 0], #[0, 0]⟩,
        [(5, 2, #[#[⟨1, 0, 2, 5, 2⟩], #[⟨0, 0, 0, -5, -2⟩]])]) := by decide
  have h := claim_C1_corrected (by decide) (by decide) (by decide) (by decide)
    (by decide) hrun
  exact ⟨by decide, hrun, h.1, h.2.2.2⟩

/-- Witness for C2 on a single edge of capacity 1 and cost 3: in the final
graph the forward edge obeys the bounds and the reverse edge keeps a
non-negative residual. -/
theorem claim_C2_witness :
    GInv (buildGraph 2 [(0, 1, 1, 3, true)]) 2 ∧
    solveFull 2 0 1 20 5 (mstate0 (buildGraph 2 [(0, 1, 1, 3, true)]) 2) =
      some (3, 1, ⟨#[#[⟨1, 0, 1, 3, 1⟩], #[⟨0, 0, 0, -3, -1⟩]], #[-1, 0], #[0, 0]⟩,
        [(3, 1, #[#[⟨1, 0, 1, 3, 1⟩], #[⟨0, 0, 0, -3, -1⟩]])]) ∧
    (edgeAt (#[#[⟨1, 0, 1, 3, 1⟩], #[⟨0, 0, 0, -3, -1⟩]] : Graph) 0 0).flow ≤
      (edgeAt (#[#[⟨1, 0, 1, 3, 1⟩], #[⟨0, 0, 0, -3, -1⟩]] : Graph) 0 0).cap ∧
    0 ≤ residualAt (#[#[⟨1, 0, 1, 3, 1⟩], #[⟨0, 0, 0, -3, -1⟩]] : Graph) 1 0 := by
  have hrun : solveFull 2 0 1 20 5 (mstate0 (buildGraph 2 [(0, 1, 1, 3, true)]) 2) =
      some (3, 1, ⟨#[#[⟨1, 0, 1, 3, 1⟩], #[⟨0, 0, 0, -3, -1⟩]], #[-1, 0], #[0, 0]⟩,
        [(3, 1, #[#[⟨1, 0, 1, 3, 1⟩], #[⟨0, 0, 0, -3, -1⟩]])]) := by decide
  have h := claim_C2_corrected (by decide) (by decide) (by decide) (by decide)
    (by decide) hrun
  exact ⟨by decide, hrun, (h.1 0 0 (by decide)).1, (h.1 1 0 (by decide)).2.1⟩

/-- Witness for C3 on two fresh nodes: the four appended edges of
`add_edge(0, 1, 3, 4, false)` and the independence of a push of 2 on the
first forward edge from the second pair's residuals. -/
theorem claim_C3_witness :
    0 < (Array.mkArray 2 (#[] : Array Edge)).size ∧
    1 < (Array.mkArray 2 (#[] : Array Edge)).size ∧
    edgeAt (add_edge (Array.mkArray 2 (#[] : Array Edge)) 0 1 3 4 false) 0 0 =
      ⟨1, 0, 3, 4, 0⟩ ∧
    edgeAt (add_edge (Array.mkArray 2 (#[] : Array Edge)) 0 1 3 4 false) 1 1 =
      ⟨0, 1, 3, 4, 0⟩ ∧
    residualAt (pushEdge (add_edge (Array.mkArray 2 (#[] : Array Edge))
        0 1 3 4 false) 0 0 2) 1 1 =
      residualAt (add_edge (Array.mkArray 2 (#[] : Array Edge)) 0 1 3 4 false) 1 1 := by
  have h := claim_C3_structure (Array.mkArray 2 (#[] : Array Edge)) 0 1 3 4
    (by decide) (by decide) (by decide)
  exact ⟨by decide, by decide, h.1, h.2.2.1, (h.2.2.2.2.1 2).1⟩

/-- Witness for C4 on a single edge of capacity 1 and cost 3: the completed
`spfa` run from node 0 satisfies the full shortest-path postcondition. -/
theorem claim_C4_witness :
    CostBound (buildGraph 2 [(0, 1, 1, 3, true)]) 2 3 ∧
    WF (buildGraph 2 [(0, 1, 1, 3, true)]) ∧
    spfa (buildGraph 2 [(0, 1, 1, 3, true)]) 2 0 (Array.mkArray 2 0)
      (Array.mkArray 2 0) 10 =
      some ⟨#[0, 3], #[-1, 0], #[0, 0], #[false, false], []⟩ ∧
    SpfaPost (buildGraph 2 [(0, 1, 1, 3, true)]) 2 0 1
      ⟨#[0, 3], #[-1, 0], #[0, 0], #[false, false], []⟩ := by
  have hrun : spfa (buildGraph 2 [(0, 1, 1, 3, true)]) 2 0 (Array.mkArray 2 0)
      (Array.mkArray 2 0) 10 =
      some ⟨#[0, 3], #[-1, 0], #[0, 0], #[false, false], []⟩ := by decide
  have hB : CostBound (buildGraph 2 [(0, 1, 1, 3, true)]) 2 3 := by decide
  exact ⟨hB, by decide, hrun,
    claim_C4_spfa (by decide) (by decide) (by decide) (by decide) (by decide)
      hB hrun⟩

/-- Witness for C5 on the path 0 -> 1 -> 2 -> 3 of unit capacities: after the
solve, the interior nodes 1 and 2 conserve forward flow. -/
theorem claim_C5_witness :
    GInv (buildGraph 4 [(0, 1, 1, 0, true), (1, 2, 1, 0, true),
      (2, 3, 1, 0, true)]) 4 ∧
    solveFull 4 0 3 30 8 (mstate0 (buildGraph 4 [(0, 1, 1, 0, true),
        (1, 2, 1, 0, true), (2, 3, 1, 0, true)]) 4) =
      some (0, 1, ⟨#[#[⟨1, 0, 1, 0, 1⟩],
        #[⟨0, 0, 0, 0, -1⟩, ⟨2, 0, 1, 0, 1⟩],
        #[⟨1, 1, 0, 0, -1⟩, ⟨3, 0, 1, 0, 1⟩],
        #[⟨2, 1, 0, 0, -1⟩]], #[-1, 0, 1, 2], #[0, 0, 1, 1]⟩,
        [(0, 1, #[#[⟨1, 0, 1, 0, 1⟩],
          #[⟨0, 0, 0, 0, -1⟩, ⟨2, 0, 1, 0, 1⟩],
          #[⟨1, 1, 0, 0, -1⟩, ⟨3, 0, 1, 0, 1⟩],
          #[⟨2, 1, 0, 0, -1⟩]])]) ∧
    outFlowF (#[#[⟨1, 0, 1, 0, 1⟩],
      #[⟨0, 0, 0, 0, -1⟩, ⟨2, 0, 1, 0, 1⟩],
      #[⟨1, 1, 0, 0, -1⟩, ⟨3, 0, 1, 0, 1⟩],
      #[⟨2, 1, 0, 0, -1⟩]] : Graph) 1 =
      inFlowF (#[#[⟨1, 0, 1, 0, 1⟩],
        #[⟨0, 0, 0, 0, -1⟩, ⟨2, 0, 1, 0, 1⟩],
        #[⟨1, 1, 0, 0, -1⟩, ⟨3, 0, 1, 0, 1⟩],
        #[⟨2, 1, 0, 0, -1⟩]] : Graph) 1 ∧
    outFlowF (#[#[⟨1, 0, 1, 0, 1⟩],
      #[⟨0, 0, 0, 0, -1⟩, ⟨2, 0, 1, 0, 1⟩],
      #[⟨1, 1, 0, 0, -1⟩, ⟨3, 0, 1, 0, 1⟩],
      #[⟨2, 1, 0, 0, -1⟩]] : Graph) 2 =
      inFlowF (#[#[⟨1, 0, 1, 0, 1⟩],
        #[⟨0, 0, 0, 0, -1⟩, ⟨2, 0, 1, 0, 1⟩],
        #[⟨1, 1, 0, 0, -1⟩, ⟨3, 0, 1, 0, 1⟩],
        #[⟨2, 1, 0, 0, -1⟩]] : Graph) 2 := by
  have hrun : solveFull 4 0 3 30 8 (mstate0 (buildGraph 4 [(0, 1, 1, 0, true),
        (1, 2, 1, 0, true), (2, 3, 1, 0, true)]) 4) =
      some (0, 1, ⟨#[#[⟨1, 0, 1, 0, 1⟩],
        #[⟨0, 0, 0, 0, -1⟩, ⟨2, 0, 1, 0, 1⟩],
        #[⟨1, 1, 0, 0, -1⟩, ⟨3, 0, 1, 0, 1⟩],
        #[⟨2, 1, 0, 0, -1⟩]], #[-1, 0, 1, 2], #[0, 0, 1, 1]⟩,
        [(0, 1, #[#[⟨1, 0, 1, 0, 1⟩],
          #[⟨0, 0, 0, 0, -1⟩, ⟨2, 0, 1, 0, 1⟩],
          #[⟨1, 1, 0, 0, -1⟩, ⟨3, 0, 1, 0, 1⟩],
          #[⟨2, 1, 0, 0, -1⟩]])]) := by decide
  have h := claim_C5_conservation (by decide) (by decide) (by decide) (by decide)
    (by decide) (by decide) hrun
  exact ⟨by decide, hrun, h 1 (by decide) (by decide) (by decide),
    h 2 (by decide) (by decide) (by decide)⟩

/-- Witness for C6 on two parallel edges of costs 1 and 5: the recorded
per-augmentation costs are [1, 5], a non-decreasing chain. -/
theorem claim_C6_witness :
    CostBound (buildGraph 2 [(0, 1, 1, 1, true), (0, 1, 1, 5, true)]) 2 5 ∧
    solveFull 2 0 1 30 8 (mstate0 (buildGraph 2 [(0, 1, 1, 1, true),
        (0, 1, 1, 5, true)]) 2) =
      some (6, 2, ⟨#[#[⟨1, 0, 1, 1, 1⟩, ⟨1, 1, 1, 5, 1⟩],
        #[⟨0, 0, 0, -1, -1⟩, ⟨0, 1, 0, -5, -1⟩]], #[-1, 0], #[0, 1]⟩,
        [(1, 1, #[#[⟨1, 0, 1, 1, 1⟩, ⟨1, 1, 1, 5, 0⟩],
          #[⟨0, 0, 0, -1, -1⟩, ⟨0, 1, 0, -5, 0⟩]]),
         (5, 1, #[#[⟨1, 0, 1, 1, 1⟩, ⟨1, 1, 1, 5, 1⟩],
          #[⟨0, 0, 0, -1, -1⟩, ⟨0, 1, 0, -5, -1⟩]])]) ∧
    List.Chain' (fun a b : Int => a ≤ b)
      ([(1, 1, (#[#[⟨1, 0, 1, 1, 1⟩, ⟨1, 1, 1, 5, 0⟩],
          #[⟨0, 0, 0, -1, -1⟩, ⟨0, 1, 0, -5, 0⟩]] : Graph)),
        (5, 1, (#[#[⟨1, 0, 1, 1, 1⟩, ⟨1, 1, 1, 5, 1⟩],
          #[⟨0, 0, 0, -1, -1⟩, ⟨0, 1, 0, -5, -1⟩]] : Graph))].map
        (fun t => t.1)) := by
  have hrun : solveFull 2 0 1 30 8 (mstate0 (buildGraph 2 [(0, 1, 1, 1, true),
        (0, 1, 1, 5, true)]) 2) =
      some (6, 2, ⟨#[#[⟨1, 0, 1, 1, 1⟩, ⟨1, 1, 1, 5, 1⟩],
        #[⟨0, 0, 0, -1, -1⟩, ⟨0, 1, 0, -5, -1⟩]], #[-1, 0], #[0, 1]⟩,
        [(1, 1, #[#[⟨1, 0, 1, 1, 1⟩, ⟨1, 1, 1, 5, 0⟩],
          #[⟨0, 0, 0, -1, -1⟩, ⟨0, 1, 0, -5, 0⟩]]),
         (5, 1, #[#[⟨1, 0, 1, 1, 1⟩, ⟨1, 1, 1, 5, 1⟩],
          #[⟨0, 0, 0, -1, -1⟩, ⟨0, 1, 0, -5, -1⟩]])]) := by decide
  have hB : CostBound (buildGraph 2 [(0, 1, 1, 1, true), (0, 1, 1, 5, true)]) 2 5 :=
    by decide
  exact ⟨hB, hrun, claim_C6_monotone (by decide) (by decide) (by decide)
    (by decide) (by decide) hB hrun⟩

/-- Witness for C7 on a graph whose only source edge has zero capacity: the
sink is unreachable and `solve` returns `(0, 0)` with the graph untouched. -/
theorem claim_C7_witness :
    (¬ ∃ P, IsPath (buildGraph 2 [(0, 1, 0, 0, true)]) 0 1 P) ∧
    solveFull 2 0 1 10 (4 + 1) (mstate0 (buildGraph 2 [(0, 1, 0, 0, true)]) 2) =
      some (0, 0, ⟨buildGraph 2 [(0, 1, 0, 0, true)], #[-1, 0], #[0, 0]⟩, []) ∧
    solve 2 0 1 10 (4 + 1) (mstate0 (buildGraph 2 [(0, 1, 0, 0, true)]) 2) =
      some (0, 0) := by
  have hrunspfa : spfa (buildGraph 2 [(0, 1, 0, 0, true)]) 2 0 (Array.mkArray 2 0)
      (Array.mkArray 2 0) 10 =
      some ⟨#[0, 1000000000000000005], #[-1, 0], #[0, 0], #[false, false], []⟩ :=
    by decide
  have hB : CostBound (buildGraph 2 [(0, 1, 0, 0, true)]) 2 1 := by decide
  have hpost : SpfaPost (buildGraph 2 [(0, 1, 0, 0, true)]) 2 0 1
      ⟨#[0, 1000000000000000005], #[-1, 0], #[0, 0], #[false, false], []⟩ :=
    spfa_post_of_run (by decide) (by decide) (by decide) (by decide) (by decide)
      hB hrunspfa
  have hun : ¬ ∃ P, IsPath (buildGraph 2 [(0, 1, 0, 0, true)]) 0 1 P := by
    intro hex
    have hfin := (hpost.2.2.1 1 (by decide)).mpr hex
    exact absurd hfin (by decide)
  have h : solveFull 2 0 1 10 (4 + 1) (mstate0 (buildGraph 2 [(0, 1, 0, 0, true)]) 2) =
        some (0, 0, ⟨buildGraph 2 [(0, 1, 0, 0, true)], #[-1, 0], #[0, 0]⟩, []) ∧
      solve 2 0 1 10 (4 + 1) (mstate0 (buildGraph 2 [(0, 1, 0, 0, true)]) 2) =
        some (0, 0) :=
    claim_C7_unreachable (show (0 : Nat) < 2 by decide) (show (1 : Nat) < 2 by decide)
      (show GInv (mstate0 (buildGraph 2 [(0, 1, 0, 0, true)]) 2).g 2 by decide)
      (show (mstate0 (buildGraph 2 [(0, 1, 0, 0, true)]) 2).par.size = 2 by decide)
      (show (mstate0 (buildGraph 2 [(0, 1, 0, 0, true)]) 2).idx.size = 2 by decide)
      hB hun hrunspfa
  exact ⟨hun, h.1, h.2⟩

/-- Witness for C8 on a single edge of capacity 2 and cost 5: the final graph
of the solve has the same shape, capacities and costs as the input graph. -/
theorem claim_C8_witness :
    GInv (buildGraph 2 [(0, 1, 2, 5, true)]) 2 ∧
    sameShape (buildGraph 2 [(0, 1, 2, 5, true)])
      (#[#[⟨1, 0, 2, 5, 2⟩], #[⟨0, 0, 0, -5, -2⟩]] : Graph) := by
  have hrun : solveFull 2 0 1 20 5 (mstate0 (buildGraph 2 [(0, 1, 2, 5, true)]) 2) =
      some (10, 2, ⟨#[#[⟨1, 0, 2, 5, 2⟩], #[⟨0, 0, 0, -5, -2⟩]], #[-1, 0], #[0, 0]⟩,
        [(5, 2, #[#[⟨1, 0, 2, 5, 2⟩], #[⟨0, 0, 0, -5, -2⟩]])]) := by decide
  have h := claim_C8_frame (by decide) (by decide) (by decide) (by decide)
    (by decide) hrun
  exact ⟨by decide, h.1⟩

/-- Witness for C10 on a single edge of capacity 1 and cost 3: the residual
pair sum stays at the original capacity 1 after the solve, the pairing is
involutive, and a push of 1 on the fresh graph moves one residual unit to the
partner. -/
theorem claim_C10_witness :
    GInv (buildGraph 2 [(0, 1, 1, 3, true)]) 2 ∧
    residualAt (#[#[⟨1, 0, 1, 3, 1⟩], #[⟨0, 0, 0, -3, -1⟩]] : Graph) 0 0 +
      residualAt (#[#[⟨1, 0, 1, 3, 1⟩], #[⟨0, 0, 0, -3, -1⟩]] : Graph)
        (partnerLoc (#[#[⟨1, 0, 1, 3, 1⟩], #[⟨0, 0, 0, -3, -1⟩]] : Graph) 0 0).1
        (partnerLoc (#[#[⟨1, 0, 1, 3, 1⟩], #[⟨0, 0, 0, -3, -1⟩]] : Graph) 0 0).2 =
      (edgeAt (buildGraph 2 [(0, 1, 1, 3, true)]) 0 0).cap ∧
    residualAt (pushEdge (buildGraph 2 [(0, 1, 1, 3, true)]) 0 0 1) 0 0 =
      residualAt (buildGraph 2 [(0, 1, 1, 3, true)]) 0 0 - 1 := by
  have hrun : solveFull 2 0 1 20 5 (mstate0 (buildGraph 2 [(0, 1, 1, 3, true)]) 2) =
      some (3, 1, ⟨#[#[⟨1, 0, 1, 3, 1⟩], #[⟨0, 0, 0, -3, -1⟩]], #[-1, 0], #[0, 0]⟩,
        [(3, 1, #[#[⟨1, 0, 1, 3, 1⟩], #[⟨0, 0, 0, -3, -1⟩]])]) := by decide
  have h := claim_C10_pairs (by decide) (by decide) (by decide) (by decide)
    (by decide) (by decide) hrun
  exact ⟨by decide, (h.1 0 0 (by decide)).2.2 (by decide),
    (h.2 (buildGraph 2 [(0, 1, 1, 3, true)]) (by decide) (by decide) 0 0
      (by decide) (by decide) 1).1⟩

end Sol0
